import Mathlib

/-!
PrograConcurrent-Trabajos: a verification development

Shallow embedding of the four trainers under `pc2/` (random forest, neural
network, collaborative filtering, SVM), sequential and concurrent variants.

Conventions of the embedding
* `float64` values are exact rationals (`ℚ`); Go `int` values are `Int`.
* A Go pointer `*DecisionTree` is the inductive `DecisionTree` whose constructor
  `nil` is the nil pointer; dereferencing it is a panic, modelled by `none`.
* Every nondeterministic choice of a run (a `math/rand` draw, the iteration order
  of `range` over a map) is read from an explicit `Chance` stream.
* Goroutines are modelled by a step function `step : State → Action → Option State`
  whose `Action` names the thread that moves; a run is a list of actions.
-/

/-! ## Shared data model -/

/-- The `preprocess.Record` of the adult-income dataset (the packages `rf/preprocess`
and `ann/preprocess` declare the same struct as `svm/preprocess`). -/
structure Record where
  Age : Int := 0
  WorkClass : String := ""
  Fnlwgt : Int := 0
  Education : String := ""
  EducationNum : Int := 0
  MaritalStatus : String := ""
  Occupation : String := ""
  Relationship : String := ""
  Race : String := ""
  Sex : String := ""
  CapitalGain : Int := 0
  CapitalLoss : Int := 0
  HoursPerWeek : Int := 0
  NativeCountry : String := ""
  Income : String := ""
deriving DecidableEq, Repr

/-- Source of the nondeterministic choices of a run: the `k`-th choice made is
`draws k`; `pos` is the number of choices already consumed. -/
structure Chance where
  draws : Nat → Nat
  pos : Nat := 0

namespace Chance

/-- Consume one raw choice. -/
def next (c : Chance) : Nat × Chance :=
  (c.draws c.pos, { c with pos := c.pos + 1 })

/-- `rand.Intn(n)` for `n > 0`: a value in `[0, n)`. -/
def Intn (n : Nat) (c : Chance) : Nat × Chance :=
  ((c.next).1 % n, (c.next).2)

/-- `rand.Float64()`: a value in `[0, 1)` with 53 bits of precision. -/
def Float64 (c : Chance) : ℚ × Chance :=
  ((((c.next).1 % 2 ^ 53 : Nat) : ℚ) / 2 ^ 53, (c.next).2)

/-- The order in which `for k, v := range m` visits the entries of a map: some
permutation of the entries, selected by the next choice. -/
def rangeOrder {α : Type} (m : List α) (c : Chance) : List α × Chance :=
  (m.permutations.getD ((c.next).1 % m.permutations.length) m, (c.next).2)

/-- The order in which goroutines that contend for one mutex get it: some
permutation of the contenders, selected by the next choice. -/
def arrivalOrder {α : Type} (xs : List α) (c : Chance) : List α × Chance :=
  (xs.permutations.getD ((c.next).1 % xs.permutations.length) xs, (c.next).2)

end Chance

/-! ## Maps from label to count (`map[string]int`) -/

/-- The statement `m[k]++` on a `map[string]int` kept as an association list with
distinct keys. -/
def mapIncr : List (String × Int) → String → List (String × Int)
  | [], k => [(k, 1)]
  | (k', c) :: t, k => if k' = k then (k', c + 1) :: t else (k', c) :: mapIncr t k

/-- The read `m[k]` of a `map[string]int`: the zero value when the key is absent. -/
def mapGet : List (String × Int) → String → Int
  | [], _ => 0
  | (k', c) :: t, k => if k' = k then c else mapGet t k

/-- The loop `for _, x := range xs { m[x]++ }` starting from the map `m`. -/
def tallyInto (m : List (String × Int)) (xs : List String) : List (String × Int) :=
  xs.foldl mapIncr m

/-- The loop
`for label, count := range m { if count > max { max = count; majority = label } }`
run over the entries in the order `trav`, from `max = 0`, `majority = ""`. -/
def scanMajority (trav : List (String × Int)) : String :=
  (trav.foldl (fun (acc : Int × String) (e : String × Int) =>
      if e.2 > acc.1 then (e.2, e.1) else acc) (0, "")).2

/-! ## Random forest (`pc2/random-forest`) -/

namespace RF

/-- A `*DecisionTree`: `nil` is the nil pointer, `node` a pointer to a struct with
the fields `SplitFeature`, `Threshold`, `Left`, `Right`, `Prediction`. -/
inductive DecisionTree where
  | nil : DecisionTree
  | node (SplitFeature : Int) (Threshold : ℚ) (Left Right : DecisionTree)
      (Prediction : String) : DecisionTree
deriving DecidableEq, Repr

/-- The `switch` on the feature index shared by `predict`, `splitRecords` and the
concurrent `chooseBestSplit`; an index outside {0,2,4,10,11,12} leaves the zero
value of `featureValue`. -/
def featureValue (feature : Int) (record : Record) : ℚ :=
  if feature = 0 then (record.Age : ℚ)
  else if feature = 2 then (record.Fnlwgt : ℚ)
  else if feature = 4 then (record.EducationNum : ℚ)
  else if feature = 10 then (record.CapitalGain : ℚ)
  else if feature = 11 then (record.CapitalLoss : ℚ)
  else if feature = 12 then (record.HoursPerWeek : ℚ)
  else 0

/-- The method `(*DecisionTree).predict`; `none` is the nil-pointer panic raised
by reading `tree.Prediction` through a nil receiver. -/
def DecisionTree.predict : DecisionTree → Record → Option String
  | .nil, _ => none
  | .node feature threshold left right prediction, record =>
    if prediction ≠ "" then some prediction
    else if featureValue feature record < threshold then left.predict record
    else right.predict record

/-- The function `splitRecords`. -/
def splitRecords (records : List Record) (feature : Int) (threshold : ℚ) :
    List Record × List Record :=
  records.foldl (fun (acc : List Record × List Record) record =>
    if featureValue feature record < threshold then (acc.1 ++ [record], acc.2)
    else (acc.1, acc.2 ++ [record])) ([], [])

/-- The function `majorityLabel`: tally the `Income` labels, then scan the map in
the iteration order the run happens to get. -/
def majorityLabel (records : List Record) (c : Chance) : String × Chance :=
  let labelCount := tallyInto [] (records.map (·.Income))
  (scanMajority (c.rangeOrder labelCount).1, (c.rangeOrder labelCount).2)

/-- The loop of `bootstrapSample` after `i` iterations are left to do. -/
def bootstrapLoop (records : List Record) : Nat → List Record → Chance → List Record × Chance
  | 0, sample, c => (sample, c)
  | n + 1, sample, c =>
    match records[(c.Intn records.length).1]? with
    | some r => bootstrapLoop records n (sample ++ [r]) (c.Intn records.length).2
    | none => bootstrapLoop records n sample (c.Intn records.length).2

/-- The function `bootstrapSample`: `len(records)` draws with replacement. -/
def bootstrapSample (records : List Record) (c : Chance) : List Record × Chance :=
  bootstrapLoop records records.length [] c

/-- The recursion of `buildTree`, over the `chooseBestSplit` of the package.
`fuel` bounds the recursion depth of the model: `none` means the bound was hit
(the Go recursion does not stop for a negative `depth` on records that never
split to an empty side). -/
def buildTreeWith (choose : List Record → Chance → (Int × ℚ) × Chance) :
    Nat → List Record → Int → Chance → Option (DecisionTree × Chance)
  | 0, _, _, _ => none
  | fuel + 1, records, depth, c =>
    if depth = 0 ∨ records.length = 0 then
      some (.node 0 0 .nil .nil (majorityLabel records c).1, (majorityLabel records c).2)
    else
      match buildTreeWith choose fuel
          (splitRecords records (choose records c).1.1 (choose records c).1.2).1
          (depth - 1) (choose records c).2 with
      | none => none
      | some (leftChild, c1) =>
        match buildTreeWith choose fuel
            (splitRecords records (choose records c).1.1 (choose records c).1.2).2
            (depth - 1) c1 with
        | none => none
        | some (rightChild, c2) =>
          some (.node (choose records c).1.1 (choose records c).1.2 leftChild rightChild "", c2)

/-- The struct `RandomForest` (its mutex is part of the concurrent state, not of
the value). -/
structure RandomForest where
  Trees : List DecisionTree
deriving DecidableEq, Repr

/-- The votes of the trees in forest order; `none` when some tree panics. -/
def votesOf (forest : RandomForest) (record : Record) : Option (List String) :=
  forest.Trees.mapM (fun tree => tree.predict record)

namespace Sequential

/-- The sequential `chooseBestSplit`: a random feature in `[0,6)` and a random
threshold in `[0,100)`; the records are not inspected. -/
def chooseBestSplit (_records : List Record) (c : Chance) : (Int × ℚ) × Chance :=
  ((((c.Intn 6).1 : Int), ((c.Intn 6).2.Float64).1 * 100), ((c.Intn 6).2.Float64).2)

/-- The sequential `buildTree`. -/
def buildTree (fuel : Nat) (records : List Record) (depth : Int) (c : Chance) :
    Option (DecisionTree × Chance) :=
  buildTreeWith chooseBestSplit fuel records depth c

/-- The loop `for i := 0; i < numTrees; i++` of the sequential `TrainRandomForest`
with `n` iterations left. -/
def trainLoop (fuel : Nat) (records : List Record) (maxDepth : Int) :
    Nat → RandomForest → Chance → Option (RandomForest × Chance)
  | 0, forest, c => some (forest, c)
  | n + 1, forest, c =>
    match buildTree fuel (bootstrapSample records c).1 maxDepth (bootstrapSample records c).2 with
    | none => none
    | some (tree, c1) => trainLoop fuel records maxDepth n { Trees := forest.Trees ++ [tree] } c1

/-- The sequential `TrainRandomForest`; a negative `numTrees` runs the loop zero
times. -/
def TrainRandomForest (fuel : Nat) (records : List Record) (numTrees maxDepth : Int)
    (c : Chance) : Option (RandomForest × Chance) :=
  trainLoop fuel records maxDepth numTrees.toNat { Trees := [] } c

/-- The sequential `RandomForest.Predict`: the trees vote in forest order, then
the tally is scanned in map-iteration order. `none` is a panic. -/
def Predict (forest : RandomForest) (record : Record) (c : Chance) : Option String :=
  match votesOf forest record with
  | none => none
  | some votes => some (scanMajority (c.rangeOrder (tallyInto [] votes)).1)

end Sequential

namespace Concurrent

/-- The concurrent `chooseBestSplit`: a random feature index in `[0,6)` and the
mean of that feature over the records as threshold. -/
def chooseBestSplit (records : List Record) (c : Chance) : (Int × ℚ) × Chance :=
  ((((c.Intn 6).1 : Int),
    (records.foldl (fun (sum : ℚ) record => sum + featureValue ((c.Intn 6).1 : Int) record) 0)
      / (records.length : ℚ)),
   (c.Intn 6).2)

/-- The concurrent `buildTree`. -/
def buildTree (fuel : Nat) (records : List Record) (depth : Int) (c : Chance) :
    Option (DecisionTree × Chance) :=
  buildTreeWith chooseBestSplit fuel records depth c

/-- The concurrent `RandomForest.Predict`: one goroutine per tree computes its
vote and adds it to `votes` under the mutex, so the votes are tallied in the
order the goroutines get the mutex; after `wg.Wait()` the tally is scanned in
map-iteration order. `none` is a panic (of any goroutine). -/
def Predict (forest : RandomForest) (record : Record) (c : Chance) : Option String :=
  match votesOf forest record with
  | none => none
  | some votes =>
    some (scanMajority
      ((c.arrivalOrder votes).2.rangeOrder (tallyInto [] (c.arrivalOrder votes).1)).1)

/-- Arguments of one call of the concurrent `TrainRandomForest`, with the bound
`fuel` of the tree recursion and the choices `unitChance i` seen by the `i`-th
tree-building goroutine (the goroutines share `math/rand`, so each sees an
arbitrary part of its output). -/
structure Cfg where
  records : List Record
  numTrees : Int
  maxDepth : Int
  fuel : Nat
  unitChance : Nat → Chance

/-- Program counter of a tree-building goroutine. -/
inductive UnitPc where
  | building
  | built (tree : DecisionTree)
  | sent
  | released
  | done
deriving DecidableEq, Repr

/-- Program counter of the main goroutine of `TrainRandomForest`. -/
inductive MainPc where
  | loop (i : Nat)
  | collect
  | returned
  | panicked
deriving DecidableEq, Repr

/-- Program counter of the goroutine that closes `treeChan`. -/
inductive CloserPc where
  | notStarted
  | waiting
  | closed
deriving DecidableEq, Repr

/-- State of one call of the concurrent `TrainRandomForest`. -/
structure State where
  main : MainPc
  treeChan : List DecisionTree
  treeClosed : Bool
  workerChan : List Int
  wg : Int
  closer : CloserPc
  units : List UnitPc
  Trees : List DecisionTree
deriving DecidableEq, Repr

/-- A thread that can be scheduled. -/
inductive Action where
  | main
  | closer
  | unit (i : Nat)
deriving DecidableEq, Repr

/-- State after the two `make(chan ...)` calls: a negative `numTrees` makes
`make(chan *DecisionTree, numTrees)` panic. -/
def init (cfg : Cfg) : State :=
  { main := if cfg.numTrees < 0 then .panicked else .loop 0
    treeChan := [], treeClosed := false, workerChan := [], wg := 0,
    closer := .notStarted, units := [], Trees := [] }

/-- One step of the main goroutine. In the loop: `workerChan <- i` (blocks while
four tokens are in the channel), `wg.Add(1)`, `go func()`; after the loop the
closer goroutine is started; then `for tree := range treeChan` appends. -/
def stepMain (cfg : Cfg) (st : State) : Option State :=
  match st.main with
  | .loop i =>
    if (i : Int) < cfg.numTrees then
      if st.workerChan.length < 4 then
        some { st with main := .loop (i + 1), workerChan := st.workerChan ++ [(i : Int)],
                       wg := st.wg + 1, units := st.units ++ [.building] }
      else none
    else some { st with main := .collect, closer := .waiting }
  | .collect =>
    match st.treeChan with
    | tree :: rest => some { st with treeChan := rest, Trees := st.Trees ++ [tree] }
    | [] => if st.treeClosed then some { st with main := .returned } else none
  | .returned => none
  | .panicked => none

/-- One step of the closer goroutine: `wg.Wait()` then `close(treeChan)`. -/
def stepCloser (st : State) : Option State :=
  match st.closer with
  | .waiting => if st.wg = 0 then some { st with closer := .closed, treeClosed := true } else none
  | _ => none

/-- One step of the `i`-th tree-building goroutine: build the tree from a
bootstrap sample, send it on `treeChan` (capacity `numTrees`), take a token out
of `workerChan`, and run the deferred `wg.Done()`. -/
def stepUnit (cfg : Cfg) (st : State) (i : Nat) : Option State :=
  match st.units[i]? with
  | none => none
  | some .building =>
    match buildTree cfg.fuel (bootstrapSample cfg.records (cfg.unitChance i)).1 cfg.maxDepth
        (bootstrapSample cfg.records (cfg.unitChance i)).2 with
    | none => none
    | some (tree, _) => some { st with units := st.units.set i (.built tree) }
  | some (.built tree) =>
    if (st.treeChan.length : Int) < cfg.numTrees ∧ st.treeClosed = false then
      some { st with treeChan := st.treeChan ++ [tree], units := st.units.set i .sent }
    else none
  | some .sent =>
    match st.workerChan with
    | _ :: rest => some { st with workerChan := rest, units := st.units.set i .released }
    | [] => none
  | some .released => some { st with wg := st.wg - 1, units := st.units.set i .done }
  | some .done => none

/-- One scheduled step; `none` when the chosen thread is blocked, finished or
not started. -/
def step (cfg : Cfg) (st : State) : Action → Option State
  | .main => stepMain cfg st
  | .closer => stepCloser st
  | .unit i => stepUnit cfg st i

/-- The state reached by a schedule, a list of scheduled threads. -/
def run (cfg : Cfg) : State → List Action → Option State
  | st, [] => some st
  | st, a :: rest =>
    match step cfg st a with
    | none => none
    | some st1 => run cfg st1 rest

/-- The states a call can reach. -/
def Reachable (cfg : Cfg) (st : State) : Prop :=
  ∃ sched, run cfg (init cfg) sched = some st

/-- Is 1 for a goroutine that has not yet run its deferred `wg.Done()`. -/
def UnitPc.live : UnitPc → Nat
  | .done => 0
  | _ => 1

/-- Is 1 while the token placed for the unit is still in `workerChan`. -/
def UnitPc.holds : UnitPc → Nat
  | .building => 1
  | .built _ => 1
  | .sent => 1
  | _ => 0

/-- Is 1 once the unit has sent its tree on `treeChan`. -/
def UnitPc.delivered : UnitPc → Nat
  | .sent => 1
  | .released => 1
  | .done => 1
  | _ => 0

/-- Number of steps the unit still has to take. -/
def UnitPc.pot : UnitPc → Nat
  | .building => 4
  | .built _ => 3
  | .sent => 2
  | .released => 1
  | .done => 0

/-- Number of steps the whole call still has to take before it returns, for
`numTrees = N`. -/
def potential (N : Nat) (st : State) : Nat :=
  (match st.main with
    | .loop i => 5 * (N - i) + 2
    | .collect => 1
    | _ => 0)
  + (match st.closer with
    | .closed => 0
    | _ => 1)
  + (st.units.map UnitPc.pot).sum + (N - st.Trees.length)

/-- The invariant of the concurrent `TrainRandomForest` for `numTrees = N`: the
WaitGroup counter, the tokens and the trees in transit are accounted for by the
program counters of the units. -/
structure Inv (N : Nat) (st : State) : Prop where
  in_loop : ∀ i, st.main = .loop i → st.units.length = i ∧ i ≤ N ∧ st.closer = .notStarted
  past_loop : st.main ≠ .panicked ∧
    ((∀ i, st.main ≠ .loop i) → st.units.length = N ∧ st.closer ≠ .notStarted)
  at_return : st.main = .returned → st.treeClosed = true ∧ st.treeChan = []
  wg_eq : st.wg = ((st.units.map UnitPc.live).sum : Nat)
  tokens : st.workerChan.length = (st.units.map UnitPc.holds).sum
  in_transit : st.treeChan.length + st.Trees.length = (st.units.map UnitPc.delivered).sum
  closed_iff : st.closer = .closed ↔ st.treeClosed = true
  closed_done : st.treeClosed = true → (st.units.map UnitPc.live).sum = 0
  chan_ne_nil : ∀ t ∈ st.treeChan, t ≠ DecisionTree.nil
  trees_ne_nil : ∀ t ∈ st.Trees, t ≠ DecisionTree.nil
  built_ne_nil : ∀ t, UnitPc.built t ∈ st.units → t ≠ DecisionTree.nil

end Concurrent

end RF

/-! ## Neural network (`pc2/ann`), concurrent trainer

Slices of fixed length are index functions `Nat → ℚ`; the loops of the code touch
the indices below `HiddenNeurons` and `InputNeurons` only, as `NewNeuralNetwork`
allocates them. The activation `sigmoid` (built on `math.Exp`) is a parameter. -/

namespace ANN

/-- The struct `NeuralNetwork` (its mutex is part of the concurrent state). -/
structure NeuralNetwork where
  InputNeurons : Nat
  HiddenNeurons : Nat
  OutputNeurons : Nat
  LearningRate : ℚ
  WeightsIH : Nat → Nat → ℚ
  WeightsHO : Nat → ℚ
  BiasH : Nat → ℚ
  BiasO : ℚ

/-- The four gradient accumulators of `Train`: `gradientsIH`, `gradientsHO`,
`biasGradientsH`, `biasGradientO` (global), or their `local...` counterparts. -/
structure Gradients where
  IH : Nat → Nat → ℚ
  HO : Nat → ℚ
  BH : Nat → ℚ
  BO : ℚ

/-- The accumulators as allocated by `make` and `:= 0.0`. -/
def Gradients.zero : Gradients :=
  { IH := fun _ _ => 0, HO := fun _ => 0, BH := fun _ => 0, BO := 0 }

/-- The function `sigmoidDerivative`. -/
def sigmoidDerivative (x : ℚ) : ℚ := x * (1 - x)

/-- The function `extractFeatures`: six entries. -/
def extractFeatures (record : Record) : List ℚ :=
  [(record.Age : ℚ), (record.Fnlwgt : ℚ), (record.EducationNum : ℚ),
   (record.CapitalGain : ℚ), (record.CapitalLoss : ℚ), (record.HoursPerWeek : ℚ)]

/-- The function `convertLabel` of the network: 1 for ">50K", else 0. -/
def convertLabel (income : String) : ℚ := if income = ">50K" then 1 else 0

/-- The forward pass of hidden neuron `i`: `hiddenOutputs[i]`. -/
def hiddenOutput (sigmoid : ℚ → ℚ) (nn : NeuralNetwork) (features : List ℚ) (i : Nat) : ℚ :=
  sigmoid ((List.range nn.InputNeurons).foldl
    (fun sum j => sum + nn.WeightsIH i j * features.getD j 0) (nn.BiasH i))

/-- The forward pass of the output neuron: `finalOutput`. -/
def finalOutput (sigmoid : ℚ → ℚ) (nn : NeuralNetwork) (features : List ℚ) : ℚ :=
  sigmoid ((List.range nn.HiddenNeurons).foldl
    (fun finalInput i => finalInput + nn.WeightsHO i * hiddenOutput sigmoid nn features i)
    nn.BiasO)

/-- The read `features[j]` for `j < InputNeurons` inside the loop over the hidden
neurons stays in range exactly when there is no hidden neuron or at most six
inputs; otherwise the goroutine panics. -/
def featuresInRange (nn : NeuralNetwork) : Bool :=
  decide (nn.HiddenNeurons = 0 ∨ nn.InputNeurons ≤ 6)

/-- The amounts that the backpropagation of one record adds to the local
accumulators: `deltaHO`, `gradient`, `hiddenGradient * features[j]` and
`hiddenGradient`, computed from the parameters `nn`. -/
def recordGradient (sigmoid : ℚ → ℚ) (nn : NeuralNetwork) (record : Record) : Gradients :=
  let features := extractFeatures record
  let out := finalOutput sigmoid nn features
  let gradient := (convertLabel record.Income - out) * sigmoidDerivative out
  { HO := fun i => gradient * hiddenOutput sigmoid nn features i
    BO := gradient
    IH := fun i j => gradient * nn.WeightsHO i
      * sigmoidDerivative (hiddenOutput sigmoid nn features i) * features.getD j 0
    BH := fun i => gradient * nn.WeightsHO i
      * sigmoidDerivative (hiddenOutput sigmoid nn features i) }

/-- The loops `for i < H { acc.HO[i] += g.HO[i]; acc.BH[i] += g.BH[i];
for j < I { acc.IH[i][j] += g.IH[i][j] } }; acc.BO += g.BO`: how a record is
added to the local accumulators and how the local accumulators are merged into
the global ones. -/
def Gradients.addInto (H I : Nat) (acc g : Gradients) : Gradients :=
  { IH := fun i j => if i < H ∧ j < I then acc.IH i j + g.IH i j else acc.IH i j
    HO := fun i => if i < H then acc.HO i + g.HO i else acc.HO i
    BH := fun i => if i < H then acc.BH i + g.BH i else acc.BH i
    BO := acc.BO + g.BO }

/-- The update of the weights and biases at the end of an epoch:
`nn.WeightsHO[i] += nn.LearningRate * gradientsHO[i]` and so on. -/
def applyGradients (nn : NeuralNetwork) (g : Gradients) : NeuralNetwork :=
  { nn with
    WeightsIH := fun i j =>
      if i < nn.HiddenNeurons ∧ j < nn.InputNeurons
      then nn.WeightsIH i j + nn.LearningRate * g.IH i j else nn.WeightsIH i j
    WeightsHO := fun i =>
      if i < nn.HiddenNeurons then nn.WeightsHO i + nn.LearningRate * g.HO i
      else nn.WeightsHO i
    BiasH := fun i =>
      if i < nn.HiddenNeurons then nn.BiasH i + nn.LearningRate * g.BH i else nn.BiasH i
    BiasO := nn.BiasO + nn.LearningRate * g.BO }

/-- Sum over all records of the per-record gradient at the parameters `nn`. -/
def batchGradient (sigmoid : ℚ → ℚ) (nn : NeuralNetwork) (records : List Record) : Gradients :=
  { IH := fun i j => (records.map (fun r => (recordGradient sigmoid nn r).IH i j)).sum
    HO := fun i => (records.map (fun r => (recordGradient sigmoid nn r).HO i)).sum
    BH := fun i => (records.map (fun r => (recordGradient sigmoid nn r).BH i)).sum
    BO := (records.map (fun r => (recordGradient sigmoid nn r).BO)).sum }

/-- One step of full-batch gradient ascent on the records: every weight and bias
moves by `LearningRate` times the summed gradient at the parameters `nn`. -/
def batchStep (sigmoid : ℚ → ℚ) (records : List Record) (nn : NeuralNetwork) : NeuralNetwork :=
  applyGradients nn (batchGradient sigmoid nn records)

namespace Concurrent

/-- Arguments of one call `nn.Train(records, epochs, workers)`, the network at
the call, and the activation. -/
structure Cfg where
  sigmoid : ℚ → ℚ
  nn0 : NeuralNetwork
  records : List Record
  epochs : Int
  workers : Int

/-- Program counter of a worker goroutine: in the `range recordChan` loop, out
of it and waiting for `nn.mu`, merged, token taken out of `workerChan`, and
after the deferred `wg.Done()`. -/
inductive WorkerPc where
  | ranging
  | merging
  | merged
  | released
  | done
deriving DecidableEq, Repr

/-- A worker goroutine: the epoch whose loop iteration started it, its program
counter and its local accumulators. -/
structure Worker where
  epoch : Nat
  pc : WorkerPc
  loc : Gradients

/-- Program counter of the goroutine that runs `Train`. -/
inductive MainPc where
  | panicked
  | epochCheck
  | spawn (w : Nat)
  | send (i : Nat)
  | close
  | wait
  | apply
  | reset
  | returned
deriving DecidableEq, Repr

/-- State of one call of the concurrent `Train`. `applied` counts the updates of
the weights done so far; `crashed` records a panic in a worker goroutine. -/
structure State where
  main : MainPc
  epoch : Nat
  nn : NeuralNetwork
  global : Gradients
  recordChan : List Record
  recordClosed : Bool
  workerChan : List Int
  wg : Int
  workers : List Worker
  applied : Nat
  crashed : Bool

/-- A thread that can be scheduled. -/
inductive Action where
  | main
  | worker (k : Nat)
deriving DecidableEq, Repr

/-- State after the two `make(chan ...)` calls: a negative `workers` makes
`make(chan int, workers)` panic. -/
def init (cfg : Cfg) : State :=
  { main := if cfg.workers < 0 then .panicked else .epochCheck
    epoch := 0, nn := cfg.nn0, global := Gradients.zero, recordChan := [],
    recordClosed := false, workerChan := [], wg := 0, workers := [], applied := 0,
    crashed := false }

/-- One step of the `Train` goroutine. -/
def stepMain (cfg : Cfg) (st : State) : Option State :=
  match st.main with
  | .panicked => none
  | .epochCheck =>
    if (st.epoch : Int) < cfg.epochs then
      some { st with main := .spawn 0, global := Gradients.zero }
    else some { st with main := .returned }
  | .spawn w =>
    if (w : Int) < cfg.workers then
      if (st.workerChan.length : Int) < cfg.workers then
        some { st with main := .spawn (w + 1), workerChan := st.workerChan ++ [(w : Int)],
                       wg := st.wg + 1,
                       workers := st.workers ++ [⟨st.epoch, .ranging, Gradients.zero⟩] }
      else none
    else some { st with main := .send 0 }
  | .send i =>
    match cfg.records[i]? with
    | some record =>
      if st.recordChan.length < cfg.records.length then
        some { st with main := .send (i + 1), recordChan := st.recordChan ++ [record] }
      else none
    | none => some { st with main := .close }
  | .close => some { st with main := .wait, recordClosed := true }
  | .wait => if st.wg = 0 then some { st with main := .apply } else none
  | .apply =>
    some { st with main := .reset, nn := applyGradients st.nn st.global,
                   applied := st.applied + 1 }
  | .reset =>
    some { st with main := .epochCheck, recordChan := [], recordClosed := false,
                   epoch := st.epoch + 1 }
  | .returned => none

/-- One step of the `k`-th worker goroutine started so far. In the loop it
receives a record and adds its gradient, computed from the current weights, to
its local accumulators; when the channel is closed and drained it leaves the
loop, merges under `nn.mu`, takes a token out of `workerChan` and finishes. -/
def stepWorker (cfg : Cfg) (st : State) (k : Nat) : Option State :=
  match st.workers[k]? with
  | none => none
  | some w =>
    match w.pc with
    | .ranging =>
      match st.recordChan with
      | record :: rest =>
        if featuresInRange st.nn then
          some { st with
            recordChan := rest
            workers := st.workers.set k { w with
              loc := w.loc.addInto st.nn.HiddenNeurons st.nn.InputNeurons
                (recordGradient cfg.sigmoid st.nn record) } }
        else some { st with crashed := true }
      | [] =>
        if st.recordClosed then some { st with workers := st.workers.set k { w with pc := .merging } }
        else none
    | .merging =>
      some { st with
        global := st.global.addInto st.nn.HiddenNeurons st.nn.InputNeurons w.loc
        workers := st.workers.set k { w with pc := .merged } }
    | .merged =>
      match st.workerChan with
      | _ :: rest =>
        some { st with workerChan := rest, workers := st.workers.set k { w with pc := .released } }
      | [] => none
    | .released =>
      some { st with wg := st.wg - 1, workers := st.workers.set k { w with pc := .done } }
    | .done => none

/-- One scheduled step; `none` when the chosen thread is blocked, finished or
not started, or when the program has crashed. -/
def step (cfg : Cfg) (st : State) (a : Action) : Option State :=
  if st.crashed then none
  else match a with
    | .main => stepMain cfg st
    | .worker k => stepWorker cfg st k

/-- The state reached by a schedule. -/
def run (cfg : Cfg) : State → List Action → Option State
  | st, [] => some st
  | st, a :: rest =>
    match step cfg st a with
    | none => none
    | some st1 => run cfg st1 rest

/-- An entry of the accumulators: `IH[i][j]`, `HO[i]`, `BH[i]` or the scalar. -/
inductive Coord where
  | IH (i j : Nat)
  | HO (i : Nat)
  | BH (i : Nat)
  | BO
deriving DecidableEq, Repr

/-- The entry lies inside the allocated lengths `H` and `I`. -/
def Coord.inRange (H I : Nat) : Coord → Prop
  | .IH i j => i < H ∧ j < I
  | .HO i => i < H
  | .BH i => i < H
  | .BO => True

/-- The value of an entry of the accumulators. -/
def entry (g : Gradients) : Coord → ℚ
  | .IH i j => g.IH i j
  | .HO i => g.HO i
  | .BH i => g.BH i
  | .BO => g.BO

/-- Is 1 for a worker that has not yet run its deferred `wg.Done()`. -/
def Worker.live (w : Worker) : Nat :=
  match w.pc with
  | .done => 0
  | _ => 1

/-- Is 1 while the token placed for the worker is still in `workerChan`. -/
def Worker.holds (w : Worker) : Nat :=
  match w.pc with
  | .ranging => 1
  | .merging => 1
  | .merged => 1
  | _ => 0

/-- Is 1 for a worker started in epoch `e`. -/
def Worker.isCur (e : Nat) (w : Worker) : Nat := if w.epoch = e then 1 else 0

/-- The entry `c` of the local accumulators of a worker that has not merged. -/
def Worker.unmergedAt (c : Coord) (w : Worker) : ℚ :=
  match w.pc with
  | .ranging => entry w.loc c
  | .merging => entry w.loc c
  | _ => 0

/-- The entry `c` of the local accumulators of a worker of epoch `e` that has
merged. -/
def Worker.mergedAt (e : Nat) (c : Coord) (w : Worker) : ℚ :=
  if w.epoch = e then
    match w.pc with
    | .ranging => 0
    | .merging => 0
    | _ => entry w.loc c
  else 0

/-- The main goroutine is between the start of the workers and the update of the
weights of the current epoch. -/
def MainPc.working : MainPc → Prop
  | .spawn _ => True
  | .send _ => True
  | .close => True
  | .wait => True
  | .apply => True
  | _ => False

/-- Number of records of the current epoch already sent on `recordChan`. -/
def MainPc.sent (n : Nat) : MainPc → Nat
  | .spawn _ => 0
  | .send i => i
  | _ => n

/-- The invariant of the concurrent `Train` for `workers = W`. -/
structure Inv (cfg : Cfg) (W : Nat) (st : State) : Prop where
  dims : st.nn.HiddenNeurons = cfg.nn0.HiddenNeurons ∧ st.nn.InputNeurons = cfg.nn0.InputNeurons
  not_panicked : st.main ≠ .panicked
  wg_eq : st.wg = ((st.workers.map Worker.live).sum : Nat)
  tokens : st.workerChan.length = (st.workers.map Worker.holds).sum
  stamps : ∀ w ∈ st.workers, w.epoch ≤ st.epoch ∧ (w.epoch < st.epoch → w.pc = .done)
  fresh : ¬ st.main.working → st.main ≠ .reset → ∀ w ∈ st.workers, w.epoch < st.epoch
  idle : st.main = .apply ∨ st.main = .reset → (st.workers.map Worker.live).sum = 0
  cur_spawn : ∀ w, st.main = .spawn w → (st.workers.map (Worker.isCur st.epoch)).sum = w ∧ w ≤ W
  cur_full : (st.main.working ∨ st.main = .reset) → (∀ w, st.main ≠ .spawn w) →
    (st.workers.map (Worker.isCur st.epoch)).sum = W
  applied_eq : st.applied = st.epoch + (if st.main = .reset then 1 else 0)
  closed_iff : st.recordClosed = true ↔ (st.main = .wait ∨ st.main = .apply ∨ st.main = .reset)
  left_loop : ∀ w ∈ st.workers, w.epoch = st.epoch → w.pc ≠ .ranging →
    st.recordClosed = true ∧ st.recordChan = []
  queue_empty : (∀ i, st.main ≠ .send i) → st.main ≠ .close → st.recordClosed = false →
    st.recordChan = []
  conservation : st.main.working →
    ∀ c : Coord, c.inRange st.nn.HiddenNeurons st.nn.InputNeurons →
      entry st.global c + (st.workers.map (Worker.unmergedAt c)).sum
        + (st.recordChan.map (fun r => entry (recordGradient cfg.sigmoid st.nn r) c)).sum
        + ((cfg.records.drop (st.main.sent cfg.records.length)).map
            (fun r => entry (recordGradient cfg.sigmoid st.nn r) c)).sum
      = entry (batchGradient cfg.sigmoid st.nn cfg.records) c
  merged_sum : st.main.working →
    ∀ c : Coord, c.inRange st.nn.HiddenNeurons st.nn.InputNeurons →
      entry st.global c = (st.workers.map (Worker.mergedAt st.epoch c)).sum
  nn_batch : 0 < W → st.nn = (batchStep cfg.sigmoid cfg.records)^[st.applied] cfg.nn0
  nn_same : W = 0 → st.nn = cfg.nn0

/-- The local accumulators of the workers started in the current epoch. -/
def epochLocals (st : State) : List Gradients :=
  (st.workers.filter (fun w => decide (w.epoch = st.epoch))).map (fun w => w.loc)

/-- Number of steps a worker still has to take after its last receive. -/
def Worker.pot (w : Worker) : Nat :=
  match w.pc with
  | .ranging => 4
  | .merging => 3
  | .merged => 2
  | .released => 1
  | .done => 0

/-- Number of steps of one epoch with `W` workers and `n` records. -/
def epochCost (W n : Nat) : Nat := 5 * W + 2 * n + 7

/-- Bound on the number of steps the call still takes, for `W` workers, `n`
records and `E` epochs. -/
def potential (W n E : Nat) (st : State) : Nat :=
  (match st.main with
    | .panicked => 0
    | .returned => 0
    | .epochCheck => (E - st.epoch) * epochCost W n + 1
    | .spawn w => (E - st.epoch - 1) * epochCost W n + 1 + (5 * (W - w) + 2 * n + 6)
    | .send i => (E - st.epoch - 1) * epochCost W n + 1 + (2 * (n - i) + 5)
    | .close => (E - st.epoch - 1) * epochCost W n + 1 + 4
    | .wait => (E - st.epoch - 1) * epochCost W n + 1 + 3
    | .apply => (E - st.epoch - 1) * epochCost W n + 1 + 2
    | .reset => (E - st.epoch - 1) * epochCost W n + 1 + 1)
  + (st.workers.map Worker.pot).sum + st.recordChan.length + (if st.crashed then 0 else 1)

/-- Second part of the invariant, for `W` workers and `E` epochs: the epoch
counter stays within the bound, the queue holds no more than was sent, and no
worker panics when the feature reads are in range or no record is ever received
(no worker or no epoch). -/
structure Inv2 (cfg : Cfg) (W E : Nat) (st : State) : Prop where
  not_crashed : featuresInRange cfg.nn0 = true ∨ W = 0 ∨ E = 0 → st.crashed = false
  epoch_lt : (st.main.working ∨ st.main = .reset) → st.epoch < E
  epoch_le : st.epoch ≤ E
  ret_epoch : st.main = .returned → st.epoch = E
  queue_le : ∀ i, st.main = .send i → st.recordChan.length ≤ i ∧ i ≤ cfg.records.length

/-- A small network, used to run the model on concrete inputs. -/
def demoNetwork : NeuralNetwork :=
  { InputNeurons := 6, HiddenNeurons := 1, OutputNeurons := 1, LearningRate := 1 / 100,
    WeightsIH := fun _ _ => 1 / 20, WeightsHO := fun _ => 1 / 20, BiasH := fun _ => 1 / 20,
    BiasO := 1 / 2 }

/-- One epoch over one record with one worker. -/
def demoCfg : Cfg :=
  { sigmoid := fun x => x / 2, nn0 := demoNetwork,
    records := [{ Age := 1, Income := ">50K" }], epochs := 1, workers := 1 }

/-- A schedule of `demoCfg` up to the return of `wg.Wait()`. -/
def demoSchedule : List Action :=
  [.main, .main, .main, .main, .main, .main, .worker 0, .worker 0, .worker 0, .worker 0,
   .worker 0, .main]

end Concurrent

end ANN

/-! ## Collaborative filtering (`pc2/filtrado-colaborativo`)

The package-level matrices `P` and `Q` are index functions: row (a user or movie
id, a Go `int`) and factor index. Rows exist for the ids `0 .. numUsers` and
`0 .. numMovies`; a read outside them is a panic. -/

namespace CF

/-- The struct `preprocess.Rating`. -/
structure Rating where
  UserID : Int
  MovieID : Int
  Rating : ℚ
  Timestamp : Int := 0
deriving DecidableEq, Repr

/-- The constant `K`: number of latent factors. -/
def K : Nat := 10

/-- The constant `epochs`. -/
def epochs : Nat := 50

/-- The constant `alpha`: learning rate 0.01. -/
def alpha : ℚ := 1 / 100

/-- The constant `lambda`: regularisation 0.02. -/
def lambda : ℚ := 1 / 50

/-- The package-level variables `P` and `Q`. -/
structure Factors where
  P : Int → Nat → ℚ
  Q : Int → Nat → ℚ

/-- The function `PredictRating`: the dot product of `P[user]` and `Q[movie]`
over the `K` factors. -/
def PredictRating (f : Factors) (user movie : Int) : ℚ :=
  (List.range K).foldl (fun pred k => pred + f.P user k * f.Q movie k) 0

/-- One iteration `k` of the update loop: `P[user][k]` is updated first, and the
update of `Q[movie][k]` reads the new `P[user][k]`. -/
def updateFactor (err : ℚ) (user movie : Int) (f : Factors) (k : Nat) : Factors :=
  let p := f.P user k + alpha * (err * f.Q movie k - lambda * f.P user k)
  let q := f.Q movie k + alpha * (err * p - lambda * f.Q movie k)
  { P := fun u j => if u = user ∧ j = k then p else f.P u j
    Q := fun m j => if m = movie ∧ j = k then q else f.Q m j }

/-- The loop `for k := 0; k < K; k++` that updates `P[user]` and `Q[movie]` with
the error `err`. -/
def updateLoop (err : ℚ) (user movie : Int) (f : Factors) : Factors :=
  (List.range K).foldl (updateFactor err user movie) f

namespace Sequential

/-- The body of the inner loop of `TrainSequential` for one rating: the error is
computed from the current `P` and `Q`, then the factors are updated. -/
def ratingUpdate (f : Factors) (r : Rating) : Factors :=
  updateLoop (r.Rating - PredictRating f r.UserID r.MovieID) r.UserID r.MovieID f

/-- The function `TrainSequential` from the matrices `f0` that
`InitializeMatrices` filled with random values. -/
def TrainSequential (f0 : Factors) (ratings : List Rating) : Factors :=
  (List.range epochs).foldl (fun f _ => ratings.foldl ratingUpdate f) f0

end Sequential

namespace Concurrent

/-- Arguments of one call `TrainConcurrent(ratings, numUsers, numMovies)` and the
random matrices `f0` that `InitializeMatrices` produces. -/
structure Cfg where
  ratings : List Rating
  numUsers : Int
  numMovies : Int
  f0 : Factors

/-- Program counter of one goroutine `update`: before `PredictRating`, with the
error computed and waiting for the mutex, holding the mutex, after `mu.Unlock()`,
and after the deferred `wg.Done()`. -/
inductive UnitPc where
  | start
  | computed (err : ℚ)
  | locked (err : ℚ)
  | unlocked
  | done
deriving DecidableEq, Repr

/-- One goroutine `update`: its rating, the epoch that started it and its program
counter. -/
structure UpdateUnit where
  rating : Rating
  epoch : Nat
  pc : UnitPc
deriving DecidableEq, Repr

/-- Program counter of the goroutine that runs `TrainConcurrent`. -/
inductive MainPc where
  | panicked
  | spawn (i : Nat)
  | wait
  | returned
deriving DecidableEq, Repr

/-- State of one call of `TrainConcurrent`. `mu` is true while the mutex is held;
`crashed` records a panic in a goroutine. -/
structure State where
  main : MainPc
  epoch : Nat
  factors : Factors
  wg : Int
  mu : Bool
  units : List UpdateUnit
  crashed : Bool

/-- A thread that can be scheduled. -/
inductive Action where
  | main
  | unit (k : Nat)
deriving DecidableEq, Repr

/-- State after `InitializeMatrices`: `make` panics on a negative length. -/
def init (cfg : Cfg) : State :=
  { main := if cfg.numUsers + 1 < 0 ∨ cfg.numMovies + 1 < 0 then .panicked else .spawn 0
    epoch := 0, factors := cfg.f0, wg := 0, mu := false, units := [], crashed := false }

/-- One step of the `TrainConcurrent` goroutine: `wg.Add(1); go update(...)` for
the next rating, or `wg.Wait()` and the next epoch. -/
def stepMain (cfg : Cfg) (st : State) : Option State :=
  match st.main with
  | .panicked => none
  | .spawn i =>
    match cfg.ratings[i]? with
    | some r =>
      some { st with main := .spawn (i + 1), wg := st.wg + 1,
                     units := st.units ++ [⟨r, st.epoch, .start⟩] }
    | none => some { st with main := .wait }
  | .wait =>
    if st.wg = 0 then
      if st.epoch + 1 < epochs then some { st with main := .spawn 0, epoch := st.epoch + 1 }
      else some { st with main := .returned, epoch := st.epoch + 1 }
    else none
  | .returned => none

/-- The rows `P[user]` and `Q[movie]` exist. -/
def rowsExist (cfg : Cfg) (r : Rating) : Bool :=
  decide (0 ≤ r.UserID ∧ r.UserID ≤ cfg.numUsers ∧ 0 ≤ r.MovieID ∧ r.MovieID ≤ cfg.numMovies)

/-- One step of the `k`-th goroutine `update`: compute `pred` and `err` from the
current `P` and `Q` (no lock held), `mu.Lock()`, run the update loop with that
`err` and `mu.Unlock()`, then the deferred `wg.Done()`. -/
def stepUnit (cfg : Cfg) (st : State) (k : Nat) : Option State :=
  match st.units[k]? with
  | none => none
  | some u =>
    match u.pc with
    | .start =>
      if rowsExist cfg u.rating then
        some { st with units := st.units.set k { u with
          pc := .computed
            (u.rating.Rating - PredictRating st.factors u.rating.UserID u.rating.MovieID) } }
      else some { st with crashed := true }
    | .computed err =>
      if st.mu then none
      else some { st with mu := true, units := st.units.set k { u with pc := .locked err } }
    | .locked err =>
      some { st with
        mu := false
        factors := updateLoop err u.rating.UserID u.rating.MovieID st.factors
        units := st.units.set k { u with pc := .unlocked } }
    | .unlocked =>
      some { st with wg := st.wg - 1, units := st.units.set k { u with pc := .done } }
    | .done => none

/-- One scheduled step; `none` when the chosen thread is blocked, finished or
not started, or when the program has crashed. -/
def step (cfg : Cfg) (st : State) (a : Action) : Option State :=
  if st.crashed then none
  else match a with
    | .main => stepMain cfg st
    | .unit k => stepUnit cfg st k

/-- The state reached by a schedule. -/
def run (cfg : Cfg) : State → List Action → Option State
  | st, [] => some st
  | st, a :: rest =>
    match step cfg st a with
    | none => none
    | some st1 => run cfg st1 rest

/-- Is 1 for a goroutine `update` that has not yet run its `wg.Done()`. -/
def UpdateUnit.live (u : UpdateUnit) : Nat :=
  match u.pc with
  | .done => 0
  | _ => 1

/-- Number of goroutines `update` in flight. -/
def inFlight (st : State) : Nat := (st.units.map UpdateUnit.live).sum

/-- Is 1 for a goroutine started in epoch `e`. -/
def UpdateUnit.isCur (e : Nat) (u : UpdateUnit) : Nat := if u.epoch = e then 1 else 0

/-- The invariant of `TrainConcurrent`. -/
structure Inv (cfg : Cfg) (st : State) : Prop where
  not_panicked : st.main ≠ .panicked
  wg_eq : st.wg = ((st.units.map UpdateUnit.live).sum : Nat)
  stamps : ∀ u ∈ st.units, u.epoch ≤ st.epoch ∧ (u.epoch < st.epoch → u.pc = .done)
  cur_spawn : ∀ i, st.main = .spawn i →
    (st.units.map (UpdateUnit.isCur st.epoch)).sum = i ∧ i ≤ cfg.ratings.length
  cur_wait : st.main = .wait →
    (st.units.map (UpdateUnit.isCur st.epoch)).sum = cfg.ratings.length
  at_return : st.main = .returned → ∀ u ∈ st.units, u.epoch < st.epoch

/-- Two ratings of the same user for the same movie. -/
def raceCfg : Cfg :=
  { ratings := [⟨1, 1, 5, 0⟩, ⟨1, 1, 5, 0⟩], numUsers := 1, numMovies := 1
    f0 := { P := fun _ k => if k = 0 then 1 / 2 else 0,
            Q := fun _ k => if k = 0 then 1 / 2 else 0 } }

/-- Both goroutines compute their error before either takes the mutex; then the
first updates, and the second takes the mutex. -/
def raceSchedule : List Action :=
  [.main, .main, .unit 0, .unit 1, .unit 0, .unit 0, .unit 1]

/-- The state of `raceCfg` after both goroutines have been started, with factors
`f`, mutex `mu` and the program counters `pcs` of the goroutines. -/
def raceState (f : Factors) (mu : Bool) (pcs : List UnitPc) : State :=
  { main := .spawn 2, epoch := 0, factors := f, wg := 0 + 1 + 1, mu := mu,
    units := pcs.map (fun pc => ⟨⟨1, 1, 5, 0⟩, 0, pc⟩), crashed := false }

end Concurrent

end CF

/-! ## Linear margin classifier (`pc2/svm`)

Slices are lists; a read past the end of a slice is a panic, modelled by `none`. -/

namespace SVM

/-- The struct `SVM` (its mutex is part of the concurrent state). -/
structure Model where
  Weights : List ℚ
  Bias : ℚ
  Lambda : ℚ
  LR : ℚ
deriving DecidableEq, Repr

/-- The function `extractFeatures`: six entries. -/
def extractFeatures (record : Record) : List ℚ :=
  [(record.Age : ℚ), (record.Fnlwgt : ℚ), (record.EducationNum : ℚ),
   (record.CapitalGain : ℚ), (record.CapitalLoss : ℚ), (record.HoursPerWeek : ℚ)]

/-- The function `convertLabel` of the classifier: 1 for ">50K", else -1. -/
def convertLabel (income : String) : ℚ := if income = ">50K" then 1 else -1

/-- The loop `for i := range vec1 { result += vec1[i] * vec2[i] }`; `none` when
`vec2` is shorter than `vec1`. -/
def dotLoop : ℚ → List ℚ → List ℚ → Option ℚ
  | result, [], _ => some result
  | _, _ :: _, [] => none
  | result, a :: vec1, b :: vec2 => dotLoop (result + a * b) vec1 vec2

/-- The function `dotProduct`. -/
def dotProduct (vec1 vec2 : List ℚ) : Option ℚ := dotLoop 0 vec1 vec2

/-- The loop `for i := range w { w[i] = c*w[i] + d*features[i] }`; `none` when
`features` is shorter than `w`. -/
def weightsUpdate (c d : ℚ) : List ℚ → List ℚ → Option (List ℚ)
  | [], _ => some []
  | _ :: _, [] => none
  | w :: ws, x :: xs => (weightsUpdate c d ws xs).map (fun r => (c * w + d * x) :: r)

/-- The body of the record loop of `TrainSVM` (both variants): the update of the
model for one record. `none` is an index panic. -/
def recordStep (lr lambda : ℚ) (svm : Model) (record : Record) : Option Model :=
  match dotProduct svm.Weights (extractFeatures record) with
  | none => none
  | some dot =>
    if convertLabel record.Income * (dot + svm.Bias) < 1 then
      match weightsUpdate (1 - lr * lambda) (lr * convertLabel record.Income) svm.Weights
          (extractFeatures record) with
      | none => none
      | some ws =>
        some { svm with Weights := ws, Bias := svm.Bias + lr * convertLabel record.Income }
    else some { svm with Weights := svm.Weights.map (fun w => w * (1 - lr * lambda)) }

/-- The model allocated at the start of `TrainSVM`: six zero weights, zero bias. -/
def newModel (lambda lr : ℚ) : Model :=
  { Weights := List.replicate 6 0, Bias := 0, Lambda := lambda, LR := lr }

/-- The method `Predict` (both variants); `none` is an index panic. -/
def Model.Predict (svm : Model) (record : Record) : Option String :=
  match dotProduct svm.Weights (extractFeatures record) with
  | none => none
  | some dot => if dot + svm.Bias ≥ 0 then some ">50K" else some "<=50K"

/-- The work units of a training run in the order the sequential loops visit
them: for each epoch from `e` on, up to `E`, every record in list order, tagged
with its epoch. -/
def unitsFrom (records : List Record) (E : Nat) (e : Nat) : List (Nat × Record) :=
  ((List.range' e (E - e)).map (fun e1 => records.map (fun r => (e1, r)))).flatten

namespace Sequential

/-- The sequential `TrainSVM`: the records in list order, `epochs` times. -/
def TrainSVM (records : List Record) (epochs : Int) (lambda lr : ℚ) : Option Model :=
  (unitsFrom records epochs.toNat 0).foldlM (fun svm u => recordStep lr lambda svm u.2)
    (newModel lambda lr)

end Sequential

namespace Concurrent

/-- Arguments of one call of the concurrent `TrainSVM`. -/
structure Cfg where
  records : List Record
  epochs : Int
  lambda : ℚ
  lr : ℚ
  workers : Int

/-- Program counter of a worker goroutine: in the `range recordChan` loop with
no record in hand, with a received record (tagged with the epoch that sent it)
and waiting for `svm.mu`, and after the deferred `wg.Done()`. -/
inductive WorkerPc where
  | ranging
  | holding (epoch : Nat) (record : Record)
  | done
deriving DecidableEq, Repr

/-- Program counter of the goroutine that runs `TrainSVM`. -/
inductive MainPc where
  | spawn (w : Nat)
  | send (epoch i : Nat)
  | close
  | wait
  | returned
deriving DecidableEq, Repr

/-- State of one call of the concurrent `TrainSVM`. The channel entries carry the
epoch that sent them, and `log` lists the records whose update has been applied,
in the order of application; both are observations, not read by the program. -/
structure State where
  main : MainPc
  svm : Model
  recordChan : List (Nat × Record)
  closed : Bool
  wg : Int
  workers : List WorkerPc
  log : List (Nat × Record)
  crashed : Bool
deriving DecidableEq, Repr

/-- A thread that can be scheduled. -/
inductive Action where
  | main
  | worker (k : Nat)
deriving DecidableEq, Repr

/-- State after the model and the channel have been allocated. -/
def init (cfg : Cfg) : State :=
  { main := .spawn 0, svm := newModel cfg.lambda cfg.lr, recordChan := [], closed := false,
    wg := 0, workers := [], log := [], crashed := false }

/-- One step of the `TrainSVM` goroutine: start the next worker; send the next
record of the current epoch (blocks while the channel holds `len(records)`
entries) or pass to the next epoch; close the channel; `wg.Wait()`. -/
def stepMain (cfg : Cfg) (st : State) : Option State :=
  match st.main with
  | .spawn w =>
    if (w : Int) < cfg.workers then
      some { st with main := .spawn (w + 1), wg := st.wg + 1, workers := st.workers ++ [.ranging] }
    else some { st with main := .send 0 0 }
  | .send e i =>
    if (e : Int) < cfg.epochs then
      match cfg.records[i]? with
      | some record =>
        if st.recordChan.length < cfg.records.length then
          some { st with main := .send e (i + 1), recordChan := st.recordChan ++ [(e, record)] }
        else none
      | none => some { st with main := .send (e + 1) 0 }
    else some { st with main := .close }
  | .close => some { st with main := .wait, closed := true }
  | .wait => if st.wg = 0 then some { st with main := .returned } else none
  | .returned => none

/-- One step of the `k`-th worker goroutine: receive a record; or, with the
record in hand, lock `svm.mu`, apply the update of the record to the shared
model and unlock; or leave the loop when the channel is closed and drained. -/
def stepWorker (cfg : Cfg) (st : State) (k : Nat) : Option State :=
  match st.workers[k]? with
  | none => none
  | some .ranging =>
    match st.recordChan with
    | (e, record) :: rest =>
      some { st with recordChan := rest, workers := st.workers.set k (.holding e record) }
    | [] =>
      if st.closed then some { st with wg := st.wg - 1, workers := st.workers.set k .done }
      else none
  | some (.holding e record) =>
    match recordStep cfg.lr cfg.lambda st.svm record with
    | some svm1 =>
      some { st with svm := svm1, log := st.log ++ [(e, record)],
                     workers := st.workers.set k .ranging }
    | none => some { st with crashed := true }
  | some .done => none

/-- One scheduled step; `none` when the chosen thread is blocked, finished or
not started, or when the program has crashed. -/
def step (cfg : Cfg) (st : State) (a : Action) : Option State :=
  if st.crashed then none
  else match a with
    | .main => stepMain cfg st
    | .worker k => stepWorker cfg st k

/-- The state reached by a schedule. -/
def run (cfg : Cfg) : State → List Action → Option State
  | st, [] => some st
  | st, a :: rest =>
    match step cfg st a with
    | none => none
    | some st1 => run cfg st1 rest

/-- Is 1 for a worker that has not yet run its deferred `wg.Done()`. -/
def WorkerPc.live : WorkerPc → Nat
  | .done => 0
  | _ => 1

/-- The records in the hands of the workers, in worker order. -/
def held : List WorkerPc → List (Nat × Record)
  | [] => []
  | .holding e r :: t => (e, r) :: held t
  | _ :: t => held t

/-- The work units the main goroutine has not sent yet, for `E` epochs. -/
def pending (records : List Record) (E : Nat) : MainPc → List (Nat × Record)
  | .spawn _ => unitsFrom records E 0
  | .send e i =>
    if e < E then (records.drop i).map (fun r => (e, r)) ++ unitsFrom records E (e + 1) else []
  | _ => []

/-- The invariant of the concurrent `TrainSVM` for `W` workers and `E` epochs. -/
structure Inv (cfg : Cfg) (W E : Nat) (st : State) : Prop where
  weights_len : st.svm.Weights.length = 6
  not_crashed : st.crashed = false
  wg_eq : st.wg = ((st.workers.map WorkerPc.live).sum : Nat)
  in_spawn : ∀ w, st.main = .spawn w →
    st.workers.length = w ∧ w ≤ W ∧ st.recordChan = [] ∧ st.log = [] ∧ held st.workers = []
  after_spawn : (∀ w, st.main ≠ .spawn w) → st.workers.length = W
  in_send : ∀ e i, st.main = .send e i → e ≤ E ∧ i ≤ cfg.records.length
  closed_iff : st.closed = true ↔ (st.main = .wait ∨ st.main = .returned)
  done_drained : .done ∈ st.workers → st.closed = true ∧ st.recordChan = []
  model_eq : st.log.foldlM (fun svm u => recordStep cfg.lr cfg.lambda svm u.2)
    (newModel cfg.lambda cfg.lr) = some st.svm
  in_order : W ≤ 1 →
    st.log ++ held st.workers ++ st.recordChan ++ pending cfg.records E st.main
      = unitsFrom cfg.records E 0
  tags_lt : (∀ x ∈ st.log, x.1 < E) ∧ (∀ e r, WorkerPc.holding e r ∈ st.workers → e < E) ∧
    (∀ x ∈ st.recordChan, x.1 < E)
  no_worker : W = 0 → st.log = []
  queue_le : st.recordChan.length ≤ cfg.records.length

/-- Number of steps a worker still takes without receiving another record. -/
def WorkerPc.pot : WorkerPc → Nat
  | .ranging => 1
  | .holding _ _ => 2
  | .done => 0

/-- Bound on the number of steps the call still takes, for `W` workers, `n`
records and `E` epochs. -/
def potential (W n E : Nat) (st : State) : Nat :=
  (match st.main with
    | .spawn w =>
      2 * (W - w) + 1 + (if 0 < E then (E - 1) * (3 * n + 1) + 3 * n + 4 else 3)
    | .send e i => if e < E then (E - e - 1) * (3 * n + 1) + 3 * (n - i) + 4 else 3
    | .close => 2
    | .wait => 1
    | .returned => 0)
  + (st.workers.map WorkerPc.pot).sum + 2 * st.recordChan.length

/-- Two epochs over one record with two workers. -/
def overlapCfg : Cfg :=
  { records := [{ Age := 1, Income := ">50K" }], epochs := 2, lambda := 1 / 100,
    lr := 1 / 1000, workers := 2 }

/-- Worker 0 receives the record of epoch 0; before it applies it, worker 1
receives the record of epoch 1 and applies it. -/
def overlapSchedule : List Action :=
  [.main, .main, .main, .main, .worker 0, .main, .main, .worker 1, .worker 1]

/-- Two epochs over one record with one worker. -/
def singleCfg : Cfg := { overlapCfg with workers := 1 }

/-- The worker receives the record of epoch 0, applies it after the record of
epoch 1 has been sent, and receives the record of epoch 1. -/
def singleSchedule : List Action :=
  [.main, .main, .main, .worker 0, .main, .main, .worker 0, .worker 0]

/-- No epoch, one worker. -/
def noEpochCfg : Cfg := { overlapCfg with epochs := 0, workers := 1 }

/-- Two epochs over one record, no worker. -/
def noWorkerCfg : Cfg := { overlapCfg with workers := 0 }

end Concurrent

end SVM

namespace ANN
namespace Concurrent

/-- One epoch over one record, no worker. -/
def noWorkerCfg : Cfg := { demoCfg with workers := 0 }

end Concurrent
end ANN

/-! ## Measures on trees and states, prediction and evaluation functions -/

namespace RF

/-- The node has no children: both `Left` and `Right` are nil. -/
def DecisionTree.isLeaf : DecisionTree → Bool
  | .nil => false
  | .node _ _ left right _ => decide (left = .nil ∧ right = .nil)

/-- The largest number of split nodes (nodes with a child) on a path from the
node down to a leaf. -/
def DecisionTree.splits : DecisionTree → Nat
  | .nil => 0
  | .node _ _ left right _ =>
    if left = .nil ∧ right = .nil then 0 else 1 + max left.splits right.splits

/-- The tree has the shape of a `buildTree` call on `records` with `depth` levels
left: the node is a leaf when `depth` is 0 or there is no record, and otherwise
it has two non-nil children, which have that shape on the two sides of the split
of `records` by the node's own feature and threshold, with one level less. -/
def DecisionTree.shaped : DecisionTree → List Record → Int → Bool
  | .nil, _, _ => false
  | .node feature threshold left right _, records, depth =>
    if depth = 0 ∨ records.length = 0 then decide (left = .nil ∧ right = .nil)
    else decide (left ≠ .nil) && decide (right ≠ .nil)
      && left.shaped (splitRecords records feature threshold).1 (depth - 1)
      && right.shaped (splitRecords records feature threshold).2 (depth - 1)

/-- The feature indices for which the `switch` statements have a `case`. -/
def recognisedFeatures : List Int := [0, 2, 4, 10, 11, 12]

namespace Concurrent

/-- Is 1 for a goroutine that is building its tree. -/
def UnitPc.isBuilding : UnitPc → Nat
  | .building => 1
  | _ => 0

/-- Number of tree goroutines in flight: started, and not yet past their
`<-workerChan`. -/
def inFlight (st : State) : Nat := (st.units.map UnitPc.holds).sum

/-- Twelve trees over one record. -/
def gateCfg : Cfg :=
  { records := [{ Age := 30, Income := ">50K" }], numTrees := 12, maxDepth := 5, fuel := 6,
    unitChance := fun _ => { draws := fun k => k } }

end Concurrent

end RF

namespace ANN

/-- The expression `x * (1 - x)` of `sigmoidDerivative`, read in the ring `R`:
the rationals of the embedding, or the reals. -/
def sigmoidDerivativeIn (R : Type) [Ring R] (x : R) : R := x * (1 - x)

namespace Concurrent

/-- Number of worker goroutines running: started, and their deferred `wg.Done()`
not yet run. -/
def running (st : State) : Nat := (st.workers.map Worker.live).sum

end Concurrent

end ANN

namespace SVM

namespace Sequential

/-- The method `Predict` of the sequential package; `none` is an index panic. -/
def Predict (svm : Model) (record : Record) : Option String :=
  match dotProduct svm.Weights (extractFeatures record) with
  | none => none
  | some score => if score + svm.Bias ≥ 0 then some ">50K" else some "<=50K"

end Sequential

namespace Concurrent

/-- The method `Predict` of the concurrent package; `none` is an index panic. -/
def Predict (svm : Model) (record : Record) : Option String :=
  match dotProduct svm.Weights (extractFeatures record) with
  | none => none
  | some score => if score + svm.Bias ≥ 0 then some ">50K" else some "<=50K"

end Concurrent

end SVM

namespace CF

/-- Why a call of an evaluation function yields no number: a read of a row that
does not exist panics, and `0.0 / 0.0` is NaN. -/
inductive EvalError where
  | indexOutOfRange
  | notANumber
deriving DecidableEq, Repr

/-- The loop `for _, r := range testSet { mse += math.Pow(rating-pred, 2) }` of
both evaluation functions, on matrices with the rows `0 .. numUsers` and
`0 .. numMovies`. -/
def evaluateLoop (f : Factors) (numUsers numMovies : Int) :
    ℚ → List Rating → Except EvalError ℚ
  | mse, [] => .ok mse
  | mse, r :: rest =>
    if 0 ≤ r.UserID ∧ r.UserID ≤ numUsers ∧ 0 ≤ r.MovieID ∧ r.MovieID ≤ numMovies then
      evaluateLoop f numUsers numMovies
        (mse + (r.Rating - PredictRating f r.UserID r.MovieID) ^ 2) rest
    else .error .indexOutOfRange

namespace Sequential

/-- The function `EvaluateSequential`; it reads `P` and `Q` and writes neither. -/
def EvaluateSequential (f : Factors) (numUsers numMovies : Int) (testSet : List Rating) :
    Except EvalError ℚ :=
  match evaluateLoop f numUsers numMovies 0 testSet with
  | .error e => .error e
  | .ok mse => if testSet.length = 0 then .error .notANumber else .ok (mse / (testSet.length : ℚ))

end Sequential

namespace Concurrent

/-- The function `EvaluateConcurrent` (it starts no goroutine); it reads `P` and
`Q` and writes neither. -/
def EvaluateConcurrent (f : Factors) (numUsers numMovies : Int) (testSet : List Rating) :
    Except EvalError ℚ :=
  match evaluateLoop f numUsers numMovies 0 testSet with
  | .error e => .error e
  | .ok mse => if testSet.length = 0 then .error .notANumber else .ok (mse / (testSet.length : ℚ))

end Concurrent

end CF

/-! ## Splitting the ratings (`filtrado-colaborativo/preprocess`) -/

namespace CF

/-- The conversion `int(x)` of a `float64`: the fraction is discarded, so the
value is rounded toward zero. -/
def floatToInt (x : ℚ) : Int := if 0 ≤ x then Int.floor x else Int.ceil x

/-- The integer nearest to `x`; a value halfway between two integers goes to the
even one. -/
def roundHalfEven (x : ℚ) : Int :=
  if x - (Int.floor x : ℚ) < 1 / 2 then Int.floor x
  else if 1 / 2 < x - (Int.floor x : ℚ) then Int.floor x + 1
  else if Int.floor x % 2 = 0 then Int.floor x else Int.floor x + 1

/-- The exponent of the last bit of the `float64` values around `x`: a value in
`[2^k, 2^(k+1))` has 53 significant bits, so its last bit weighs `2^(k-52)`; below
`2^-1022` (the subnormal values) the last bit weighs `2^-1074`. -/
def float64Ulp (x : ℚ) : Int := max (Int.log 2 |x| - 52) (-1074)

/-- The `float64` result of an operation whose exact result is `x`: the multiple
of the last bit nearest to `x`, ties to the even multiple (IEEE 754 round to
nearest even, the rounding of Go). Values beyond the largest `float64` are not
turned into an infinity. -/
def roundFloat64 (x : ℚ) : ℚ :=
  (roundHalfEven (x / (2 : ℚ) ^ float64Ulp x) : ℚ) * (2 : ℚ) ^ float64Ulp x

/-- The variable `trainSize := int(trainRatio * float64(len(ratings)))` of
`SplitData`: the conversion of the length and the product are `float64`
operations, each rounded. -/
def trainSize (ratings : List Rating) (trainRatio : ℚ) : Int :=
  floatToInt (roundFloat64 (trainRatio * roundFloat64 (ratings.length : ℚ)))

/-- The function `SplitData`. `none` is the panic of the slice expressions
`ratings[:trainSize]` and `ratings[trainSize:]` when `trainSize` is negative or
greater than `len(ratings)`. -/
def SplitData (ratings : List Rating) (trainRatio : ℚ) : Option (List Rating × List Rating) :=
  if 0 ≤ trainSize ratings trainRatio ∧ trainSize ratings trainRatio ≤ (ratings.length : Int) then
    some (ratings.take (trainSize ratings trainRatio).toNat,
          ratings.drop (trainSize ratings trainRatio).toNat)
  else none

/-- The `float64` nearest to 0.7: `0x3FE6666666666666`. -/
def float07 : ℚ := 3152519739159347 / 4503599627370496

/-- The `float64` nearest to 0.8, the constant of the call
`SplitData(ratings, 0.8)` in `main`: `0x3FE999999999999A`. -/
def float08 : ℚ := 3602879701896397 / 4503599627370496

end CF

namespace RF

/-- Draws for which the sequential `chooseBestSplit` returns feature 0 (age) and
threshold 50: the second draw is `2^52`, which `rand.Float64()` turns into 1/2. -/
def halfChance : Chance := { draws := fun k => if k = 1 then 2 ^ 52 else 0 }

end RF

/-! ## Auxiliary facts on lists -/

theorem map_sum_set {α M : Type} [AddCommMonoid M] (f : α → M) :
    ∀ (l : List α) (i : Nat) (a b : α), l[i]? = some a →
      ((l.set i b).map f).sum + f a = (l.map f).sum + f b
  | [], i, a, b, h => by simp at h
  | x :: t, 0, a, b, h => by
    simp at h
    subst h
    simp only [List.set_cons_zero, List.map_cons, List.sum_cons]
    abel
  | x :: t, i + 1, a, b, h => by
    simp at h
    have ih := map_sum_set f t i a b h
    simp only [List.set_cons_succ, List.map_cons, List.sum_cons]
    rw [add_assoc, ih, add_assoc]

theorem map_sum_le {α : Type} (f g : α → Nat) (h : ∀ a, f a ≤ g a) :
    ∀ l : List α, (l.map f).sum ≤ (l.map g).sum
  | [] => by simp
  | x :: t => by
    have := map_sum_le f g h t
    have := h x
    simp
    omega

theorem map_sum_add {α : Type} (f g : α → Nat) :
    ∀ l : List α, (l.map (fun a => f a + g a)).sum = (l.map f).sum + (l.map g).sum
  | [] => by simp
  | x :: t => by
    have := map_sum_add f g t
    simp
    omega

theorem map_sum_one {α : Type} : ∀ l : List α, (l.map (fun _ => 1)).sum = l.length
  | [] => by simp
  | x :: t => by
    have := map_sum_one t
    simp
    omega

theorem mem_set_cases {α : Type} (l : List α) (i : Nat) (b x : α) (h : x ∈ l.set i b) :
    x = b ∨ x ∈ l := by
  rcases List.mem_or_eq_of_mem_set h with h | h
  · exact Or.inr h
  · exact Or.inl h

namespace RF

/-! ## Trees are built, and never nil -/

theorem buildTreeWith_total (choose : List Record → Chance → (Int × ℚ) × Chance) :
    ∀ (fuel : Nat) (records : List Record) (depth : Int) (c : Chance),
      0 ≤ depth → depth.toNat < fuel →
      ∃ t c1, buildTreeWith choose fuel records depth c = some (t, c1) ∧ t ≠ .nil := by
  intro fuel
  induction fuel with
  | zero => intro records depth c _ h; omega
  | succ fuel ih =>
    intro records depth c h0 hf
    unfold buildTreeWith
    by_cases hc : depth = 0 ∨ records.length = 0
    · rw [if_pos hc]
      exact ⟨_, _, rfl, by simp⟩
    · rw [if_neg hc]
      have hd : depth ≠ 0 := fun h => hc (Or.inl h)
      have h1 : 0 ≤ depth - 1 := by omega
      have h2 : (depth - 1).toNat < fuel := by omega
      obtain ⟨l, c1, hl, _⟩ := ih
        (splitRecords records (choose records c).1.1 (choose records c).1.2).1 (depth - 1)
        (choose records c).2 h1 h2
      obtain ⟨r, c2, hr, _⟩ := ih
        (splitRecords records (choose records c).1.1 (choose records c).1.2).2 (depth - 1)
        c1 h1 h2
      rw [hl]
      simp only []
      rw [hr]
      exact ⟨_, _, rfl, by simp⟩

theorem buildTreeWith_ne_nil (choose : List Record → Chance → (Int × ℚ) × Chance) :
    ∀ (fuel : Nat) (records : List Record) (depth : Int) (c : Chance) (t : DecisionTree)
      (c1 : Chance), buildTreeWith choose fuel records depth c = some (t, c1) → t ≠ .nil := by
  intro fuel
  cases fuel with
  | zero => intro records depth c t c1 h; simp [buildTreeWith] at h
  | succ fuel =>
    intro records depth c t c1 h
    unfold buildTreeWith at h
    split at h
    · simp at h
      rw [← h.1]
      simp
    · split at h
      · simp at h
      · split at h
        · simp at h
        · simp at h
          rw [← h.1]
          simp

namespace Sequential

theorem trainLoop_spec (fuel : Nat) (records : List Record) (maxDepth : Int)
    (h0 : 0 ≤ maxDepth) (hf : maxDepth.toNat < fuel) :
    ∀ (n : Nat) (forest : RandomForest) (c : Chance), (∀ t ∈ forest.Trees, t ≠ .nil) →
      ∃ f c1, trainLoop fuel records maxDepth n forest c = some (f, c1) ∧
        f.Trees.length = forest.Trees.length + n ∧ ∀ t ∈ f.Trees, t ≠ .nil := by
  intro n
  induction n with
  | zero => intro forest c h; exact ⟨forest, c, rfl, by simp, h⟩
  | succ n ih =>
    intro forest c h
    obtain ⟨t, c1, ht, hne⟩ := buildTreeWith_total chooseBestSplit fuel
      (bootstrapSample records c).1 maxDepth (bootstrapSample records c).2 h0 hf
    have hstep : trainLoop fuel records maxDepth (n + 1) forest c
        = trainLoop fuel records maxDepth n { Trees := forest.Trees ++ [t] } c1 := by
      simp only [trainLoop, buildTree, ht]
    obtain ⟨f, c2, hfeq, hlen, hall⟩ := ih { Trees := forest.Trees ++ [t] } c1 (by
      intro x hx
      simp at hx
      rcases hx with hx | hx
      · exact h x hx
      · exact hx ▸ hne)
    refine ⟨f, c2, by rw [hstep, hfeq], ?_, hall⟩
    rw [hlen]
    simp
    omega

end Sequential

end RF

namespace RF
namespace Concurrent

theorem rf_inv_init (cfg : Cfg) (N : Nat) (hN : cfg.numTrees = N) :
    Inv N (init cfg) ∧ potential N (init cfg) = 6 * N + 3 := by
  have h : ¬ cfg.numTrees < 0 := by omega
  refine ⟨?_, ?_⟩
  · constructor <;> simp [init, h]
  · simp [potential, init, h]
    omega

theorem rf_delivered_le_length (l : List UnitPc) : (l.map UnitPc.delivered).sum ≤ l.length := by
  rw [← map_sum_one l]
  apply map_sum_le
  intro a
  cases a <;> simp [UnitPc.delivered]

theorem rf_length_le_delivered_add_live (l : List UnitPc) :
    l.length ≤ (l.map UnitPc.delivered).sum + (l.map UnitPc.live).sum := by
  rw [← map_sum_one l, ← map_sum_add]
  apply map_sum_le
  intro a
  cases a <;> simp [UnitPc.delivered, UnitPc.live]

theorem rf_inv_stepMain (cfg : Cfg) (N : Nat) (hN : cfg.numTrees = N) (st st1 : State)
    (hinv : Inv N st) (h : stepMain cfg st = some st1) :
    Inv N st1 ∧ potential N st1 + 1 = potential N st := by
  unfold stepMain at h
  cases hm : st.main with
  | loop i =>
    rw [hm] at h
    simp only [] at h
    obtain ⟨hlen, hiN, hcl⟩ := hinv.in_loop i hm
    by_cases hi : (i : Int) < cfg.numTrees
    · rw [if_pos hi] at h
      by_cases hw : st.workerChan.length < 4
      · rw [if_pos hw] at h
        simp at h
        subst h
        have hiN1 : i < N := by omega
        have hnc : st.treeClosed ≠ true := by
          intro hc
          have := hinv.closed_iff.mpr hc
          rw [hcl] at this
          cases this
        refine ⟨?_, ?_⟩
        · constructor
          · intro j hj
            simp at hj
            subst hj
            simp [hlen, hcl]
            omega
          · simp
          · simp
          · simp [hinv.wg_eq, UnitPc.live]
          · simp [hinv.tokens, UnitPc.holds]
          · simp [hinv.in_transit, UnitPc.delivered]
          · exact hinv.closed_iff
          · intro hc
            exact absurd hc hnc
          · exact hinv.chan_ne_nil
          · exact hinv.trees_ne_nil
          · intro t ht
            simp at ht
            exact hinv.built_ne_nil t ht
        · simp [potential, hm, UnitPc.pot]
          omega
      · rw [if_neg hw] at h
        cases h
    · rw [if_neg hi] at h
      simp at h
      subst h
      have hiN1 : i = N := by omega
      refine ⟨?_, ?_⟩
      · constructor
        · simp
        · simp
          omega
        · simp
        · exact hinv.wg_eq
        · exact hinv.tokens
        · exact hinv.in_transit
        · have hnc : st.treeClosed ≠ true := by
            intro hc
            have := hinv.closed_iff.mpr hc
            rw [hcl] at this
            cases this
          simp [hnc]
        · exact hinv.closed_done
        · exact hinv.chan_ne_nil
        · exact hinv.trees_ne_nil
        · exact hinv.built_ne_nil
      · simp [potential, hm, hcl, hiN1]
        omega
  | collect =>
    rw [hm] at h
    simp only [] at h
    have hpast := hinv.past_loop.2 (by simp [hm])
    cases hq : st.treeChan with
    | nil =>
      rw [hq] at h
      simp only [] at h
      by_cases hc : st.treeClosed = true
      · rw [if_pos hc] at h
        simp at h
        subst h
        refine ⟨?_, ?_⟩
        · constructor
          · simp
          · simp
            exact hpast
          · simp [hc]
          · exact hinv.wg_eq
          · exact hinv.tokens
          · simpa [hq] using hinv.in_transit
          · exact hinv.closed_iff
          · exact hinv.closed_done
          · simp
          · exact hinv.trees_ne_nil
          · exact hinv.built_ne_nil
        · simp [potential, hm]
          omega
      · rw [if_neg hc] at h
        cases h
    | cons tree rest =>
      rw [hq] at h
      simp at h
      subst h
      have htr := hinv.in_transit
      rw [hq] at htr
      simp at htr
      have hle := rf_delivered_le_length st.units
      refine ⟨?_, ?_⟩
      · constructor
        · simp [hm]
        · simp [hm]
          exact hpast
        · simp [hm]
        · exact hinv.wg_eq
        · exact hinv.tokens
        · simp
          omega
        · exact hinv.closed_iff
        · exact hinv.closed_done
        · intro t ht
          exact hinv.chan_ne_nil t (by rw [hq]; exact List.mem_cons_of_mem _ ht)
        · intro t ht
          simp at ht
          rcases ht with ht | ht
          · exact hinv.trees_ne_nil t ht
          · exact ht ▸ hinv.chan_ne_nil tree (by rw [hq]; exact List.mem_cons_self _ _)
        · exact hinv.built_ne_nil
      · simp [potential, hm]
        omega
  | returned =>
    rw [hm] at h
    cases h
  | panicked =>
    rw [hm] at h
    cases h

theorem rf_inv_stepCloser (N : Nat) (st st1 : State)
    (hinv : Inv N st) (h : stepCloser st = some st1) :
    Inv N st1 ∧ potential N st1 + 1 = potential N st := by
  unfold stepCloser at h
  cases hc : st.closer with
  | notStarted => rw [hc] at h; cases h
  | closed => rw [hc] at h; cases h
  | waiting =>
    rw [hc] at h
    simp only [] at h
    by_cases hw : st.wg = 0
    · rw [if_pos hw] at h
      simp at h
      subst h
      have hlive : (st.units.map UnitPc.live).sum = 0 := by
        have := hinv.wg_eq
        omega
      have hnl : ∀ i, st.main ≠ .loop i := by
        intro i hi
        have := (hinv.in_loop i hi).2.2
        rw [hc] at this
        cases this
      refine ⟨?_, ?_⟩
      · constructor
        · intro i hi
          exact absurd hi (hnl i)
        · refine ⟨hinv.past_loop.1, fun _ => ⟨(hinv.past_loop.2 hnl).1, by simp⟩⟩
        · intro hr
          exact ⟨rfl, (hinv.at_return hr).2⟩
        · exact hinv.wg_eq
        · exact hinv.tokens
        · exact hinv.in_transit
        · simp
        · intro _
          exact hlive
        · exact hinv.chan_ne_nil
        · exact hinv.trees_ne_nil
        · exact hinv.built_ne_nil
      · simp [potential, hc]
        omega
    · rw [if_neg hw] at h
      cases h

theorem rf_inv_stepUnit (cfg : Cfg) (N : Nat) (st st1 : State) (i : Nat)
    (hinv : Inv N st) (h : stepUnit cfg st i = some st1) :
    Inv N st1 ∧ potential N st1 + 1 = potential N st := by
  unfold stepUnit at h
  cases hu : st.units[i]? with
  | none => rw [hu] at h; cases h
  | some u =>
    rw [hu] at h
    have hmem : u ∈ st.units := List.getElem?_mem hu
    have hpot := fun b => map_sum_set UnitPc.pot st.units i u b hu
    have hlive := fun b => map_sum_set UnitPc.live st.units i u b hu
    have hholds := fun b => map_sum_set UnitPc.holds st.units i u b hu
    have hdel := fun b => map_sum_set UnitPc.delivered st.units i u b hu
    cases u with
    | building =>
      simp only [] at h
      split at h
      · cases h
      · rename_i tree c1 hb
        simp at h
        subst h
        have hne := buildTreeWith_ne_nil _ _ _ _ _ _ _ hb
        have h1 := hpot (.built tree)
        have h2 := hlive (.built tree)
        have h3 := hholds (.built tree)
        have h4 := hdel (.built tree)
        simp only [UnitPc.pot, UnitPc.live, UnitPc.holds, UnitPc.delivered] at h1 h2 h3 h4
        refine ⟨?_, ?_⟩
        · constructor
          · intro j hj
            have := hinv.in_loop j hj
            simpa using this
          · refine ⟨hinv.past_loop.1, fun hl => ?_⟩
            have := hinv.past_loop.2 hl
            simpa using this
          · exact hinv.at_return
          · have := hinv.wg_eq
            simp only []
            omega
          · have := hinv.tokens
            simp only []
            omega
          · have := hinv.in_transit
            simp only []
            omega
          · exact hinv.closed_iff
          · intro hc
            have := hinv.closed_done hc
            simp only []
            omega
          · exact hinv.chan_ne_nil
          · exact hinv.trees_ne_nil
          · intro t ht
            rcases mem_set_cases _ _ _ _ ht with ht | ht
            · cases ht
              exact hne
            · exact hinv.built_ne_nil t ht
        · simp only [potential]
          omega
    | built tree =>
      simp only [] at h
      split at h
      · simp at h
        subst h
        have hne := hinv.built_ne_nil tree hmem
        have h1 := hpot .sent
        have h2 := hlive .sent
        have h3 := hholds .sent
        have h4 := hdel .sent
        simp only [UnitPc.pot, UnitPc.live, UnitPc.holds, UnitPc.delivered] at h1 h2 h3 h4
        rename_i hg
        refine ⟨?_, ?_⟩
        · constructor
          · intro j hj
            have := hinv.in_loop j hj
            simpa using this
          · refine ⟨hinv.past_loop.1, fun hl => ?_⟩
            have := hinv.past_loop.2 hl
            simpa using this
          · intro hr
            have := hinv.at_return hr
            rw [this.1] at hg
            simp at hg
          · have := hinv.wg_eq
            simp only []
            omega
          · have := hinv.tokens
            simp only []
            omega
          · have := hinv.in_transit
            simp only [List.length_append, List.length_singleton]
            omega
          · exact hinv.closed_iff
          · intro hc
            have := hinv.closed_done hc
            simp only []
            omega
          · intro t ht
            simp at ht
            rcases ht with ht | ht
            · exact hinv.chan_ne_nil t ht
            · exact ht ▸ hne
          · exact hinv.trees_ne_nil
          · intro t ht
            rcases mem_set_cases _ _ _ _ ht with ht | ht
            · cases ht
            · exact hinv.built_ne_nil t ht
        · simp only [potential]
          omega
      · cases h
    | sent =>
      simp only [] at h
      split at h
      · rename_i tok rest hq
        simp at h
        subst h
        have h1 := hpot .released
        have h2 := hlive .released
        have h3 := hholds .released
        have h4 := hdel .released
        simp only [UnitPc.pot, UnitPc.live, UnitPc.holds, UnitPc.delivered] at h1 h2 h3 h4
        have htok := hinv.tokens
        rw [hq] at htok
        simp at htok
        refine ⟨?_, ?_⟩
        · constructor
          · intro j hj
            have := hinv.in_loop j hj
            simpa using this
          · refine ⟨hinv.past_loop.1, fun hl => ?_⟩
            have := hinv.past_loop.2 hl
            simpa using this
          · exact hinv.at_return
          · have := hinv.wg_eq
            simp only []
            omega
          · simp only []
            omega
          · have := hinv.in_transit
            simp only []
            omega
          · exact hinv.closed_iff
          · intro hc
            have := hinv.closed_done hc
            simp only []
            omega
          · exact hinv.chan_ne_nil
          · exact hinv.trees_ne_nil
          · intro t ht
            rcases mem_set_cases _ _ _ _ ht with ht | ht
            · cases ht
            · exact hinv.built_ne_nil t ht
        · simp only [potential]
          omega
      · cases h
    | released =>
      simp at h
      subst h
      have h1 := hpot .done
      have h2 := hlive .done
      have h3 := hholds .done
      have h4 := hdel .done
      simp only [UnitPc.pot, UnitPc.live, UnitPc.holds, UnitPc.delivered] at h1 h2 h3 h4
      refine ⟨?_, ?_⟩
      · constructor
        · intro j hj
          have := hinv.in_loop j hj
          simpa using this
        · refine ⟨hinv.past_loop.1, fun hl => ?_⟩
          have := hinv.past_loop.2 hl
          simpa using this
        · exact hinv.at_return
        · have := hinv.wg_eq
          simp only []
          omega
        · have := hinv.tokens
          simp only []
          omega
        · have := hinv.in_transit
          simp only []
          omega
        · exact hinv.closed_iff
        · intro hc
          have := hinv.closed_done hc
          simp only []
          omega
        · exact hinv.chan_ne_nil
        · exact hinv.trees_ne_nil
        · intro t ht
          rcases mem_set_cases _ _ _ _ ht with ht | ht
          · cases ht
          · exact hinv.built_ne_nil t ht
      · simp only [potential]
        omega
    | done => cases h

theorem rf_inv_step (cfg : Cfg) (N : Nat) (hN : cfg.numTrees = N) (st st1 : State) (a : Action)
    (hinv : Inv N st) (h : step cfg st a = some st1) :
    Inv N st1 ∧ potential N st1 + 1 = potential N st := by
  cases a with
  | main => exact rf_inv_stepMain cfg N hN st st1 hinv h
  | closer => exact rf_inv_stepCloser N st st1 hinv h
  | unit i => exact rf_inv_stepUnit cfg N st st1 i hinv h

theorem rf_inv_run (cfg : Cfg) (N : Nat) (hN : cfg.numTrees = N) :
    ∀ (sched : List Action) (st st1 : State), Inv N st → run cfg st sched = some st1 →
      Inv N st1 ∧ potential N st1 + sched.length = potential N st
  | [], st, st1, hinv, h => by
    simp [run] at h
    subst h
    exact ⟨hinv, rfl⟩
  | a :: rest, st, st1, hinv, h => by
    simp only [run] at h
    cases hs : step cfg st a with
    | none => rw [hs] at h; cases h
    | some st2 =>
      rw [hs] at h
      have h1 := rf_inv_step cfg N hN st st2 a hinv hs
      have h2 := rf_inv_run cfg N hN rest st2 st1 h1.1 h
      refine ⟨h2.1, ?_⟩
      simp only [List.length_cons]
      omega

end Concurrent
end RF

theorem exists_pos_of_map_sum_pos {α : Type} (f : α → Nat) :
    ∀ l : List α, 0 < (l.map f).sum → ∃ (i : Nat) (u : α), l[i]? = some u ∧ 0 < f u
  | [], h => by simp at h
  | x :: t, h => by
    by_cases hx : 0 < f x
    · exact ⟨0, x, by simp, hx⟩
    · have ht : 0 < (t.map f).sum := by
        simp only [List.map_cons, List.sum_cons] at h
        omega
      obtain ⟨i, u, hi, hu⟩ := exists_pos_of_map_sum_pos f t ht
      exact ⟨i + 1, u, by simpa using hi, hu⟩

namespace RF
namespace Concurrent

theorem rf_units_length_le (N : Nat) (st : State) (hinv : Inv N st) : st.units.length ≤ N := by
  cases hm : st.main with
  | loop i =>
    have := hinv.in_loop i hm
    omega
  | collect =>
    have := hinv.past_loop.2 (by simp [hm])
    omega
  | returned =>
    have := hinv.past_loop.2 (by simp [hm])
    omega
  | panicked => exact absurd hm hinv.past_loop.1

/-- A unit that has not finished can always take its next step. -/
theorem rf_unit_enabled (cfg : Cfg) (N : Nat) (hN : cfg.numTrees = N) (h1 : 0 ≤ cfg.maxDepth)
    (hf : cfg.maxDepth.toNat < cfg.fuel) (st : State) (hinv : Inv N st) (i : Nat) (u : UnitPc)
    (hu : st.units[i]? = some u) (hlive : 0 < u.live) :
    ∃ st1, stepUnit cfg st i = some st1 := by
  have hl := map_sum_set UnitPc.live st.units i u .done hu
  have hh := map_sum_set UnitPc.holds st.units i u .done hu
  have hd := map_sum_set UnitPc.delivered st.units i u .sent hu
  have hdl := rf_delivered_le_length (st.units.set i .sent)
  have hlen := rf_units_length_le N st hinv
  simp only [List.length_set] at hdl
  have hopen : st.treeClosed = false := by
    cases hc : st.treeClosed with
    | false => rfl
    | true =>
      have := hinv.closed_done hc
      have hz : UnitPc.done.live = 0 := rfl
      omega
  unfold stepUnit
  rw [hu]
  cases u with
  | building =>
    obtain ⟨t, c1, ht, _⟩ := buildTreeWith_total chooseBestSplit cfg.fuel
      (bootstrapSample cfg.records (cfg.unitChance i)).1 cfg.maxDepth
      (bootstrapSample cfg.records (cfg.unitChance i)).2 h1 hf
    simp only [buildTree, ht]
    exact ⟨_, rfl⟩
  | built tree =>
    have htr := hinv.in_transit
    simp only [UnitPc.delivered] at hd
    have hg : (st.treeChan.length : Int) < cfg.numTrees ∧ st.treeClosed = false := by
      refine ⟨?_, hopen⟩
      rw [hN]
      omega
    simp only [if_pos hg]
    exact ⟨_, rfl⟩
  | sent =>
    have htok := hinv.tokens
    simp only [UnitPc.holds] at hh
    cases hq : st.workerChan with
    | nil =>
      rw [hq] at htok
      simp at htok
      omega
    | cons tok rest => exact ⟨_, rfl⟩
  | released => exact ⟨_, rfl⟩
  | done => simp [UnitPc.live] at hlive

/-- No deadlock: a call that has not returned can take a step. -/
theorem rf_progress (cfg : Cfg) (N : Nat) (hN : cfg.numTrees = N) (h1 : 0 ≤ cfg.maxDepth)
    (hf : cfg.maxDepth.toNat < cfg.fuel) (st : State) (hinv : Inv N st)
    (hret : st.main ≠ .returned) : ∃ a st1, step cfg st a = some st1 := by
  cases hm : st.main with
  | loop i =>
    by_cases hi : (i : Int) < cfg.numTrees
    · by_cases hw : st.workerChan.length < 4
      · refine ⟨.main, ?_⟩
        simp only [step, stepMain, hm, if_pos hi, if_pos hw]
        exact ⟨_, rfl⟩
      · have htok := hinv.tokens
        obtain ⟨j, u, hj, hu⟩ := exists_pos_of_map_sum_pos UnitPc.holds st.units (by omega)
        have hlive : 0 < u.live := by
          cases u <;> simp [UnitPc.holds, UnitPc.live] at hu ⊢
        obtain ⟨st1, hs⟩ := rf_unit_enabled cfg N hN h1 hf st hinv j u hj hlive
        exact ⟨.unit j, st1, hs⟩
    · refine ⟨.main, ?_⟩
      simp only [step, stepMain, hm, if_neg hi]
      exact ⟨_, rfl⟩
  | collect =>
    cases hq : st.treeChan with
    | cons tree rest =>
      refine ⟨.main, ?_⟩
      simp only [step, stepMain, hm, hq]
      exact ⟨_, rfl⟩
    | nil =>
      by_cases hc : st.treeClosed = true
      · refine ⟨.main, ?_⟩
        simp only [step, stepMain, hm, hq, if_pos hc]
        exact ⟨_, rfl⟩
      · have hcl : st.closer = .waiting := by
          have h2 := (hinv.past_loop.2 (by simp [hm])).2
          have h3 : st.closer ≠ .closed := fun h => hc (hinv.closed_iff.mp h)
          cases hcc : st.closer with
          | notStarted => exact absurd hcc h2
          | waiting => rfl
          | closed => exact absurd hcc h3
        by_cases hw : st.wg = 0
        · refine ⟨.closer, ?_⟩
          simp only [step, stepCloser, hcl, if_pos hw]
          exact ⟨_, rfl⟩
        · have hwg := hinv.wg_eq
          obtain ⟨j, u, hj, hu⟩ := exists_pos_of_map_sum_pos UnitPc.live st.units (by omega)
          obtain ⟨st1, hs⟩ := rf_unit_enabled cfg N hN h1 hf st hinv j u hj hu
          exact ⟨.unit j, st1, hs⟩
  | returned => exact absurd hm hret
  | panicked => exact absurd hm hinv.past_loop.1

theorem rf_run_append (cfg : Cfg) : ∀ (s1 s2 : List Action) (st st1 st2 : State),
    run cfg st s1 = some st1 → run cfg st1 s2 = some st2 → run cfg st (s1 ++ s2) = some st2
  | [], s2, st, st1, st2, h1, h2 => by
    simp [run] at h1
    subst h1
    simpa using h2
  | a :: rest, s2, st, st1, st2, h1, h2 => by
    simp only [run, List.cons_append] at h1 ⊢
    cases hs : step cfg st a with
    | none => rw [hs] at h1; cases h1
    | some st3 =>
      rw [hs] at h1
      simp only []
      exact rf_run_append cfg rest s2 st3 st1 st2 h1 h2

/-- From a state that satisfies the invariant the call can run to its return. -/
theorem rf_can_return (cfg : Cfg) (N : Nat) (hN : cfg.numTrees = N) (h1 : 0 ≤ cfg.maxDepth)
    (hf : cfg.maxDepth.toNat < cfg.fuel) :
    ∀ (n : Nat) (st : State), Inv N st → potential N st = n →
      ∃ sched st1, run cfg st sched = some st1 ∧ st1.main = .returned := by
  intro n
  induction n with
  | zero =>
    intro st hinv hp
    refine ⟨[], st, rfl, ?_⟩
    cases hm : st.main with
    | loop i => simp [potential, hm] at hp
    | collect => simp [potential, hm] at hp
    | returned => rfl
    | panicked => exact absurd hm hinv.past_loop.1
  | succ n ih =>
    intro st hinv hp
    by_cases hret : st.main = .returned
    · exact ⟨[], st, rfl, hret⟩
    · obtain ⟨a, st1, hs⟩ := rf_progress cfg N hN h1 hf st hinv hret
      have h2 := rf_inv_step cfg N hN st st1 a hinv hs
      obtain ⟨sched, st2, hr, hm⟩ := ih st1 h2.1 (by omega)
      refine ⟨a :: sched, st2, ?_, hm⟩
      simp only [run, hs]
      exact hr

/-- What the invariant gives once the call has returned. -/
theorem rf_returned_trees (N : Nat) (st : State) (hinv : Inv N st) (hret : st.main = .returned) :
    st.Trees.length = N ∧ ∀ t ∈ st.Trees, t ≠ DecisionTree.nil := by
  refine ⟨?_, hinv.trees_ne_nil⟩
  obtain ⟨hc, hq⟩ := hinv.at_return hret
  have hlen := (hinv.past_loop.2 (by simp [hret])).1
  have hlive := hinv.closed_done hc
  have htr := hinv.in_transit
  have h1 := rf_delivered_le_length st.units
  have h2 := rf_length_le_delivered_add_live st.units
  rw [hq] at htr
  simp at htr
  omega

end Concurrent
end RF

namespace RF

/-- C1. For every record list, every `numTrees >= 0` and every `maxDepth >= 0`
(with recursion bound `fuel > maxDepth`), `TrainRandomForest` returns a forest
holding exactly `numTrees` trees, none of them nil. Sequential variant: the call
returns such a forest for every outcome of the random draws. Concurrent variant,
for every scheduling of the goroutines: every run has at most `6 * numTrees + 3`
steps, from every reachable state the call can still run to its return (it never
deadlocks), and whenever it has returned `forest.Trees` holds exactly `numTrees`
trees, none nil. -/
theorem TrainRandomForest_exactly_numTrees (records : List Record) (numTrees maxDepth : Int)
    (fuel : Nat) (h0 : 0 ≤ numTrees) (h1 : 0 ≤ maxDepth) (hf : maxDepth.toNat < fuel) :
    (∀ c : Chance, ∃ forest c1,
        Sequential.TrainRandomForest fuel records numTrees maxDepth c = some (forest, c1) ∧
        (forest.Trees.length : Int) = numTrees ∧ ∀ t ∈ forest.Trees, t ≠ DecisionTree.nil) ∧
    (∀ (unitChance : Nat → Chance) (sched : List Concurrent.Action) (st : Concurrent.State),
        Concurrent.run ⟨records, numTrees, maxDepth, fuel, unitChance⟩
          (Concurrent.init ⟨records, numTrees, maxDepth, fuel, unitChance⟩) sched = some st →
        (sched.length : Int) ≤ 6 * numTrees + 3 ∧
        (∃ more st1, Concurrent.run ⟨records, numTrees, maxDepth, fuel, unitChance⟩ st more
            = some st1 ∧ st1.main = Concurrent.MainPc.returned) ∧
        (st.main = Concurrent.MainPc.returned →
          (st.Trees.length : Int) = numTrees ∧ ∀ t ∈ st.Trees, t ≠ DecisionTree.nil)) := by
  obtain ⟨N, hN⟩ := Int.eq_ofNat_of_zero_le h0
  constructor
  · intro c
    obtain ⟨f, c1, hfeq, hlen, hall⟩ :=
      Sequential.trainLoop_spec fuel records maxDepth h1 hf numTrees.toNat { Trees := [] } c
        (by simp)
    refine ⟨f, c1, hfeq, ?_, hall⟩
    rw [hlen, hN]
    simp
  · intro unitChance sched st hrun
    have hi := Concurrent.rf_inv_init ⟨records, numTrees, maxDepth, fuel, unitChance⟩ N hN
    have hr := Concurrent.rf_inv_run ⟨records, numTrees, maxDepth, fuel, unitChance⟩ N hN sched _ st
      hi.1 hrun
    refine ⟨?_, ?_, ?_⟩
    · have := hi.2
      rw [hN]
      omega
    · exact Concurrent.rf_can_return ⟨records, numTrees, maxDepth, fuel, unitChance⟩ N hN h1 hf _
        st hr.1 rfl
    · intro hret
      have := Concurrent.rf_returned_trees N st hr.1 hret
      rw [hN]
      exact ⟨by simp [this.1], this.2⟩

/-- C1, witness: the call of the test drivers, `numTrees = 10`, `maxDepth = 5`. -/
theorem TrainRandomForest_exactly_numTrees_witness :
    (0 : Int) ≤ 10 ∧ (0 : Int) ≤ 5 ∧ (5 : Int).toNat < 6 ∧
    ∃ forest c1,
      Sequential.TrainRandomForest 6 [{ Age := 30, Income := ">50K" }] 10 5 { draws := fun k => k }
        = some (forest, c1) ∧
      (forest.Trees.length : Int) = 10 ∧ ∀ t ∈ forest.Trees, t ≠ DecisionTree.nil :=
  ⟨by decide, by decide, by decide,
    (TrainRandomForest_exactly_numTrees [{ Age := 30, Income := ">50K" }] 10 5 6
      (by decide) (by decide) (by decide)).1 { draws := fun k => k }⟩

end RF

/-! ## Maps from label to count -/

theorem mapGet_mapIncr (m : List (String × Int)) (k l : String) :
    mapGet (mapIncr m k) l = mapGet m l + (if l = k then 1 else 0) := by
  induction m with
  | nil =>
    by_cases h : l = k
    · simp [mapIncr, mapGet, h]
    · have h' : ¬ k = l := fun e => h e.symm
      simp [mapIncr, mapGet, h, h']
  | cons e t ih =>
    obtain ⟨k', c⟩ := e
    by_cases hk : k' = k
    · subst hk
      by_cases hl : l = k'
      · subst hl
        simp [mapIncr, mapGet]
      · have hl' : ¬ k' = l := fun e => hl e.symm
        simp [mapIncr, mapGet, hl, hl']
    · by_cases hl : k' = l
      · subst hl
        simp [mapIncr, mapGet, hk]
      · simp [mapIncr, mapGet, hk, hl, ih]

theorem keys_mapIncr (m : List (String × Int)) (k : String) :
    (mapIncr m k).map Prod.fst =
      if k ∈ m.map Prod.fst then m.map Prod.fst else m.map Prod.fst ++ [k] := by
  induction m with
  | nil => simp [mapIncr]
  | cons e t ih =>
    obtain ⟨k', c⟩ := e
    by_cases hk : k' = k
    · subst hk
      simp [mapIncr]
    · have hk' : ¬ k = k' := fun e => hk e.symm
      simp only [mapIncr, if_neg hk, List.map_cons, ih, List.mem_cons, hk', false_or]
      by_cases hm : k ∈ t.map Prod.fst
      · simp only [if_pos hm]
      · simp only [if_neg hm, List.cons_append]

theorem nodup_keys_mapIncr (m : List (String × Int)) (k : String)
    (h : (m.map Prod.fst).Nodup) : ((mapIncr m k).map Prod.fst).Nodup := by
  rw [keys_mapIncr]
  by_cases hm : k ∈ m.map Prod.fst
  · rw [if_pos hm]
    exact h
  · rw [if_neg hm]
    exact List.Nodup.append h (by simp) (by simpa using hm)

theorem mem_iff_mapGet (m : List (String × Int)) (h : (m.map Prod.fst).Nodup) (l : String)
    (n : Int) : (l, n) ∈ m ↔ l ∈ m.map Prod.fst ∧ n = mapGet m l := by
  induction m with
  | nil => simp
  | cons e t ih =>
    obtain ⟨k', c⟩ := e
    simp only [List.map_cons, List.nodup_cons] at h
    have ih' := ih h.2
    by_cases hk : k' = l
    · subst hk
      simp only [List.mem_cons, Prod.mk.injEq, true_and, List.map_cons, mapGet, if_true, true_or]
      constructor
      · rintro (h1 | h1)
        · exact h1
        · exact absurd (List.mem_map_of_mem Prod.fst h1) h.1
      · intro h1
        exact Or.inl h1
    · have hk' : ¬ l = k' := fun e => hk e.symm
      simp only [List.mem_cons, Prod.mk.injEq, hk', false_and, false_or, List.map_cons, mapGet,
        if_neg hk]
      exact ih'

/-- What the tally loop computes: distinct keys, the keys are the labels voted,
and each count is the number of votes for the label. -/
theorem tallyInto_spec (xs : List String) :
    ∀ (m : List (String × Int)), (m.map Prod.fst).Nodup →
      ((tallyInto m xs).map Prod.fst).Nodup ∧
      (∀ l, l ∈ (tallyInto m xs).map Prod.fst ↔ l ∈ m.map Prod.fst ∨ l ∈ xs) ∧
      (∀ l, mapGet (tallyInto m xs) l = mapGet m l + (xs.count l : Int)) := by
  induction xs with
  | nil => intro m h; simp [tallyInto, h]
  | cons x t ih =>
    intro m h
    have h1 := nodup_keys_mapIncr m x h
    obtain ⟨i1, i2, i3⟩ := ih (mapIncr m x) h1
    have e : tallyInto m (x :: t) = tallyInto (mapIncr m x) t := rfl
    rw [e]
    refine ⟨i1, ?_, ?_⟩
    · intro l
      rw [i2, keys_mapIncr]
      by_cases hm : x ∈ m.map Prod.fst
      · rw [if_pos hm]
        simp only [List.mem_cons]
        constructor
        · rintro (h2 | h2)
          · exact Or.inl h2
          · exact Or.inr (Or.inr h2)
        · rintro (h2 | h2 | h2)
          · exact Or.inl h2
          · exact Or.inl (h2 ▸ hm)
          · exact Or.inr h2
      · rw [if_neg hm]
        simp only [List.mem_append, List.mem_singleton, List.mem_cons]
        tauto
    · intro l
      rw [i3, mapGet_mapIncr, List.count_cons]
      by_cases hl : l = x
      · subst hl
        simp
        ring
      · have hl' : ¬ x = l := fun e => hl e.symm
        simp [hl, hl']

/-- The entries of the tally of `votes` are exactly the labels voted, each with
its number of votes. -/
theorem mem_tally_iff (votes : List String) (l : String) (n : Int) :
    (l, n) ∈ tallyInto [] votes ↔ l ∈ votes ∧ n = (votes.count l : Int) := by
  obtain ⟨h1, h2, h3⟩ := tallyInto_spec votes [] (by simp)
  rw [mem_iff_mapGet _ h1, h2, h3]
  simp [mapGet]

/-! ## The majority scan -/

/-- The body of the scan loop. -/
theorem scan_fold_lt (b : Int) : ∀ (pre : List (String × Int)) (acc : Int × String),
    acc.1 < b → (∀ x ∈ pre, x.2 < b) →
    (pre.foldl (fun (acc : Int × String) (e : String × Int) =>
      if e.2 > acc.1 then (e.2, e.1) else acc) acc).1 < b
  | [], acc, h, _ => by simpa using h
  | e :: t, acc, h, hall => by
    simp only [List.foldl_cons]
    apply scan_fold_lt b t
    · by_cases he : e.2 > acc.1
      · rw [if_pos he]
        exact hall e (List.mem_cons_self _ _)
      · rw [if_neg he]
        exact h
    · intro x hx
      exact hall x (List.mem_cons_of_mem _ hx)

theorem scan_fold_keep : ∀ (post : List (String × Int)) (acc : Int × String),
    (∀ x ∈ post, x.2 ≤ acc.1) →
    post.foldl (fun (acc : Int × String) (e : String × Int) =>
      if e.2 > acc.1 then (e.2, e.1) else acc) acc = acc
  | [], acc, _ => rfl
  | e :: t, acc, hall => by
    have he : ¬ e.2 > acc.1 := by
      have := hall e (List.mem_cons_self _ _)
      omega
    simp only [List.foldl_cons, if_neg he]
    exact scan_fold_keep t acc (fun x hx => hall x (List.mem_cons_of_mem _ hx))

/-- The scan returns the first entry of the traversal that carries the highest
count: entries met before it have a smaller count, entries met after it have a
count that is not greater. -/
theorem scanMajority_first_max (pre post : List (String × Int)) (e : String × Int)
    (hpos : 0 < e.2) (hpre : ∀ x ∈ pre, x.2 < e.2) (hpost : ∀ x ∈ post, x.2 ≤ e.2) :
    scanMajority (pre ++ e :: post) = e.1 := by
  unfold scanMajority
  rw [List.foldl_append, List.foldl_cons]
  have h1 := scan_fold_lt e.2 pre (0, "") hpos hpre
  rw [if_pos h1]
  rw [scan_fold_keep post (e.2, e.1) hpost]

/-- The result of the scan carries a count that no entry exceeds. -/
theorem scan_fold_max : ∀ (trav : List (String × Int)) (acc : Int × String),
    (∀ x ∈ trav, x.2 ≤ (trav.foldl (fun (acc : Int × String) (e : String × Int) =>
      if e.2 > acc.1 then (e.2, e.1) else acc) acc).1) ∧
    acc.1 ≤ (trav.foldl (fun (acc : Int × String) (e : String × Int) =>
      if e.2 > acc.1 then (e.2, e.1) else acc) acc).1 ∧
    ((trav.foldl (fun (acc : Int × String) (e : String × Int) =>
      if e.2 > acc.1 then (e.2, e.1) else acc) acc) = acc ∨
     ((trav.foldl (fun (acc : Int × String) (e : String × Int) =>
      if e.2 > acc.1 then (e.2, e.1) else acc) acc).2,
      (trav.foldl (fun (acc : Int × String) (e : String × Int) =>
      if e.2 > acc.1 then (e.2, e.1) else acc) acc).1) ∈ trav)
  | [], acc => by simp
  | e :: t, acc => by
    simp only [List.foldl_cons]
    by_cases he : e.2 > acc.1
    · rw [if_pos he]
      obtain ⟨h1, h2, h3⟩ := scan_fold_max t (e.2, e.1)
      refine ⟨?_, ?_, ?_⟩
      · intro x hx
        rcases List.mem_cons.mp hx with hx | hx
        · rw [hx]
          exact h2
        · exact h1 x hx
      · simp only [] at h2
        omega
      · right
        rcases h3 with h3 | h3
        · rw [h3]
          exact List.mem_cons_self _ _
        · exact List.mem_cons_of_mem _ h3
    · rw [if_neg he]
      obtain ⟨h1, h2, h3⟩ := scan_fold_max t acc
      refine ⟨?_, h2, ?_⟩
      · intro x hx
        rcases List.mem_cons.mp hx with hx | hx
        · rw [hx]
          omega
        · exact h1 x hx
      · rcases h3 with h3 | h3
        · exact Or.inl h3
        · exact Or.inr (List.mem_cons_of_mem _ h3)

theorem scanMajority_nil : scanMajority [] = "" := rfl

/-- On a traversal with positive counts the scan returns the label of an entry
whose count no entry exceeds. -/
theorem scanMajority_max (trav : List (String × Int)) (hne : trav ≠ [])
    (hpos : ∀ x ∈ trav, 0 < x.2) :
    ∃ n, (scanMajority trav, n) ∈ trav ∧ ∀ x ∈ trav, x.2 ≤ n := by
  obtain ⟨h1, _, h3⟩ := scan_fold_max trav (0, "")
  refine ⟨_, ?_, h1⟩
  rcases h3 with h3 | h3
  · exfalso
    obtain ⟨x, hx⟩ := List.exists_mem_of_ne_nil trav hne
    have := h1 x hx
    have := hpos x hx
    rw [h3] at *
    simp only [] at *
    omega
  · exact h3

/-! ## Nondeterministic orders are permutations -/

theorem Chance.rangeOrder_perm {α : Type} (m : List α) (c : Chance) :
    (c.rangeOrder m).1.Perm m := by
  unfold Chance.rangeOrder
  have hpos : 0 < m.permutations.length := by
    rw [List.length_permutations]
    exact Nat.factorial_pos _
  have hlt : (c.next).1 % m.permutations.length < m.permutations.length := Nat.mod_lt _ hpos
  simp only [List.getD_eq_getElem?_getD, List.getElem?_eq_getElem hlt, Option.getD_some]
  exact List.mem_permutations.mp (List.getElem_mem _)

theorem Chance.arrivalOrder_perm {α : Type} (m : List α) (c : Chance) :
    (c.arrivalOrder m).1.Perm m := Chance.rangeOrder_perm m c

namespace RF

theorem votes_traversal_spec (votes : List String) (trav : List (String × Int))
    (hperm : trav.Perm (tallyInto [] votes)) :
    (∀ l n, (l, n) ∈ trav ↔ l ∈ votes ∧ n = (votes.count l : Int)) ∧
    (∀ x ∈ trav, 0 < x.2) ∧ (trav = [] ↔ votes = []) := by
  have hmem : ∀ l n, (l, n) ∈ trav ↔ l ∈ votes ∧ n = (votes.count l : Int) := by
    intro l n
    rw [hperm.mem_iff, mem_tally_iff]
  refine ⟨hmem, ?_, ?_⟩
  · intro x hx
    have := (hmem x.1 x.2).mp hx
    rw [this.2]
    have := List.count_pos_iff.mpr this.1
    omega
  · constructor
    · intro h
      cases hv : votes with
      | nil => rfl
      | cons v t =>
        have : (v, ((v :: t).count v : Int)) ∈ trav := by
          rw [hmem, hv]
          simp
        rw [h] at this
        simp at this
    · intro h
      cases ht : trav with
      | nil => rfl
      | cons e t =>
        have : (e.1, e.2) ∈ trav := by
          rw [ht]
          exact List.mem_cons_self _ _
        rw [hmem, h] at this
        simp at this

/-- The scan of a traversal of the tally of `votes` returns a label with the
highest number of votes, and the empty string when nobody voted. -/
theorem scan_traversal_majority (votes : List String) (trav : List (String × Int))
    (hperm : trav.Perm (tallyInto [] votes)) :
    (∀ l, votes.count l ≤ votes.count (scanMajority trav)) ∧
    (votes ≠ [] → scanMajority trav ∈ votes) ∧ (votes = [] → scanMajority trav = "") := by
  obtain ⟨hmem, hpos, hnil⟩ := votes_traversal_spec votes trav hperm
  by_cases hv : votes = []
  · have : trav = [] := hnil.mpr hv
    subst this
    subst hv
    simp [scanMajority_nil]
  · have hne : trav ≠ [] := fun h => hv (hnil.mp h)
    obtain ⟨n, hin, hmax⟩ := scanMajority_max trav hne hpos
    have h1 := (hmem _ _).mp hin
    refine ⟨?_, fun _ => h1.1, fun h => absurd h hv⟩
    intro l
    by_cases hl : l ∈ votes
    · have h2 := hmax (l, (votes.count l : Int)) ((hmem _ _).mpr ⟨hl, rfl⟩)
      simp only [] at h2
      omega
    · rw [List.count_eq_zero_of_not_mem hl]
      exact Nat.zero_le _

/-- Whenever every tree of the forest votes, `Predict` (both variants) returns a
label whose number of votes is maximal, for every order of tallying and of
traversal; with no tree the label is the empty string. -/
theorem Predict_majority_of_votes (forest : RandomForest) (record : Record)
    (votes : List String) (hv : votesOf forest record = some votes) (c : Chance) :
    (∃ l, Sequential.Predict forest record c = some l ∧ (∀ l1, votes.count l1 ≤ votes.count l) ∧
      (votes ≠ [] → l ∈ votes) ∧ (votes = [] → l = "")) ∧
    (∃ l, Concurrent.Predict forest record c = some l ∧ (∀ l1, votes.count l1 ≤ votes.count l) ∧
      (votes ≠ [] → l ∈ votes) ∧ (votes = [] → l = "")) := by
  constructor
  · refine ⟨scanMajority (c.rangeOrder (tallyInto [] votes)).1,
      by simp only [Sequential.Predict, hv], ?_⟩
    exact scan_traversal_majority votes _ (Chance.rangeOrder_perm _ _)
  · refine ⟨scanMajority
        ((c.arrivalOrder votes).2.rangeOrder (tallyInto [] (c.arrivalOrder votes).1)).1,
      by simp only [Concurrent.Predict, hv], ?_⟩
    have hp := Chance.arrivalOrder_perm votes c
    have h := scan_traversal_majority (c.arrivalOrder votes).1
      ((c.arrivalOrder votes).2.rangeOrder (tallyInto [] (c.arrivalOrder votes).1)).1
      (Chance.rangeOrder_perm _ _)
    refine ⟨?_, ?_, ?_⟩
    · intro l1
      have := h.1 l1
      rw [hp.count_eq, hp.count_eq] at this
      exact this
    · intro hne
      have : (c.arrivalOrder votes).1 ≠ [] := fun e => hne (by simpa [e] using hp.symm)
      exact hp.mem_iff.mp (h.2.1 this)
    · intro he
      apply h.2.2
      subst he
      exact hp.eq_nil

/-- C2. The forest that `TrainRandomForest` builds from an empty record list is
one leaf with the empty `Prediction`; on it, for every record and every order of
traversal, `Predict` (both variants) returns no label: `predict` takes the empty
`Prediction` for an inner node and dereferences the nil child. -/
theorem Predict_panics_on_empty_leaf (record : Record) (c c1 : Chance) :
    (Sequential.TrainRandomForest 1 [] 1 5 c).map Prod.fst
      = some { Trees := [DecisionTree.node 0 0 .nil .nil ""] } ∧
    Sequential.Predict { Trees := [DecisionTree.node 0 0 .nil .nil ""] } record c1 = none ∧
    Concurrent.Predict { Trees := [DecisionTree.node 0 0 .nil .nil ""] } record c1 = none := by
  refine ⟨?_, ?_, ?_⟩
  · simp [Sequential.TrainRandomForest, Sequential.trainLoop, Sequential.buildTree,
      buildTreeWith, bootstrapSample, bootstrapLoop, majorityLabel, tallyInto, Chance.rangeOrder,
      scanMajority]
  · have hv : votesOf { Trees := [DecisionTree.node 0 0 .nil .nil ""] } record = none := by
      simp only [votesOf, List.mapM_cons, DecisionTree.predict]
      by_cases h : featureValue 0 record < 0 <;> simp [h]
    simp only [Sequential.Predict, hv]
  · have hv : votesOf { Trees := [DecisionTree.node 0 0 .nil .nil ""] } record = none := by
      simp only [votesOf, List.mapM_cons, DecisionTree.predict]
      by_cases h : featureValue 0 record < 0 <;> simp [h]
    simp only [Concurrent.Predict, hv]

end RF

namespace RF

/-- C3. When the trees vote, the entries that `Predict` (both variants)
traverses are the labels voted, each with its number of votes, and `Predict`
returns the label of the first entry of the traversal that carries the highest
count: if every entry met before `e` has a smaller count and every entry met
after `e` has a count that is not greater (ties included), the result is the
label of `e`. So with five votes for "A" and five for "B" the result is whichever
of the two the traversal meets first; the one met later never replaces it. -/
theorem Predict_tie_first_in_traversal (forest : RandomForest) (record : Record)
    (votes : List String) (hv : votesOf forest record = some votes) (c : Chance) :
    (∀ l n, (l, n) ∈ (c.rangeOrder (tallyInto [] votes)).1 ↔
        l ∈ votes ∧ n = (votes.count l : Int)) ∧
    (∀ pre e post, (c.rangeOrder (tallyInto [] votes)).1 = pre ++ e :: post →
        (∀ x ∈ pre, x.2 < e.2) → (∀ x ∈ post, x.2 ≤ e.2) →
        Sequential.Predict forest record c = some e.1) ∧
    (∀ l n, (l, n) ∈ ((c.arrivalOrder votes).2.rangeOrder
          (tallyInto [] (c.arrivalOrder votes).1)).1 ↔
        l ∈ votes ∧ n = (votes.count l : Int)) ∧
    (∀ pre e post, ((c.arrivalOrder votes).2.rangeOrder
          (tallyInto [] (c.arrivalOrder votes).1)).1 = pre ++ e :: post →
        (∀ x ∈ pre, x.2 < e.2) → (∀ x ∈ post, x.2 ≤ e.2) →
        Concurrent.Predict forest record c = some e.1) := by
  have hs := votes_traversal_spec votes (c.rangeOrder (tallyInto [] votes)).1
    (Chance.rangeOrder_perm _ _)
  have hp := Chance.arrivalOrder_perm votes c
  have hc := votes_traversal_spec (c.arrivalOrder votes).1
    ((c.arrivalOrder votes).2.rangeOrder (tallyInto [] (c.arrivalOrder votes).1)).1
    (Chance.rangeOrder_perm _ _)
  refine ⟨hs.1, ?_, ?_, ?_⟩
  · intro pre e post htrav hpre hpost
    have hpos : 0 < e.2 := hs.2.1 e (by rw [htrav]; simp)
    simp only [Sequential.Predict, hv, htrav]
    rw [scanMajority_first_max pre post e hpos hpre hpost]
  · intro l n
    rw [hc.1, hp.mem_iff, hp.count_eq]
  · intro pre e post htrav hpre hpost
    have hpos : 0 < e.2 := hc.2.1 e (by rw [htrav]; simp)
    simp only [Concurrent.Predict, hv, htrav]
    rw [scanMajority_first_max pre post e hpos hpre hpost]

/-- C3, witness: five trees vote "A" and five vote "B"; when the traversal meets
"B" first the sequential `Predict` returns "B". -/
theorem Predict_tie_first_in_traversal_witness :
    Sequential.Predict
      { Trees := List.replicate 5 (DecisionTree.node 0 0 .nil .nil "A")
          ++ List.replicate 5 (DecisionTree.node 0 0 .nil .nil "B") }
      {} { draws := fun _ => 1 } = some "B" :=
  (Predict_tie_first_in_traversal
      { Trees := List.replicate 5 (DecisionTree.node 0 0 .nil .nil "A")
          ++ List.replicate 5 (DecisionTree.node 0 0 .nil .nil "B") }
      {} (List.replicate 5 "A" ++ List.replicate 5 "B") (by decide)
      { draws := fun _ => 1 }).2.1 [] ("B", 5) [("A", 5)]
    (by simp [Chance.rangeOrder, Chance.next, tallyInto, mapIncr, List.permutations,
      List.replicate])
    (by decide) (by decide)

end RF

theorem map_sum_eq_zero {α M : Type} [AddCommMonoid M] (f : α → M) :
    ∀ l : List α, (∀ a ∈ l, f a = 0) → (l.map f).sum = 0
  | [], _ => by simp
  | x :: t, h => by
    simp only [List.map_cons, List.sum_cons]
    rw [h x (List.mem_cons_self _ _), map_sum_eq_zero f t (fun a ha => h a (List.mem_cons_of_mem _ ha))]
    simp

theorem zero_of_map_sum_eq_zero {α : Type} (f : α → Nat) :
    ∀ l : List α, (l.map f).sum = 0 → ∀ a ∈ l, f a = 0
  | [], _, a, ha => by simp at ha
  | x :: t, h, a, ha => by
    simp only [List.map_cons, List.sum_cons] at h
    rcases List.mem_cons.mp ha with ha | ha
    · rw [ha]
      omega
    · exact zero_of_map_sum_eq_zero f t (by omega) a ha

namespace ANN
namespace Concurrent

theorem entry_zero (c : Coord) : entry Gradients.zero c = 0 := by
  cases c <;> rfl

theorem entry_addInto (H I : Nat) (acc g : Gradients) (c : Coord) (h : c.inRange H I) :
    entry (acc.addInto H I g) c = entry acc c + entry g c := by
  cases c with
  | IH i j => simp only [entry, Gradients.addInto, if_pos (show i < H ∧ j < I from h)]
  | HO i => simp only [entry, Gradients.addInto, if_pos (show i < H from h)]
  | BH i => simp only [entry, Gradients.addInto, if_pos (show i < H from h)]
  | BO => rfl

theorem entry_batchGradient (sigmoid : ℚ → ℚ) (nn : NeuralNetwork) (records : List Record)
    (c : Coord) :
    entry (batchGradient sigmoid nn records) c
      = (records.map (fun r => entry (recordGradient sigmoid nn r) c)).sum := by
  cases c <;> rfl

theorem applyGradients_congr (nn : NeuralNetwork) (g1 g2 : Gradients)
    (h : ∀ c : Coord, c.inRange nn.HiddenNeurons nn.InputNeurons → entry g1 c = entry g2 c) :
    applyGradients nn g1 = applyGradients nn g2 := by
  unfold applyGradients
  have hIH : ∀ i j, i < nn.HiddenNeurons ∧ j < nn.InputNeurons → g1.IH i j = g2.IH i j :=
    fun i j hij => h (.IH i j) hij
  have hHO : ∀ i, i < nn.HiddenNeurons → g1.HO i = g2.HO i := fun i hi => h (.HO i) hi
  have hBH : ∀ i, i < nn.HiddenNeurons → g1.BH i = g2.BH i := fun i hi => h (.BH i) hi
  have hBO : g1.BO = g2.BO := h .BO trivial
  congr 1
  · funext i j
    by_cases hij : i < nn.HiddenNeurons ∧ j < nn.InputNeurons
    · rw [if_pos hij, if_pos hij, hIH i j hij]
    · rw [if_neg hij, if_neg hij]
  · funext i
    by_cases hi : i < nn.HiddenNeurons
    · rw [if_pos hi, if_pos hi, hHO i hi]
    · rw [if_neg hi, if_neg hi]
  · funext i
    by_cases hi : i < nn.HiddenNeurons
    · rw [if_pos hi, if_pos hi, hBH i hi]
    · rw [if_neg hi, if_neg hi]
  · rw [hBO]

theorem applyGradients_zero (nn : NeuralNetwork) (g : Gradients)
    (h : ∀ c : Coord, c.inRange nn.HiddenNeurons nn.InputNeurons → entry g c = 0) :
    applyGradients nn g = nn := by
  have hIH : ∀ i j, i < nn.HiddenNeurons ∧ j < nn.InputNeurons → g.IH i j = 0 :=
    fun i j hij => h (.IH i j) hij
  have hHO : ∀ i, i < nn.HiddenNeurons → g.HO i = 0 := fun i hi => h (.HO i) hi
  have hBH : ∀ i, i < nn.HiddenNeurons → g.BH i = 0 := fun i hi => h (.BH i) hi
  have hBO : g.BO = 0 := h .BO trivial
  cases nn with
  | mk I H O lr wih who bh bo =>
    simp only [applyGradients] at *
    congr 1
    · funext i j
      by_cases hij : i < H ∧ j < I
      · rw [if_pos hij, hIH i j hij]
        simp
      · rw [if_neg hij]
    · funext i
      by_cases hi : i < H
      · rw [if_pos hi, hHO i hi]
        simp
      · rw [if_neg hi]
    · funext i
      by_cases hi : i < H
      · rw [if_pos hi, hBH i hi]
        simp
      · rw [if_neg hi]
    · rw [hBO]
      simp

theorem ann_inv_init (cfg : Cfg) (W : Nat) (hW : cfg.workers = W) : Inv cfg W (init cfg) := by
  have h : ¬ cfg.workers < 0 := by omega
  constructor <;> simp [init, h, MainPc.working]

theorem all_done_of_live_zero (l : List Worker) (h : (l.map Worker.live).sum = 0) :
    ∀ w ∈ l, w.pc = .done := by
  intro w hw
  have := zero_of_map_sum_eq_zero Worker.live l h w hw
  unfold Worker.live at this
  cases hp : w.pc <;> simp [hp] at this ⊢

end Concurrent
end ANN

namespace ANN
namespace Concurrent

theorem ann_inv_stepMain (cfg : Cfg) (W : Nat) (hW : cfg.workers = W) (st st1 : State)
    (hinv : Inv cfg W st) (h : stepMain cfg st = some st1) : Inv cfg W st1 := by
  unfold stepMain at h
  cases hm : st.main with
  | panicked => exact absurd hm hinv.not_panicked
  | returned => rw [hm] at h; cases h
  | epochCheck =>
    rw [hm] at h
    simp only [] at h
    have hfresh := hinv.fresh (by simp [hm, MainPc.working]) (by simp [hm])
    have hclosed : st.recordClosed = false := by
      cases hc : st.recordClosed with
      | false => rfl
      | true =>
        have := hinv.closed_iff.mp hc
        simp [hm] at this
    have hq := hinv.queue_empty (by simp [hm]) (by simp [hm]) hclosed
    by_cases he : (st.epoch : Int) < cfg.epochs
    · rw [if_pos he] at h
      simp at h
      subst h
      have hcur : (st.workers.map (Worker.isCur st.epoch)).sum = 0 := by
        apply map_sum_eq_zero
        intro w hw
        have := hfresh w hw
        simp only [Worker.isCur]
        rw [if_neg (by omega)]
      constructor
      · exact hinv.dims
      · simp
      · exact hinv.wg_eq
      · exact hinv.tokens
      · exact hinv.stamps
      · intro hnw
        simp [MainPc.working] at hnw
      · simp
      · intro w hw
        simp at hw
        subst hw
        simp [hcur]
      · intro _ hns
        exact absurd rfl (hns 0)
      · simpa [hm] using hinv.applied_eq
      · simpa [hm] using hinv.closed_iff
      · intro w hw he
        have := hfresh w hw
        simp only [] at he
        omega
      · intro _ _ _
        exact hq
      · intro _ c hc
        simp only [MainPc.sent, List.drop_zero, entry_zero, hq, List.map_nil, List.sum_nil,
          entry_batchGradient]
        rw [map_sum_eq_zero (Worker.unmergedAt c)]
        · simp
        · intro w hw
          have := (hinv.stamps w hw).2 (hfresh w hw)
          simp [Worker.unmergedAt, this]
      · intro _ c hc
        simp only [entry_zero]
        rw [map_sum_eq_zero (Worker.mergedAt st.epoch c)]
        intro w hw
        have := hfresh w hw
        simp only [Worker.mergedAt]
        rw [if_neg (by omega)]
      · exact hinv.nn_batch
      · exact hinv.nn_same
    · rw [if_neg he] at h
      simp at h
      subst h
      constructor
      · exact hinv.dims
      · simp
      · exact hinv.wg_eq
      · exact hinv.tokens
      · exact hinv.stamps
      · intro _ _
        exact hfresh
      · simp
      · simp
      · simp [MainPc.working]
      · simpa [hm] using hinv.applied_eq
      · simpa [hm] using hinv.closed_iff
      · exact hinv.left_loop
      · intro _ _ _
        exact hq
      · simp [MainPc.working]
      · simp [MainPc.working]
      · exact hinv.nn_batch
      · exact hinv.nn_same
  | spawn w =>
    rw [hm] at h
    simp only [] at h
    obtain ⟨hcur, hwW⟩ := hinv.cur_spawn w hm
    have hcons := hinv.conservation (by simp [hm, MainPc.working])
    have hmerged := hinv.merged_sum (by simp [hm, MainPc.working])
    by_cases hw : (w : Int) < cfg.workers
    · rw [if_pos hw] at h
      by_cases hc : (st.workerChan.length : Int) < cfg.workers
      · rw [if_pos hc] at h
        simp at h
        subst h
        constructor
        · exact hinv.dims
        · simp
        · simp [hinv.wg_eq, Worker.live]
        · simp [hinv.tokens, Worker.holds]
        · intro x hx
          simp at hx
          rcases hx with hx | hx
          · exact hinv.stamps x hx
          · subst hx
            simp
        · intro hnw
          simp [MainPc.working] at hnw
        · simp
        · intro w1 hw1
          simp at hw1
          subst hw1
          simp [hcur, Worker.isCur]
          omega
        · intro _ hns
          exact absurd rfl (hns (w + 1))
        · simpa [hm] using hinv.applied_eq
        · simpa [hm] using hinv.closed_iff
        · intro x hx he hp
          simp at hx
          rcases hx with hx | hx
          · exact hinv.left_loop x hx he hp
          · subst hx
            simp at hp
        · intro _ _ hcl
          exact hinv.queue_empty (by simp [hm]) (by simp [hm]) hcl
        · intro _ c hcr
          have := hcons c hcr
          simp only [hm, MainPc.sent] at this
          simp only [MainPc.sent, List.map_append, List.sum_append, List.map_cons, List.map_nil,
            List.sum_cons, List.sum_nil, Worker.unmergedAt, entry_zero, add_zero]
          exact this
        · intro _ c hcr
          have := hmerged c hcr
          simp only [List.map_append, List.sum_append, List.map_cons, List.map_nil,
            List.sum_cons, List.sum_nil, Worker.mergedAt, add_zero, ite_self]
          exact this
        · exact hinv.nn_batch
        · exact hinv.nn_same
      · rw [if_neg hc] at h
        cases h
    · rw [if_neg hw] at h
      simp at h
      subst h
      have hwW1 : w = W := by omega
      constructor
      · exact hinv.dims
      · simp
      · exact hinv.wg_eq
      · exact hinv.tokens
      · exact hinv.stamps
      · intro hnw
        simp [MainPc.working] at hnw
      · simp
      · simp
      · intro _ _
        simp only []
        omega
      · simpa [hm] using hinv.applied_eq
      · simpa [hm] using hinv.closed_iff
      · exact hinv.left_loop
      · intro hns
        exact absurd rfl (hns 0)
      · intro _ c hcr
        have := hcons c hcr
        simp only [hm, MainPc.sent] at this
        exact this
      · intro _ c hcr
        exact hmerged c hcr
      · exact hinv.nn_batch
      · exact hinv.nn_same
  | send i =>
    rw [hm] at h
    simp only [] at h
    have hcons := hinv.conservation (by simp [hm, MainPc.working])
    have hmerged := hinv.merged_sum (by simp [hm, MainPc.working])
    have hfull := hinv.cur_full (by simp [hm, MainPc.working]) (by simp [hm])
    have hopen : ¬ st.recordClosed = true := by
      intro hc
      have := hinv.closed_iff.mp hc
      simp [hm] at this
    cases hr : cfg.records[i]? with
    | some record =>
      rw [hr] at h
      simp only [] at h
      by_cases hl : st.recordChan.length < cfg.records.length
      · rw [if_pos hl] at h
        simp at h
        subst h
        have hdrop : cfg.records.drop i = record :: cfg.records.drop (i + 1) := by
          obtain ⟨hi, hget⟩ := List.getElem?_eq_some.mp hr
          rw [← hget]
          exact List.drop_eq_getElem_cons hi
        constructor
        · exact hinv.dims
        · simp
        · exact hinv.wg_eq
        · exact hinv.tokens
        · exact hinv.stamps
        · intro hnw
          simp [MainPc.working] at hnw
        · simp
        · simp
        · intro _ _
          exact hfull
        · simpa [hm] using hinv.applied_eq
        · simpa [hm] using hinv.closed_iff
        · intro x hx he hp
          exact absurd (hinv.left_loop x hx he hp).1 hopen
        · intro hns
          exact absurd rfl (hns (i + 1))
        · intro _ c hcr
          have := hcons c hcr
          simp only [hm, MainPc.sent, hdrop, List.map_cons, List.sum_cons] at this
          simp only [MainPc.sent, List.map_append, List.sum_append, List.map_cons, List.map_nil,
            List.sum_cons, List.sum_nil, add_zero]
          linarith
        · intro _ c hcr
          exact hmerged c hcr
        · exact hinv.nn_batch
        · exact hinv.nn_same
      · rw [if_neg hl] at h
        cases h
    | none =>
      rw [hr] at h
      simp at h
      subst h
      have hge : cfg.records.length ≤ i := by
        rcases Nat.lt_or_ge i cfg.records.length with hlt | hge
        · rw [List.getElem?_eq_getElem hlt] at hr
          cases hr
        · exact hge
      constructor
      · exact hinv.dims
      · simp
      · exact hinv.wg_eq
      · exact hinv.tokens
      · exact hinv.stamps
      · intro hnw
        simp [MainPc.working] at hnw
      · simp
      · simp
      · intro _ _
        exact hfull
      · simpa [hm] using hinv.applied_eq
      · simpa [hm] using hinv.closed_iff
      · exact hinv.left_loop
      · intro _ hnc
        exact absurd rfl hnc
      · intro _ c hcr
        have := hcons c hcr
        simp only [hm, MainPc.sent, List.drop_of_length_le hge] at this
        simp only [MainPc.sent, List.drop_length]
        exact this
      · intro _ c hcr
        exact hmerged c hcr
      · exact hinv.nn_batch
      · exact hinv.nn_same
  | close =>
    rw [hm] at h
    simp at h
    subst h
    have hcons := hinv.conservation (by simp [hm, MainPc.working])
    have hmerged := hinv.merged_sum (by simp [hm, MainPc.working])
    have hfull := hinv.cur_full (by simp [hm, MainPc.working]) (by simp [hm])
    have hopen : ¬ st.recordClosed = true := by
      intro hc
      have := hinv.closed_iff.mp hc
      simp [hm] at this
    constructor
    · exact hinv.dims
    · simp
    · exact hinv.wg_eq
    · exact hinv.tokens
    · exact hinv.stamps
    · intro hnw
      simp [MainPc.working] at hnw
    · simp
    · simp
    · intro _ _
      exact hfull
    · simpa [hm] using hinv.applied_eq
    · simp
    · intro x hx he hp
      exact absurd (hinv.left_loop x hx he hp).1 hopen
    · intro _ _ hcl
      simp at hcl
    · intro _ c hcr
      have := hcons c hcr
      simp only [hm, MainPc.sent] at this
      exact this
    · intro _ c hcr
      exact hmerged c hcr
    · exact hinv.nn_batch
    · exact hinv.nn_same
  | wait =>
    rw [hm] at h
    simp only [] at h
    have hcons := hinv.conservation (by simp [hm, MainPc.working])
    have hmerged := hinv.merged_sum (by simp [hm, MainPc.working])
    have hfull := hinv.cur_full (by simp [hm, MainPc.working]) (by simp [hm])
    have hcl : st.recordClosed = true := hinv.closed_iff.mpr (by simp [hm])
    by_cases hw : st.wg = 0
    · rw [if_pos hw] at h
      simp at h
      subst h
      constructor
      · exact hinv.dims
      · simp
      · exact hinv.wg_eq
      · exact hinv.tokens
      · exact hinv.stamps
      · intro hnw
        simp [MainPc.working] at hnw
      · intro _
        have := hinv.wg_eq
        simp only []
        omega
      · simp
      · intro _ _
        exact hfull
      · simpa [hm] using hinv.applied_eq
      · simp [hcl]
      · exact hinv.left_loop
      · intro _ _ hc
        simp only [] at hc
        rw [hcl] at hc
        cases hc
      · intro _ c hcr
        have := hcons c hcr
        simp only [hm, MainPc.sent] at this
        exact this
      · intro _ c hcr
        exact hmerged c hcr
      · exact hinv.nn_batch
      · exact hinv.nn_same
    · rw [if_neg hw] at h
      cases h
  | apply =>
    rw [hm] at h
    simp at h
    subst h
    have hcons := hinv.conservation (by simp [hm, MainPc.working])
    have hmerged := hinv.merged_sum (by simp [hm, MainPc.working])
    have hfull := hinv.cur_full (by simp [hm, MainPc.working]) (by simp [hm])
    have hcl : st.recordClosed = true := hinv.closed_iff.mpr (by simp [hm])
    have hidle := hinv.idle (by simp [hm])
    have hdone := all_done_of_live_zero st.workers hidle
    have happ : st.applied = st.epoch := by simpa [hm] using hinv.applied_eq
    constructor
    · exact hinv.dims
    · simp
    · exact hinv.wg_eq
    · exact hinv.tokens
    · exact hinv.stamps
    · intro _ hnr
      exact absurd rfl hnr
    · intro _
      exact hidle
    · simp
    · intro _ _
      exact hfull
    · simp [happ]
    · simp [hcl]
    · exact hinv.left_loop
    · intro _ _ hc
      simp only [] at hc
      rw [hcl] at hc
      cases hc
    · simp [MainPc.working]
    · simp [MainPc.working]
    · intro hWpos
      simp only [Function.iterate_succ_apply', ← hinv.nn_batch hWpos]
      apply applyGradients_congr
      intro c hcr
      have h1 := hcons c hcr
      obtain ⟨j, x, hj, hx⟩ := exists_pos_of_map_sum_pos (Worker.isCur st.epoch) st.workers
        (by omega)
      have hxm : x ∈ st.workers := List.getElem?_mem hj
      have hxe : x.epoch = st.epoch := by
        simp only [Worker.isCur] at hx
        by_contra hne
        rw [if_neg hne] at hx
        omega
      have hq := (hinv.left_loop x hxm hxe (by rw [hdone x hxm]; simp)).2
      have hun : (st.workers.map (Worker.unmergedAt c)).sum = 0 := by
        apply map_sum_eq_zero
        intro y hy
        simp [Worker.unmergedAt, hdone y hy]
      simp only [hm, MainPc.sent, List.drop_length, hq, hun, List.map_nil, List.sum_nil,
        add_zero] at h1
      exact h1
    · intro hW0
      have hsame : st.nn = cfg.nn0 := hinv.nn_same hW0
      have hz : applyGradients st.nn st.global = st.nn := by
        apply applyGradients_zero
        intro c hcr
        rw [hmerged c hcr]
        apply map_sum_eq_zero
        intro y hy
        have := zero_of_map_sum_eq_zero (Worker.isCur st.epoch) st.workers (by omega) y hy
        simp only [Worker.isCur] at this
        simp only [Worker.mergedAt]
        by_cases hye : y.epoch = st.epoch
        · rw [if_pos hye] at this
          omega
        · rw [if_neg hye]
      simp only [hz]
      exact hsame
  | reset =>
    rw [hm] at h
    simp at h
    subst h
    have hidle := hinv.idle (by simp [hm])
    have hdone := all_done_of_live_zero st.workers hidle
    constructor
    · exact hinv.dims
    · simp
    · exact hinv.wg_eq
    · exact hinv.tokens
    · intro w hw
      have := (hinv.stamps w hw).1
      simp only []
      exact ⟨by omega, fun _ => hdone w hw⟩
    · intro _ _ w hw
      have := (hinv.stamps w hw).1
      simp only []
      omega
    · simp
    · simp
    · simp [MainPc.working]
    · simpa [hm] using hinv.applied_eq
    · simp
    · intro w hw he
      have := (hinv.stamps w hw).1
      simp only [] at he
      omega
    · simp
    · simp [MainPc.working]
    · simp [MainPc.working]
    · exact hinv.nn_batch
    · exact hinv.nn_same

end Concurrent
end ANN

namespace ANN
namespace Concurrent

/-- A worker that only changes its local accumulators or program counter leaves
the bookkeeping of stamps untouched. -/
theorem stamps_set (st : State) (k : Nat) (w w1 : Worker) (hk : st.workers[k]? = some w)
    (he : w1.epoch = w.epoch) (hp : w1.pc = .done ∨ w1.pc = w.pc)
    (h : ∀ x ∈ st.workers, x.epoch ≤ st.epoch ∧ (x.epoch < st.epoch → x.pc = .done)) :
    ∀ x ∈ st.workers.set k w1, x.epoch ≤ st.epoch ∧ (x.epoch < st.epoch → x.pc = .done) := by
  intro x hx
  rcases mem_set_cases _ _ _ _ hx with hx | hx
  · subst hx
    have := h w (List.getElem?_mem hk)
    rw [he]
    refine ⟨this.1, fun hlt => ?_⟩
    rcases hp with hp | hp
    · exact hp
    · rw [hp]
      exact this.2 hlt
  · exact h x hx

theorem ann_inv_stepWorker (cfg : Cfg) (W : Nat) (st st1 : State) (k : Nat)
    (hinv : Inv cfg W st) (h : stepWorker cfg st k = some st1) : Inv cfg W st1 := by
  unfold stepWorker at h
  cases hk : st.workers[k]? with
  | none => rw [hk] at h; cases h
  | some w =>
    rw [hk] at h
    simp only [] at h
    have hmem : w ∈ st.workers := List.getElem?_mem hk
    have hlive := fun b => map_sum_set Worker.live st.workers k w b hk
    have hholds := fun b => map_sum_set Worker.holds st.workers k w b hk
    have hcur := fun b => map_sum_set (Worker.isCur st.epoch) st.workers k w b hk
    have hun := fun c b => map_sum_set (Worker.unmergedAt c) st.workers k w b hk
    have hmg := fun c b => map_sum_set (Worker.mergedAt st.epoch c) st.workers k w b hk
    have hstamp := hinv.stamps w hmem
    cases hp : w.pc with
    | ranging =>
      rw [hp] at h
      simp only [] at h
      cases hq : st.recordChan with
      | cons record rest =>
        rw [hq] at h
        simp only [] at h
        by_cases hf : featuresInRange st.nn = true
        · rw [if_pos hf] at h
          simp at h
          subst h
          have h1 := hlive ⟨w.epoch, .ranging, w.loc.addInto st.nn.HiddenNeurons
            st.nn.InputNeurons (recordGradient cfg.sigmoid st.nn record)⟩
          have h2 := hholds ⟨w.epoch, .ranging, w.loc.addInto st.nn.HiddenNeurons
            st.nn.InputNeurons (recordGradient cfg.sigmoid st.nn record)⟩
          have h3 := hcur ⟨w.epoch, .ranging, w.loc.addInto st.nn.HiddenNeurons
            st.nn.InputNeurons (recordGradient cfg.sigmoid st.nn record)⟩
          simp only [Worker.live, Worker.holds, Worker.isCur, hp] at h1 h2 h3
          have hne : ¬ st.recordChan = [] := by simp [hq]
          constructor
          · exact hinv.dims
          · exact hinv.not_panicked
          · have := hinv.wg_eq
            simp only []
            omega
          · have := hinv.tokens
            simp only []
            omega
          · exact stamps_set st k w _ hk rfl (Or.inr hp.symm) hinv.stamps
          · intro hnw hnr x hx
            rcases mem_set_cases _ _ _ _ hx with hx | hx
            · subst hx
              exact hinv.fresh hnw hnr w hmem
            · exact hinv.fresh hnw hnr x hx
          · intro hm
            have := hinv.idle hm
            simp only []
            omega
          · intro w1 hw1
            have := hinv.cur_spawn w1 hw1
            simp only []
            omega
          · intro hw1 hw2
            have := hinv.cur_full hw1 hw2
            simp only []
            omega
          · exact hinv.applied_eq
          · exact hinv.closed_iff
          · intro x hx he hpx
            rcases mem_set_cases _ _ _ _ hx with hx | hx
            · subst hx
              exact absurd rfl hpx
            · exact absurd (hinv.left_loop x hx he hpx).2 hne
          · intro h1 h2 h3
            exact absurd (hinv.queue_empty h1 h2 h3) hne
          · intro hw c hcr
            have h4 := hinv.conservation hw c hcr
            have h5 := hun c ⟨w.epoch, .ranging, w.loc.addInto st.nn.HiddenNeurons
            st.nn.InputNeurons (recordGradient cfg.sigmoid st.nn record)⟩
            simp only [Worker.unmergedAt, hp, entry_addInto _ _ _ _ c hcr] at h5
            simp only [hq, List.map_cons, List.sum_cons] at h4
            simp only []
            linarith
          · intro hw c hcr
            have h4 := hinv.merged_sum hw c hcr
            have h5 := hmg c ⟨w.epoch, .ranging, w.loc.addInto st.nn.HiddenNeurons
            st.nn.InputNeurons (recordGradient cfg.sigmoid st.nn record)⟩
            simp only [Worker.mergedAt, hp, ite_self] at h5
            simp only []
            linarith
          · exact hinv.nn_batch
          · exact hinv.nn_same
        · rw [if_neg hf] at h
          simp at h
          subst h
          rw [← hq]
          exact ⟨hinv.dims, hinv.not_panicked, hinv.wg_eq, hinv.tokens, hinv.stamps, hinv.fresh,
            hinv.idle, hinv.cur_spawn, hinv.cur_full, hinv.applied_eq, hinv.closed_iff,
            hinv.left_loop, hinv.queue_empty, hinv.conservation, hinv.merged_sum, hinv.nn_batch,
            hinv.nn_same⟩
      | nil =>
        rw [hq] at h
        simp only [] at h
        by_cases hc : st.recordClosed = true
        · rw [if_pos hc] at h
          simp at h
          subst h
          have h1 := hlive { w with pc := .merging }
          have h2 := hholds { w with pc := .merging }
          have h3 := hcur { w with pc := .merging }
          simp only [Worker.live, Worker.holds, Worker.isCur, hp] at h1 h2 h3
          have hnd : w.pc ≠ .done := by simp [hp]
          have hwe : w.epoch = st.epoch := by
            by_contra hne
            exact hnd (hstamp.2 (by omega))
          constructor
          · exact hinv.dims
          · exact hinv.not_panicked
          · have := hinv.wg_eq
            simp only []
            omega
          · have := hinv.tokens
            simp only []
            omega
          · intro x hx
            rcases mem_set_cases _ _ _ _ hx with hx | hx
            · subst hx
              simp only []
              exact ⟨hstamp.1, fun hlt => absurd hwe (by omega)⟩
            · exact hinv.stamps x hx
          · intro hnw hnr x hx
            rcases mem_set_cases _ _ _ _ hx with hx | hx
            · subst hx
              exact hinv.fresh hnw hnr w hmem
            · exact hinv.fresh hnw hnr x hx
          · intro hm
            have := hinv.idle hm
            simp only []
            omega
          · intro w1 hw1
            have := hinv.cur_spawn w1 hw1
            simp only []
            omega
          · intro hw1 hw2
            have := hinv.cur_full hw1 hw2
            simp only []
            omega
          · exact hinv.applied_eq
          · exact hinv.closed_iff
          · intro x hx he hpx
            exact ⟨hc, rfl⟩
          · intro h1 h2 h3
            rfl
          · intro hw c hcr
            have h4 := hinv.conservation hw c hcr
            have h5 := hun c { w with pc := .merging }
            simp only [Worker.unmergedAt, hp] at h5
            simp only [hq] at h4
            simp only []
            linarith
          · intro hw c hcr
            have h4 := hinv.merged_sum hw c hcr
            have h5 := hmg c { w with pc := .merging }
            simp only [Worker.mergedAt, hp, ite_self] at h5
            simp only []
            linarith
          · exact hinv.nn_batch
          · exact hinv.nn_same
        · rw [if_neg hc] at h
          cases h
    | merging =>
      rw [hp] at h
      simp at h
      subst h
      have h1 := hlive { w with pc := .merged }
      have h2 := hholds { w with pc := .merged }
      have h3 := hcur { w with pc := .merged }
      simp only [Worker.live, Worker.holds, Worker.isCur, hp] at h1 h2 h3
      have hnd : w.pc ≠ .done := by simp [hp]
      have hnr : w.pc ≠ .ranging := by simp [hp]
      have hwe : w.epoch = st.epoch := by
        by_contra hne
        exact hnd (hstamp.2 (by omega))
      have hll := hinv.left_loop w hmem hwe hnr
      constructor
      · exact hinv.dims
      · exact hinv.not_panicked
      · have := hinv.wg_eq
        simp only []
        omega
      · have := hinv.tokens
        simp only []
        omega
      · intro x hx
        rcases mem_set_cases _ _ _ _ hx with hx | hx
        · subst hx
          simp only []
          exact ⟨hstamp.1, fun hlt => absurd hwe (by omega)⟩
        · exact hinv.stamps x hx
      · intro hnw hnr x hx
        rcases mem_set_cases _ _ _ _ hx with hx | hx
        · subst hx
          exact hinv.fresh hnw hnr w hmem
        · exact hinv.fresh hnw hnr x hx
      · intro hm
        have := hinv.idle hm
        simp only []
        omega
      · intro w1 hw1
        have := hinv.cur_spawn w1 hw1
        simp only []
        omega
      · intro hw1 hw2
        have := hinv.cur_full hw1 hw2
        simp only []
        omega
      · exact hinv.applied_eq
      · exact hinv.closed_iff
      · intro x hx he hpx
        exact hll
      · intro h1 h2 h3
        exact hll.2
      · intro hw c hcr
        have h4 := hinv.conservation hw c hcr
        have h5 := hun c { w with pc := .merged }
        simp only [Worker.unmergedAt, hp] at h5
        simp only [entry_addInto _ _ _ _ c hcr]
        linarith
      · intro hw c hcr
        have h4 := hinv.merged_sum hw c hcr
        have h5 := hmg c { w with pc := .merged }
        simp only [Worker.mergedAt, hp, if_pos hwe] at h5
        simp only [entry_addInto _ _ _ _ c hcr]
        linarith
      · exact hinv.nn_batch
      · exact hinv.nn_same
    | merged =>
      rw [hp] at h
      simp only [] at h
      cases hq : st.workerChan with
      | nil => rw [hq] at h; cases h
      | cons tok rest =>
        rw [hq] at h
        simp at h
        subst h
        have h1 := hlive { w with pc := .released }
        have h2 := hholds { w with pc := .released }
        have h3 := hcur { w with pc := .released }
        simp only [Worker.live, Worker.holds, Worker.isCur, hp] at h1 h2 h3
        have hnd : w.pc ≠ .done := by simp [hp]
        have hnr : w.pc ≠ .ranging := by simp [hp]
        have hwe : w.epoch = st.epoch := by
          by_contra hne
          exact hnd (hstamp.2 (by omega))
        have hll := hinv.left_loop w hmem hwe hnr
        have htok := hinv.tokens
        rw [hq] at htok
        simp only [List.length_cons] at htok
        constructor
        · exact hinv.dims
        · exact hinv.not_panicked
        · have := hinv.wg_eq
          simp only []
          omega
        · simp only []
          omega
        · intro x hx
          rcases mem_set_cases _ _ _ _ hx with hx | hx
          · subst hx
            simp only []
            exact ⟨hstamp.1, fun hlt => absurd hwe (by omega)⟩
          · exact hinv.stamps x hx
        · intro hnw hnr x hx
          rcases mem_set_cases _ _ _ _ hx with hx | hx
          · subst hx
            exact hinv.fresh hnw hnr w hmem
          · exact hinv.fresh hnw hnr x hx
        · intro hm
          have := hinv.idle hm
          simp only []
          omega
        · intro w1 hw1
          have := hinv.cur_spawn w1 hw1
          simp only []
          omega
        · intro hw1 hw2
          have := hinv.cur_full hw1 hw2
          simp only []
          omega
        · exact hinv.applied_eq
        · exact hinv.closed_iff
        · intro x hx he hpx
          exact hll
        · intro h1 h2 h3
          exact hll.2
        · intro hw c hcr
          have h4 := hinv.conservation hw c hcr
          have h5 := hun c { w with pc := .released }
          simp only [Worker.unmergedAt, hp] at h5
          simp only []
          linarith
        · intro hw c hcr
          have h4 := hinv.merged_sum hw c hcr
          have h5 := hmg c { w with pc := .released }
          simp only [Worker.mergedAt, hp] at h5
          simp only []
          linarith
        · exact hinv.nn_batch
        · exact hinv.nn_same
    | released =>
      rw [hp] at h
      simp at h
      subst h
      have h1 := hlive { w with pc := .done }
      have h2 := hholds { w with pc := .done }
      have h3 := hcur { w with pc := .done }
      simp only [Worker.live, Worker.holds, Worker.isCur, hp] at h1 h2 h3
      have hnd : w.pc ≠ .done := by simp [hp]
      have hnr : w.pc ≠ .ranging := by simp [hp]
      have hwe : w.epoch = st.epoch := by
        by_contra hne
        exact hnd (hstamp.2 (by omega))
      have hll := hinv.left_loop w hmem hwe hnr
      constructor
      · exact hinv.dims
      · exact hinv.not_panicked
      · have := hinv.wg_eq
        simp only []
        omega
      · have := hinv.tokens
        simp only []
        omega
      · intro x hx
        rcases mem_set_cases _ _ _ _ hx with hx | hx
        · subst hx
          simp only []
          exact ⟨hstamp.1, fun _ => trivial⟩
        · exact hinv.stamps x hx
      · intro hnw hnr x hx
        rcases mem_set_cases _ _ _ _ hx with hx | hx
        · subst hx
          exact hinv.fresh hnw hnr w hmem
        · exact hinv.fresh hnw hnr x hx
      · intro hm
        have := hinv.idle hm
        simp only []
        omega
      · intro w1 hw1
        have := hinv.cur_spawn w1 hw1
        simp only []
        omega
      · intro hw1 hw2
        have := hinv.cur_full hw1 hw2
        simp only []
        omega
      · exact hinv.applied_eq
      · exact hinv.closed_iff
      · intro x hx he hpx
        exact hll
      · intro h1 h2 h3
        exact hll.2
      · intro hw c hcr
        have h4 := hinv.conservation hw c hcr
        have h5 := hun c { w with pc := .done }
        simp only [Worker.unmergedAt, hp] at h5
        simp only []
        linarith
      · intro hw c hcr
        have h4 := hinv.merged_sum hw c hcr
        have h5 := hmg c { w with pc := .done }
        simp only [Worker.mergedAt, hp] at h5
        simp only []
        linarith
      · exact hinv.nn_batch
      · exact hinv.nn_same
    | done =>
      rw [hp] at h
      cases h

theorem ann_inv_step (cfg : Cfg) (W : Nat) (hW : cfg.workers = W) (st st1 : State) (a : Action)
    (hinv : Inv cfg W st) (h : step cfg st a = some st1) : Inv cfg W st1 := by
  unfold step at h
  by_cases hc : st.crashed = true
  · rw [if_pos hc] at h
    cases h
  · rw [if_neg hc] at h
    cases a with
    | main => exact ann_inv_stepMain cfg W hW st st1 hinv h
    | worker k => exact ann_inv_stepWorker cfg W st st1 k hinv h

theorem ann_inv_run (cfg : Cfg) (W : Nat) (hW : cfg.workers = W) :
    ∀ (sched : List Action) (st st1 : State), Inv cfg W st → run cfg st sched = some st1 →
      Inv cfg W st1
  | [], st, st1, hinv, h => by
    simp [run] at h
    subst h
    exact hinv
  | a :: rest, st, st1, hinv, h => by
    simp only [run] at h
    cases hs : step cfg st a with
    | none => rw [hs] at h; cases h
    | some st2 =>
      rw [hs] at h
      exact ann_inv_run cfg W hW rest st2 st1 (ann_inv_step cfg W hW st st2 a hinv hs) h

end Concurrent
end ANN

namespace ANN
namespace Concurrent

theorem ann_inv2_init (cfg : Cfg) (W E : Nat) : Inv2 cfg W E (init cfg) := by
  constructor
  · intro _
    rfl
  · intro h
    by_cases hw : cfg.workers < 0 <;> simp [init, hw, MainPc.working] at h
  · simp [init]
  · intro h
    by_cases hw : cfg.workers < 0 <;> simp [init, hw] at h
  · intro i h
    by_cases hw : cfg.workers < 0 <;> simp [init, hw] at h

theorem ann_holds_le_isCur (st : State) (cfg : Cfg) (W : Nat) (hinv : Inv cfg W st) :
    (st.workers.map Worker.holds).sum ≤ (st.workers.map (Worker.isCur st.epoch)).sum := by
  have h : ∀ l : List Worker, (∀ x ∈ l, x.epoch ≤ st.epoch ∧ (x.epoch < st.epoch → x.pc = .done)) →
      (l.map Worker.holds).sum ≤ (l.map (Worker.isCur st.epoch)).sum := by
    intro l
    induction l with
    | nil => intro _; simp
    | cons x t ih =>
      intro hall
      have hx := hall x (List.mem_cons_self _ _)
      have ht := ih (fun y hy => hall y (List.mem_cons_of_mem _ hy))
      simp only [List.map_cons, List.sum_cons]
      have : x.holds ≤ Worker.isCur st.epoch x := by
        unfold Worker.isCur Worker.holds
        by_cases he : x.epoch = st.epoch
        · rw [if_pos he]
          cases x.pc <;> simp
        · rw [if_neg he, hx.2 (by omega)]
      omega
  exact h st.workers hinv.stamps

theorem ann_inv2_stepMain (cfg : Cfg) (W E : Nat) (hW : cfg.workers = W)
    (hE : cfg.epochs.toNat = E)
    (st st1 : State) (hinv : Inv cfg W st) (hinv2 : Inv2 cfg W E st)
    (h : stepMain cfg st = some st1) :
    Inv2 cfg W E st1 ∧ potential W cfg.records.length E st1 + 1
      ≤ potential W cfg.records.length E st := by
  unfold stepMain at h
  cases hm : st.main with
  | panicked => exact absurd hm hinv.not_panicked
  | returned => rw [hm] at h; cases h
  | epochCheck =>
    rw [hm] at h
    simp only [] at h
    by_cases he : (st.epoch : Int) < cfg.epochs
    · rw [if_pos he] at h
      simp at h
      subst h
      have hlt : st.epoch < E := by omega
      refine ⟨⟨hinv2.not_crashed, fun _ => hlt, hinv2.epoch_le, by simp, by simp⟩, ?_⟩
      have hmul : (E - st.epoch) * epochCost W cfg.records.length
          = (E - st.epoch - 1) * epochCost W cfg.records.length
            + epochCost W cfg.records.length := by
        have : E - st.epoch = (E - st.epoch - 1) + 1 := by omega
        rw [this, Nat.add_mul]
        simp
      have hC : epochCost W cfg.records.length = 5 * W + 2 * cfg.records.length + 7 := rfl
      simp only [potential, hm]
      rw [hmul]
      omega
    · rw [if_neg he] at h
      simp at h
      subst h
      have hle := hinv2.epoch_le
      have hEq : st.epoch = E := by omega
      refine ⟨⟨hinv2.not_crashed, by simp [MainPc.working], hle, fun _ => hEq, by simp⟩, ?_⟩
      simp only [potential, hm]
      omega
  | spawn w =>
    rw [hm] at h
    simp only [] at h
    obtain ⟨hcur, hwW⟩ := hinv.cur_spawn w hm
    have hlt := hinv2.epoch_lt (by simp [hm, MainPc.working])
    by_cases hw : (w : Int) < cfg.workers
    · rw [if_pos hw] at h
      by_cases hc : (st.workerChan.length : Int) < cfg.workers
      · rw [if_pos hc] at h
        simp at h
        subst h
        refine ⟨⟨hinv2.not_crashed, fun _ => hlt, hinv2.epoch_le, by simp, by simp⟩, ?_⟩
        have hwlt : w < W := by omega
        simp only [potential, hm, List.map_append, List.sum_append, List.map_cons, List.map_nil,
          List.sum_cons, List.sum_nil, Worker.pot]
        omega
      · rw [if_neg hc] at h
        cases h
    · rw [if_neg hw] at h
      simp at h
      subst h
      have hclosed : st.recordClosed = false := by
        cases hc : st.recordClosed with
        | false => rfl
        | true =>
          have := hinv.closed_iff.mp hc
          simp [hm] at this
      have hq := hinv.queue_empty (by simp [hm]) (by simp [hm]) hclosed
      refine ⟨⟨hinv2.not_crashed, fun _ => hlt, hinv2.epoch_le, by simp, ?_⟩, ?_⟩
      · intro i hi
        simp at hi
        subst hi
        simp [hq]
      · simp only [potential, hm]
        omega
  | send i =>
    rw [hm] at h
    simp only [] at h
    have hlt := hinv2.epoch_lt (by simp [hm, MainPc.working])
    have hql := hinv2.queue_le i hm
    cases hr : cfg.records[i]? with
    | some record =>
      rw [hr] at h
      simp only [] at h
      obtain ⟨hi, _⟩ := List.getElem?_eq_some.mp hr
      by_cases hl : st.recordChan.length < cfg.records.length
      · rw [if_pos hl] at h
        simp at h
        subst h
        refine ⟨⟨hinv2.not_crashed, fun _ => hlt, hinv2.epoch_le, by simp, ?_⟩, ?_⟩
        · intro j hj
          simp at hj
          subst hj
          simp only [List.length_append, List.length_singleton]
          omega
        · simp only [potential, hm, List.length_append, List.length_singleton]
          omega
      · rw [if_neg hl] at h
        cases h
    | none =>
      rw [hr] at h
      simp at h
      subst h
      refine ⟨⟨hinv2.not_crashed, fun _ => hlt, hinv2.epoch_le, by simp, by simp⟩, ?_⟩
      simp only [potential, hm]
      omega
  | close =>
    rw [hm] at h
    simp at h
    subst h
    have hlt := hinv2.epoch_lt (by simp [hm, MainPc.working])
    refine ⟨⟨hinv2.not_crashed, fun _ => hlt, hinv2.epoch_le, by simp, by simp⟩, ?_⟩
    simp only [potential, hm]
    omega
  | wait =>
    rw [hm] at h
    simp only [] at h
    have hlt := hinv2.epoch_lt (by simp [hm, MainPc.working])
    by_cases hw : st.wg = 0
    · rw [if_pos hw] at h
      simp at h
      subst h
      refine ⟨⟨hinv2.not_crashed, fun _ => hlt, hinv2.epoch_le, by simp, by simp⟩, ?_⟩
      simp only [potential, hm]
      omega
    · rw [if_neg hw] at h
      cases h
  | apply =>
    rw [hm] at h
    simp at h
    subst h
    have hlt := hinv2.epoch_lt (by simp [hm, MainPc.working])
    refine ⟨⟨hinv2.not_crashed, fun _ => hlt, hinv2.epoch_le, by simp, by simp⟩, ?_⟩
    simp only [potential, hm]
    omega
  | reset =>
    rw [hm] at h
    simp at h
    subst h
    have hlt := hinv2.epoch_lt (by simp [hm])
    refine ⟨⟨hinv2.not_crashed, by simp [MainPc.working], by simp only []; omega, by simp,
      by simp⟩, ?_⟩
    simp only [potential, hm, List.length_nil, Nat.sub_sub]
    omega

end Concurrent
end ANN

namespace ANN
namespace Concurrent

theorem ann_inv2_stepWorker (cfg : Cfg) (W E : Nat)
    (st st1 : State) (k : Nat) (hinv : Inv cfg W st) (hinv2 : Inv2 cfg W E st)
    (hnc : st.crashed = false) (h : stepWorker cfg st k = some st1) :
    Inv2 cfg W E st1 ∧ potential W cfg.records.length E st1 + 1
      ≤ potential W cfg.records.length E st := by
  have hfr : featuresInRange st.nn = featuresInRange cfg.nn0 := by
    unfold featuresInRange
    rw [hinv.dims.1, hinv.dims.2]
  unfold stepWorker at h
  cases hk : st.workers[k]? with
  | none => rw [hk] at h; cases h
  | some w =>
    rw [hk] at h
    simp only [] at h
    have hpot := fun b => map_sum_set Worker.pot st.workers k w b hk
    cases hp : w.pc with
    | ranging =>
      rw [hp] at h
      simp only [] at h
      cases hq : st.recordChan with
      | cons record rest =>
        rw [hq] at h
        simp only [] at h
        by_cases hf : featuresInRange st.nn = true
        · rw [if_pos hf] at h
          simp at h
          subst h
          have h1 := hpot ⟨w.epoch, .ranging, w.loc.addInto st.nn.HiddenNeurons
              st.nn.InputNeurons (recordGradient cfg.sigmoid st.nn record)⟩
          simp only [Worker.pot, hp] at h1
          refine ⟨⟨hinv2.not_crashed, hinv2.epoch_lt, hinv2.epoch_le, hinv2.ret_epoch, ?_⟩, ?_⟩
          · intro i hi
            have := hinv2.queue_le i hi
            rw [hq] at this
            simp only [List.length_cons] at this
            simp only []
            omega
          · simp only [potential, hq, List.length_cons]
            omega
        · rw [if_neg hf] at h
          simp at h
          subst h
          refine ⟨⟨?_, hinv2.epoch_lt, hinv2.epoch_le, hinv2.ret_epoch, ?_⟩, ?_⟩
          · intro hok
            exfalso
            rw [hfr] at hf
            have hmem : w ∈ st.workers := List.getElem?_mem hk
            have hst := hinv.stamps w hmem
            have hwe : w.epoch = st.epoch := by
              by_contra hne
              have := hst.2 (by omega)
              rw [hp] at this
              cases this
            have hwk : st.main.working ∨ st.main = .reset := by
              by_contra hcon
              push_neg at hcon
              have := hinv.fresh hcon.1 hcon.2 w hmem
              omega
            have hE := hinv2.epoch_lt hwk
            have hcur := map_sum_set (Worker.isCur st.epoch) st.workers k w
              ⟨st.epoch + 1, .done, w.loc⟩ hk
            simp only [Worker.isCur, hwe, if_true] at hcur
            rw [if_neg (by omega)] at hcur
            have hW : 1 ≤ W := by
              by_cases hsp : ∃ w1, st.main = .spawn w1
              · obtain ⟨w1, hw1⟩ := hsp
                have := hinv.cur_spawn w1 hw1
                omega
              · push_neg at hsp
                have := hinv.cur_full hwk hsp
                omega
            rcases hok with hok | hok | hok
            · exact absurd hok hf
            · omega
            · omega
          · intro i hi
            have := hinv2.queue_le i hi
            rw [hq] at this
            exact this
          · simp only [potential, hnc, hq]
            simp
      | nil =>
        rw [hq] at h
        simp only [] at h
        by_cases hc : st.recordClosed = true
        · rw [if_pos hc] at h
          simp at h
          subst h
          have h1 := hpot { w with pc := .merging }
          simp only [Worker.pot, hp] at h1
          refine ⟨⟨hinv2.not_crashed, hinv2.epoch_lt, hinv2.epoch_le, hinv2.ret_epoch, ?_⟩, ?_⟩
          · intro i hi
            have := hinv2.queue_le i hi
            rw [hq] at this
            exact this
          · simp only [potential, hq]
            omega
        · rw [if_neg hc] at h
          cases h
    | merging =>
      rw [hp] at h
      simp at h
      subst h
      have h1 := hpot { w with pc := .merged }
      simp only [Worker.pot, hp] at h1
      refine ⟨⟨hinv2.not_crashed, hinv2.epoch_lt, hinv2.epoch_le, hinv2.ret_epoch,
        hinv2.queue_le⟩, ?_⟩
      simp only [potential]
      omega
    | merged =>
      rw [hp] at h
      simp only [] at h
      cases hq : st.workerChan with
      | nil => rw [hq] at h; cases h
      | cons tok rest =>
        rw [hq] at h
        simp at h
        subst h
        have h1 := hpot { w with pc := .released }
        simp only [Worker.pot, hp] at h1
        refine ⟨⟨hinv2.not_crashed, hinv2.epoch_lt, hinv2.epoch_le, hinv2.ret_epoch,
          hinv2.queue_le⟩, ?_⟩
        simp only [potential]
        omega
    | released =>
      rw [hp] at h
      simp at h
      subst h
      have h1 := hpot { w with pc := .done }
      simp only [Worker.pot, hp] at h1
      refine ⟨⟨hinv2.not_crashed, hinv2.epoch_lt, hinv2.epoch_le, hinv2.ret_epoch,
        hinv2.queue_le⟩, ?_⟩
      simp only [potential]
      omega
    | done =>
      rw [hp] at h
      cases h

theorem ann_inv2_step (cfg : Cfg) (W E : Nat) (hW : cfg.workers = W)
    (hE : cfg.epochs.toNat = E)
    (st st1 : State) (a : Action) (hinv : Inv cfg W st) (hinv2 : Inv2 cfg W E st)
    (h : step cfg st a = some st1) :
    Inv2 cfg W E st1 ∧ potential W cfg.records.length E st1 + 1
      ≤ potential W cfg.records.length E st := by
  unfold step at h
  by_cases hc : st.crashed = true
  · rw [if_pos hc] at h
    cases h
  · rw [if_neg hc] at h
    cases a with
    | main => exact ann_inv2_stepMain cfg W E hW hE st st1 hinv hinv2 h
    | worker k =>
      exact ann_inv2_stepWorker cfg W E st st1 k hinv hinv2 (by simpa using hc) h

theorem ann_inv2_run (cfg : Cfg) (W E : Nat) (hW : cfg.workers = W)
    (hE : cfg.epochs.toNat = E) :
    ∀ (sched : List Action) (st st1 : State), Inv cfg W st → Inv2 cfg W E st →
      run cfg st sched = some st1 →
      Inv2 cfg W E st1 ∧ potential W cfg.records.length E st1 + sched.length
        ≤ potential W cfg.records.length E st
  | [], st, st1, _, hinv2, h => by
    simp [run] at h
    subst h
    exact ⟨hinv2, by simp⟩
  | a :: rest, st, st1, hinv, hinv2, h => by
    simp only [run] at h
    cases hs : step cfg st a with
    | none => rw [hs] at h; cases h
    | some st2 =>
      rw [hs] at h
      have h1 := ann_inv_step cfg W hW st st2 a hinv hs
      have h2 := ann_inv2_step cfg W E hW hE st st2 a hinv hinv2 hs
      have h3 := ann_inv2_run cfg W E hW hE rest st2 st1 h1 h2.1 h
      refine ⟨h3.1, ?_⟩
      simp only [List.length_cons]
      omega

/-- A worker that has not finished can take a step once the main goroutine
waits for the workers. -/
theorem ann_worker_enabled (cfg : Cfg) (W : Nat) (st : State) (hinv : Inv cfg W st)
    (hm : st.main = .wait) (k : Nat) (w : Worker) (hk : st.workers[k]? = some w)
    (hlive : 0 < w.live) : ∃ st1, stepWorker cfg st k = some st1 := by
  have hcl : st.recordClosed = true := hinv.closed_iff.mpr (Or.inl hm)
  have hh := map_sum_set Worker.holds st.workers k w { w with pc := .done } hk
  unfold stepWorker
  rw [hk]
  simp only []
  cases hp : w.pc with
  | ranging =>
    simp only []
    cases hq : st.recordChan with
    | cons record rest =>
      simp only []
      by_cases hf : featuresInRange st.nn = true
      · rw [if_pos hf]
        exact ⟨_, rfl⟩
      · rw [if_neg hf]
        exact ⟨_, rfl⟩
    | nil =>
      simp only [hcl, if_true]
      exact ⟨_, rfl⟩
  | merging => exact ⟨_, rfl⟩
  | merged =>
    simp only []
    have htok := hinv.tokens
    simp only [Worker.holds, hp] at hh
    cases hq : st.workerChan with
    | nil =>
      rw [hq] at htok
      simp at htok
      omega
    | cons tok rest => exact ⟨_, rfl⟩
  | released => exact ⟨_, rfl⟩
  | done => simp [Worker.live, hp] at hlive

/-- No deadlock: unless the call has returned, some thread can take a step. -/
theorem ann_progress (cfg : Cfg) (W E : Nat) (hW : cfg.workers = W) (st : State)
    (hok : featuresInRange cfg.nn0 = true ∨ W = 0 ∨ E = 0)
    (hinv : Inv cfg W st) (hinv2 : Inv2 cfg W E st) (hret : st.main ≠ .returned) :
    ∃ a st1, step cfg st a = some st1 := by
  have hnc : ¬ st.crashed = true := by simp [hinv2.not_crashed hok]
  unfold step
  simp only [if_neg hnc]
  cases hm : st.main with
  | panicked => exact absurd hm hinv.not_panicked
  | returned => exact absurd hm hret
  | epochCheck =>
    refine ⟨.main, ?_⟩
    simp only [stepMain, hm]
    by_cases he : (st.epoch : Int) < cfg.epochs
    · rw [if_pos he]
      exact ⟨_, rfl⟩
    · rw [if_neg he]
      exact ⟨_, rfl⟩
  | spawn w =>
    refine ⟨.main, ?_⟩
    simp only [stepMain, hm]
    by_cases hw : (w : Int) < cfg.workers
    · rw [if_pos hw]
      have h1 := ann_holds_le_isCur st cfg W hinv
      have h2 := hinv.cur_spawn w hm
      have h3 := hinv.tokens
      have hc : (st.workerChan.length : Int) < cfg.workers := by omega
      rw [if_pos hc]
      exact ⟨_, rfl⟩
    · rw [if_neg hw]
      exact ⟨_, rfl⟩
  | send i =>
    refine ⟨.main, ?_⟩
    simp only [stepMain, hm]
    cases hr : cfg.records[i]? with
    | none => exact ⟨_, rfl⟩
    | some record =>
      simp only []
      obtain ⟨hi, _⟩ := List.getElem?_eq_some.mp hr
      have := hinv2.queue_le i hm
      have hl : st.recordChan.length < cfg.records.length := by omega
      rw [if_pos hl]
      exact ⟨_, rfl⟩
  | close =>
    refine ⟨.main, ?_⟩
    simp only [stepMain, hm]
    exact ⟨_, rfl⟩
  | wait =>
    by_cases hw : st.wg = 0
    · refine ⟨.main, ?_⟩
      simp only [stepMain, hm, if_pos hw]
      exact ⟨_, rfl⟩
    · have hwg := hinv.wg_eq
      obtain ⟨j, u, hj, hu⟩ := exists_pos_of_map_sum_pos Worker.live st.workers (by omega)
      obtain ⟨st1, hs⟩ := ann_worker_enabled cfg W st hinv hm j u hj hu
      exact ⟨.worker j, st1, hs⟩
  | apply =>
    refine ⟨.main, ?_⟩
    simp only [stepMain, hm]
    exact ⟨_, rfl⟩
  | reset =>
    refine ⟨.main, ?_⟩
    simp only [stepMain, hm]
    exact ⟨_, rfl⟩

/-- From a state that satisfies the invariants the call can run to its return. -/
theorem ann_can_return (cfg : Cfg) (W E : Nat) (hW : cfg.workers = W)
    (hE : cfg.epochs.toNat = E) (hok : featuresInRange cfg.nn0 = true ∨ W = 0 ∨ E = 0) :
    ∀ (n : Nat) (st : State), Inv cfg W st → Inv2 cfg W E st →
      potential W cfg.records.length E st ≤ n →
      ∃ sched st1, run cfg st sched = some st1 ∧ st1.main = .returned := by
  intro n
  induction n with
  | zero =>
    intro st hinv hinv2 hp
    refine ⟨[], st, rfl, ?_⟩
    cases hm : st.main with
    | returned => rfl
    | panicked => exact absurd hm hinv.not_panicked
    | _ => simp [potential, hm, hinv2.not_crashed hok] at hp
  | succ n ih =>
    intro st hinv hinv2 hp
    by_cases hret : st.main = .returned
    · exact ⟨[], st, rfl, hret⟩
    · obtain ⟨a, st1, hs⟩ := ann_progress cfg W E hW st hok hinv hinv2 hret
      have h1 := ann_inv_step cfg W hW st st1 a hinv hs
      have h2 := ann_inv2_step cfg W E hW hE st st1 a hinv hinv2 hs
      obtain ⟨sched, st2, hr, hm⟩ := ih st1 h1 h2.1 (by omega)
      refine ⟨a :: sched, st2, ?_, hm⟩
      simp only [run, hs]
      exact hr

end Concurrent
end ANN

namespace ANN
namespace Concurrent

theorem ann_run_panicked (cfg : Cfg) (hneg : cfg.workers < 0) :
    ∀ (sched : List Action) (st : State), run cfg (init cfg) sched = some st → st = init cfg
  | [], st, h => by
    simp [run] at h
    exact h.symm
  | a :: rest, st, h => by
    have hs : step cfg (init cfg) a = none := by
      cases a <;> simp [step, init, hneg, stepMain, stepWorker]
    simp [run, hs] at h

/-- Every reachable state satisfies both parts of the invariant. -/
theorem ann_reachable_inv (cfg : Cfg) (W : Nat) (hW : cfg.workers = W) (sched : List Action)
    (st : State) (hrun : run cfg (init cfg) sched = some st) :
    Inv cfg W st ∧ Inv2 cfg W cfg.epochs.toNat st ∧
      potential W cfg.records.length cfg.epochs.toNat st + sched.length
        ≤ potential W cfg.records.length cfg.epochs.toNat (init cfg) := by
  have h1 := ann_inv_run cfg W hW sched _ st (ann_inv_init cfg W hW) hrun
  have h2 := ann_inv2_run cfg W cfg.epochs.toNat hW rfl sched _ st (ann_inv_init cfg W hW)
    (ann_inv2_init cfg _ _) hrun
  exact ⟨h1, h2.1, h2.2⟩

theorem ann_run_induction (cfg : Cfg) (P : State → Prop)
    (hstep : ∀ st a st1, P st → step cfg st a = some st1 → P st1) :
    ∀ (sched : List Action) (st st1 : State), P st → run cfg st sched = some st1 → P st1
  | [], st, st1, hp, h => by
    simp [run] at h
    subst h
    exact hp
  | a :: rest, st, st1, hp, h => by
    simp only [run] at h
    cases hs : step cfg st a with
    | none => rw [hs] at h; cases h
    | some st2 =>
      rw [hs] at h
      exact ann_run_induction cfg P hstep rest st2 st1 (hstep st a st2 hp hs) h

theorem ann_stepMain_crashed (cfg : Cfg) (st st1 : State) (h : stepMain cfg st = some st1) :
    st1.crashed = st.crashed := by
  unfold stepMain at h
  cases hm : st.main <;> rw [hm] at h <;> simp only [] at h
  · cases h
  · split at h <;> simp at h <;> subst h <;> rfl
  · split at h
    · split at h
      · simp at h
        subst h
        rfl
      · cases h
    · simp at h
      subst h
      rfl
  · split at h
    · split at h
      · simp at h
        subst h
        rfl
      · cases h
    · simp at h
      subst h
      rfl
  · simp at h
    subst h
    rfl
  · split at h
    · simp at h
      subst h
      rfl
    · cases h
  · simp at h
    subst h
    rfl
  · simp at h
    subst h
    rfl
  · cases h

/-- A panic is raised by a worker inside its loop, so a crashed program has an
unfinished worker. -/
theorem ann_crash_live (cfg : Cfg) (sched : List Action) (st : State)
    (hrun : run cfg (init cfg) sched = some st) (hc : st.crashed = true) :
    0 < (st.workers.map Worker.live).sum := by
  have key := ann_run_induction cfg
    (fun s => s.crashed = true → 0 < (s.workers.map Worker.live).sum) (by
      intro s a s1 hp hs
      unfold step at hs
      by_cases hcr : s.crashed = true
      · rw [if_pos hcr] at hs
        cases hs
      · rw [if_neg hcr] at hs
        cases a with
        | main =>
          intro h1
          rw [ann_stepMain_crashed cfg s s1 hs] at h1
          exact absurd h1 hcr
        | worker k =>
          simp only [] at hs
          unfold stepWorker at hs
          cases hk : s.workers[k]? with
          | none => rw [hk] at hs; cases hs
          | some w =>
            rw [hk] at hs
            simp only [] at hs
            have hlive := map_sum_set Worker.live s.workers k w { w with pc := .done } hk
            cases hp : w.pc with
            | ranging =>
              rw [hp] at hs
              simp only [] at hs
              split at hs
              · split at hs
                · simp at hs
                  subst hs
                  intro h1
                  exact absurd h1 hcr
                · simp at hs
                  subst hs
                  intro _
                  simp only [Worker.live, hp] at hlive
                  simp only []
                  omega
              · split at hs
                · simp at hs
                  subst hs
                  intro h1
                  exact absurd h1 hcr
                · cases hs
            | merging =>
              rw [hp] at hs
              simp at hs
              subst hs
              intro h1
              exact absurd h1 hcr
            | merged =>
              rw [hp] at hs
              simp only [] at hs
              split at hs
              · simp at hs
                subst hs
                intro h1
                exact absurd h1 hcr
              · cases hs
            | released =>
              rw [hp] at hs
              simp at hs
              subst hs
              intro h1
              exact absurd h1 hcr
            | done =>
              rw [hp] at hs
              cases hs)
    sched (init cfg) st (by simp [init]) hrun
  exact key hc

theorem sum_mergedAt_of_done (e : Nat) (c : Coord) :
    ∀ l : List Worker, (∀ w ∈ l, w.pc = .done) →
      (l.map (Worker.mergedAt e c)).sum
        = (((l.filter (fun w => decide (w.epoch = e))).map (fun w => w.loc)).map
            (fun g => entry g c)).sum
  | [], _ => by simp
  | x :: t, h => by
    have ih := sum_mergedAt_of_done e c t (fun w hw => h w (List.mem_cons_of_mem _ hw))
    have hx := h x (List.mem_cons_self _ _)
    by_cases he : x.epoch = e
    · have hf : (x :: t).filter (fun w => decide (w.epoch = e))
          = x :: t.filter (fun w => decide (w.epoch = e)) := by
        simp [List.filter_cons, he]
      rw [hf]
      simp only [List.map_cons, List.sum_cons, ← ih]
      simp only [Worker.mergedAt, if_pos he, hx]
    · have hf : (x :: t).filter (fun w => decide (w.epoch = e))
          = t.filter (fun w => decide (w.epoch = e)) := by
        simp [List.filter_cons, he]
      rw [hf]
      simp only [List.map_cons, List.sum_cons, ← ih]
      simp only [Worker.mergedAt, if_neg he, zero_add]

/-- C4. In every run of the concurrent `Train`, whatever records each worker
received: when `wg.Wait()` has returned in an epoch (the main goroutine is about
to update the weights) every worker has merged and finished, each global
accumulator entry equals the sum, over the workers of the epoch, of that entry of
their local accumulators, and the update that follows changes every weight and
bias by `LearningRate` times that sum. -/
theorem Train_global_is_sum_of_locals (cfg : Cfg) (sched : List Action) (st : State)
    (hrun : run cfg (init cfg) sched = some st) (hmain : st.main = MainPc.apply) :
    (∀ w ∈ st.workers, w.pc = WorkerPc.done) ∧
    (∀ i j, i < st.nn.HiddenNeurons → j < st.nn.InputNeurons →
      st.global.IH i j = ((epochLocals st).map (fun g => g.IH i j)).sum) ∧
    (∀ i, i < st.nn.HiddenNeurons →
      st.global.HO i = ((epochLocals st).map (fun g => g.HO i)).sum) ∧
    (∀ i, i < st.nn.HiddenNeurons →
      st.global.BH i = ((epochLocals st).map (fun g => g.BH i)).sum) ∧
    st.global.BO = ((epochLocals st).map (fun g => g.BO)).sum ∧
    ∃ st1, step cfg st Action.main = some st1 ∧
      (∀ i j, i < st.nn.HiddenNeurons → j < st.nn.InputNeurons →
        st1.nn.WeightsIH i j - st.nn.WeightsIH i j
          = st.nn.LearningRate * ((epochLocals st).map (fun g => g.IH i j)).sum) ∧
      (∀ i, i < st.nn.HiddenNeurons →
        st1.nn.WeightsHO i - st.nn.WeightsHO i
          = st.nn.LearningRate * ((epochLocals st).map (fun g => g.HO i)).sum) ∧
      (∀ i, i < st.nn.HiddenNeurons →
        st1.nn.BiasH i - st.nn.BiasH i
          = st.nn.LearningRate * ((epochLocals st).map (fun g => g.BH i)).sum) ∧
      st1.nn.BiasO - st.nn.BiasO
        = st.nn.LearningRate * ((epochLocals st).map (fun g => g.BO)).sum := by
  by_cases hneg : cfg.workers < 0
  · have := ann_run_panicked cfg hneg sched st hrun
    rw [this] at hmain
    simp [init, hneg] at hmain
  · obtain ⟨W, hW⟩ := Int.eq_ofNat_of_zero_le (not_lt.mp hneg)
    obtain ⟨hinv, hinv2, _⟩ := ann_reachable_inv cfg W hW sched st hrun
    have hdone := all_done_of_live_zero st.workers (hinv.idle (Or.inl hmain))
    have hsum : ∀ c : Coord, c.inRange st.nn.HiddenNeurons st.nn.InputNeurons →
        entry st.global c = ((epochLocals st).map (fun g => entry g c)).sum := by
      intro c hc
      rw [hinv.merged_sum (by simp [hmain, MainPc.working]) c hc]
      exact sum_mergedAt_of_done st.epoch c st.workers hdone
    have hIH : ∀ i j, i < st.nn.HiddenNeurons → j < st.nn.InputNeurons →
        st.global.IH i j = ((epochLocals st).map (fun g => g.IH i j)).sum :=
      fun i j hi hj => hsum (.IH i j) ⟨hi, hj⟩
    have hHO : ∀ i, i < st.nn.HiddenNeurons →
        st.global.HO i = ((epochLocals st).map (fun g => g.HO i)).sum :=
      fun i hi => hsum (.HO i) hi
    have hBH : ∀ i, i < st.nn.HiddenNeurons →
        st.global.BH i = ((epochLocals st).map (fun g => g.BH i)).sum :=
      fun i hi => hsum (.BH i) hi
    have hBO : st.global.BO = ((epochLocals st).map (fun g => g.BO)).sum := hsum .BO trivial
    refine ⟨hdone, hIH, hHO, hBH, hBO, ?_⟩
    have hnc : ¬ st.crashed = true := by
      intro hc
      have := ann_crash_live cfg sched st hrun hc
      have := hinv.idle (Or.inl hmain)
      omega
    refine ⟨{ st with main := .reset, nn := applyGradients st.nn st.global,
                      applied := st.applied + 1 }, ?_, ?_, ?_, ?_, ?_⟩
    · simp only [step, if_neg hnc, stepMain, hmain]
    · intro i j hi hj
      simp only [applyGradients, if_pos (And.intro hi hj), hIH i j hi hj]
      ring
    · intro i hi
      simp only [applyGradients, if_pos hi, hHO i hi]
      ring
    · intro i hi
      simp only [applyGradients, if_pos hi, hBH i hi]
      ring
    · simp only [applyGradients, hBO]
      ring

/-- C4, witness: one epoch, one record, one worker, up to the return of
`wg.Wait()`. -/
theorem Train_global_is_sum_of_locals_witness :
    ∃ st, run demoCfg (init demoCfg) demoSchedule = some st ∧ st.main = MainPc.apply ∧
      st.global.BO = ((epochLocals st).map (fun g => g.BO)).sum :=
  ⟨_, rfl, rfl, (Train_global_is_sum_of_locals demoCfg demoSchedule _ rfl rfl).2.2.2.2.1⟩

/-- C5. In the concurrent `Train` with `workers >= 1`, for every schedule: the
weights and biases are at every moment the result of as many full-batch steps as
updates have been applied (one per completed epoch), each step adding to every
weight and bias `LearningRate` times the sum over all records of the gradient of
the record at the parameters of the start of the epoch; while any worker has not
finished, no update of its epoch has been applied, so it computes from the
parameters of the start of its epoch; at the return `epochs` updates have been
applied; and when no feature read can panic, the call can always run on to its
return. Nothing depends on which worker received which record, nor on the
number of workers. -/
theorem Train_epoch_is_batch_step (cfg : Cfg) (hw : 1 ≤ cfg.workers) (sched : List Action)
    (st : State) (hrun : run cfg (init cfg) sched = some st) :
    st.nn = (batchStep cfg.sigmoid cfg.records)^[st.applied] cfg.nn0 ∧
    (∀ w ∈ st.workers, w.pc ≠ WorkerPc.done →
      st.applied = w.epoch ∧ st.nn = (batchStep cfg.sigmoid cfg.records)^[w.epoch] cfg.nn0) ∧
    (st.main = MainPc.returned → st.applied = cfg.epochs.toNat) ∧
    (∀ nn : NeuralNetwork,
      (∀ i j, i < nn.HiddenNeurons → j < nn.InputNeurons →
        (batchStep cfg.sigmoid cfg.records nn).WeightsIH i j = nn.WeightsIH i j
          + nn.LearningRate
            * (cfg.records.map (fun r => (recordGradient cfg.sigmoid nn r).IH i j)).sum) ∧
      (∀ i, i < nn.HiddenNeurons →
        (batchStep cfg.sigmoid cfg.records nn).WeightsHO i = nn.WeightsHO i
          + nn.LearningRate
            * (cfg.records.map (fun r => (recordGradient cfg.sigmoid nn r).HO i)).sum) ∧
      (∀ i, i < nn.HiddenNeurons →
        (batchStep cfg.sigmoid cfg.records nn).BiasH i = nn.BiasH i
          + nn.LearningRate
            * (cfg.records.map (fun r => (recordGradient cfg.sigmoid nn r).BH i)).sum) ∧
      (batchStep cfg.sigmoid cfg.records nn).BiasO = nn.BiasO
        + nn.LearningRate
          * (cfg.records.map (fun r => (recordGradient cfg.sigmoid nn r).BO)).sum) ∧
    (featuresInRange cfg.nn0 = true →
      ∃ more st1, run cfg st more = some st1 ∧ st1.main = MainPc.returned) := by
  obtain ⟨W, hW⟩ := Int.eq_ofNat_of_zero_le (show (0 : Int) ≤ cfg.workers by omega)
  have hWpos : 0 < W := by omega
  obtain ⟨hinv, hinv2, _⟩ := ann_reachable_inv cfg W hW sched st hrun
  have hnn := hinv.nn_batch hWpos
  refine ⟨hnn, ?_, ?_, ?_, ?_⟩
  · intro w hwm hnd
    have hst := hinv.stamps w hwm
    have hwe : w.epoch = st.epoch := by
      by_contra hne
      exact hnd (hst.2 (by omega))
    have hnr : st.main ≠ .reset := by
      intro hr
      exact hnd (all_done_of_live_zero st.workers (hinv.idle (Or.inr hr)) w hwm)
    have happ : st.applied = st.epoch := by
      have := hinv.applied_eq
      rw [if_neg hnr] at this
      omega
    refine ⟨by omega, ?_⟩
    rw [hwe, ← happ]
    exact hnn
  · intro hret
    have h1 := hinv.applied_eq
    have h2 := hinv2.ret_epoch hret
    rw [if_neg (by simp [hret])] at h1
    omega
  · intro nn
    refine ⟨?_, ?_, ?_, ?_⟩
    · intro i j hi hj
      simp only [batchStep, applyGradients, batchGradient, if_pos (And.intro hi hj)]
    · intro i hi
      simp only [batchStep, applyGradients, batchGradient, if_pos hi]
    · intro i hi
      simp only [batchStep, applyGradients, batchGradient, if_pos hi]
    · simp only [batchStep, applyGradients, batchGradient]
  · intro hok
    exact ann_can_return cfg W cfg.epochs.toNat hW rfl (Or.inl hok) _ st hinv hinv2 (le_refl _)

/-- C5, witness: `demoCfg` has one worker; after its schedule no update has been
applied yet and the weights are those of the call. -/
theorem Train_epoch_is_batch_step_witness :
    ∃ st, run demoCfg (init demoCfg) demoSchedule = some st ∧
      st.nn = (batchStep demoCfg.sigmoid demoCfg.records)^[st.applied] demoCfg.nn0 :=
  ⟨_, rfl, (Train_epoch_is_batch_step demoCfg (by decide) demoSchedule _ rfl).1⟩

end Concurrent
end ANN

namespace CF

/-- An iteration for another factor index leaves the entries of index `k`. -/
theorem updateFactor_other (err : ℚ) (user movie : Int) (f : Factors) (a k : Nat) (h : k ≠ a) :
    (∀ u, (updateFactor err user movie f a).P u k = f.P u k) ∧
    (∀ m, (updateFactor err user movie f a).Q m k = f.Q m k) := by
  constructor
  · intro u
    simp [updateFactor, h]
  · intro m
    simp [updateFactor, h]

/-- The update loop over distinct factor indices: the entries of an index that
is visited get the values of the two assignments of its iteration, computed from
the entries before the loop; the other entries keep their values. -/
theorem foldl_updateFactor_entry (err : ℚ) (user movie : Int) :
    ∀ (l : List Nat) (f : Factors) (k : Nat), l.Nodup →
      (k ∉ l →
        (l.foldl (updateFactor err user movie) f).P user k = f.P user k ∧
        (l.foldl (updateFactor err user movie) f).Q movie k = f.Q movie k) ∧
      (k ∈ l →
        (l.foldl (updateFactor err user movie) f).P user k
          = f.P user k + alpha * (err * f.Q movie k - lambda * f.P user k) ∧
        (l.foldl (updateFactor err user movie) f).Q movie k
          = f.Q movie k + alpha * (err * (f.P user k
              + alpha * (err * f.Q movie k - lambda * f.P user k)) - lambda * f.Q movie k))
  | [], f, k, _ => by simp
  | a :: t, f, k, hnd => by
    have hnd' := List.nodup_cons.mp hnd
    have ih := foldl_updateFactor_entry err user movie t (updateFactor err user movie f a) k hnd'.2
    simp only [List.foldl_cons]
    constructor
    · intro hk
      have hka : k ≠ a := fun e => hk (e ▸ List.mem_cons_self _ _)
      have hkt : k ∉ t := fun e => hk (List.mem_cons_of_mem _ e)
      have h1 := ih.1 hkt
      have h2 := updateFactor_other err user movie f a k hka
      rw [h1.1, h1.2, h2.1, h2.2]
      exact ⟨rfl, rfl⟩
    · intro hk
      by_cases hka : k = a
      · subst hka
        have h1 := ih.1 hnd'.1
        rw [h1.1, h1.2]
        simp [updateFactor]
      · have hkt : k ∈ t := by
          rcases List.mem_cons.mp hk with h | h
          · exact absurd h hka
          · exact h
        have h1 := ih.2 hkt
        have h2 := updateFactor_other err user movie f a k hka
        rw [h1.1, h1.2, h2.1, h2.2]
        exact ⟨rfl, rfl⟩

/-- What `updateLoop` assigns to `P[user][k]` and `Q[movie][k]` for `k < K`. -/
theorem updateLoop_entry (err : ℚ) (user movie : Int) (f : Factors) (k : Nat) (hk : k < K) :
    (updateLoop err user movie f).P user k
      = f.P user k + alpha * (err * f.Q movie k - lambda * f.P user k) ∧
    (updateLoop err user movie f).Q movie k
      = f.Q movie k + alpha * (err * (f.P user k
          + alpha * (err * f.Q movie k - lambda * f.P user k)) - lambda * f.Q movie k) :=
  (foldl_updateFactor_entry err user movie (List.range K) f k (List.nodup_range K)).2
    (List.mem_range.mpr hk)

end CF

namespace CF
namespace Concurrent

theorem range_K : List.range K = [0, 1, 2, 3, 4, 5, 6, 7, 8, 9] := by decide

theorem race_pred_initial : PredictRating raceCfg.f0 1 1 = 1 / 4 := by
  simp only [PredictRating, range_K, List.foldl, raceCfg]
  norm_num

theorem race_pred_after_first :
    PredictRating (updateLoop (19 / 4) 1 1 raceCfg.f0) 1 1 = 43967612451 / 160000000000 := by
  have h := fun k hk => updateLoop_entry (19 / 4) 1 1 raceCfg.f0 k hk
  simp only [PredictRating, range_K, List.foldl]
  rw [(h 0 (by decide)).1, (h 0 (by decide)).2, (h 1 (by decide)).1, (h 1 (by decide)).2,
    (h 2 (by decide)).1, (h 2 (by decide)).2, (h 3 (by decide)).1, (h 3 (by decide)).2,
    (h 4 (by decide)).1, (h 4 (by decide)).2, (h 5 (by decide)).1, (h 5 (by decide)).2,
    (h 6 (by decide)).1, (h 6 (by decide)).2, (h 7 (by decide)).1, (h 7 (by decide)).2,
    (h 8 (by decide)).1, (h 8 (by decide)).2, (h 9 (by decide)).1, (h 9 (by decide)).2]
  simp only [raceCfg, alpha, lambda]
  norm_num

theorem cf_run_cons (cfg : Cfg) (st st1 : State) (a : Action) (rest : List Action)
    (h : step cfg st a = some st1) : run cfg st (a :: rest) = run cfg st1 rest := by
  simp only [run, h]

theorem cf_run_append (cfg : Cfg) : ∀ (s1 s2 : List Action) (st st1 : State),
    run cfg st s1 = some st1 → run cfg st (s1 ++ s2) = run cfg st1 s2
  | [], s2, st, st1, h1 => by
    simp [run] at h1
    subst h1
    rfl
  | a :: rest, s2, st, st1, h1 => by
    simp only [run, List.cons_append] at h1 ⊢
    cases hs : step cfg st a with
    | none => rw [hs] at h1; cases h1
    | some st3 =>
      rw [hs] at h1
      simp only []
      exact cf_run_append cfg rest s2 st3 st1 h1

/-- The race schedule, step by step. -/
theorem race_run :
    run raceCfg (init raceCfg) raceSchedule
      = some (raceState (updateLoop (5 - PredictRating raceCfg.f0 1 1) 1 1 raceCfg.f0) true
          [.unlocked, .locked (5 - PredictRating raceCfg.f0 1 1)]) := by
  have h1 : run raceCfg (init raceCfg) [.main, .main]
      = some (raceState raceCfg.f0 false [.start, .start]) := rfl
  have h2 : step raceCfg (raceState raceCfg.f0 false [.start, .start]) (.unit 0)
      = some (raceState raceCfg.f0 false
          [.computed (5 - PredictRating raceCfg.f0 1 1), .start]) := rfl
  have h3 : step raceCfg (raceState raceCfg.f0 false
        [.computed (5 - PredictRating raceCfg.f0 1 1), .start]) (.unit 1)
      = some (raceState raceCfg.f0 false
          [.computed (5 - PredictRating raceCfg.f0 1 1),
           .computed (5 - PredictRating raceCfg.f0 1 1)]) := rfl
  have h4 : step raceCfg (raceState raceCfg.f0 false
        [.computed (5 - PredictRating raceCfg.f0 1 1),
         .computed (5 - PredictRating raceCfg.f0 1 1)]) (.unit 0)
      = some (raceState raceCfg.f0 true
          [.locked (5 - PredictRating raceCfg.f0 1 1),
           .computed (5 - PredictRating raceCfg.f0 1 1)]) := rfl
  have h5 : step raceCfg (raceState raceCfg.f0 true
        [.locked (5 - PredictRating raceCfg.f0 1 1),
         .computed (5 - PredictRating raceCfg.f0 1 1)]) (.unit 0)
      = some (raceState (updateLoop (5 - PredictRating raceCfg.f0 1 1) 1 1 raceCfg.f0) false
          [.unlocked, .computed (5 - PredictRating raceCfg.f0 1 1)]) := rfl
  have h6 : step raceCfg
        (raceState (updateLoop (5 - PredictRating raceCfg.f0 1 1) 1 1 raceCfg.f0) false
          [.unlocked, .computed (5 - PredictRating raceCfg.f0 1 1)]) (.unit 1)
      = some (raceState (updateLoop (5 - PredictRating raceCfg.f0 1 1) 1 1 raceCfg.f0) true
          [.unlocked, .locked (5 - PredictRating raceCfg.f0 1 1)]) := rfl
  have h0 : run raceCfg (init raceCfg) raceSchedule
      = run raceCfg (raceState raceCfg.f0 false [.start, .start])
          [.unit 0, .unit 1, .unit 0, .unit 0, .unit 1] :=
    cf_run_append raceCfg [.main, .main] [.unit 0, .unit 1, .unit 0, .unit 0, .unit 1] _ _ h1
  rw [h0, cf_run_cons _ _ _ _ _ h2, cf_run_cons _ _ _ _ _ h3, cf_run_cons _ _ _ _ _ h4,
    cf_run_cons _ _ _ _ _ h5, cf_run_cons _ _ _ _ _ h6]
  rfl

/-- C9. Two goroutines `update` for the same user and movie: both compute their
error from the initial `P` and `Q` before either takes the mutex. When the second
takes the mutex the first has already updated `P` and `Q`, yet the second applies
its update with the error 19/4 computed earlier; the sequential per-rating update
on the state present at the lock uses another error and gives another
`P[1][0]`. -/
theorem update_reads_before_lock :
    ∃ stLock st,
      run raceCfg (init raceCfg) raceSchedule = some stLock ∧
      stLock.mu = true ∧
      stLock.units.map (fun u => u.pc) = [UnitPc.unlocked, UnitPc.locked (19 / 4)] ∧
      (5 : ℚ) - PredictRating stLock.factors 1 1 ≠ 19 / 4 ∧
      step raceCfg stLock (Action.unit 1) = some st ∧
      st.factors.P 1 0 ≠ (Sequential.ratingUpdate stLock.factors ⟨1, 1, 5, 0⟩).P 1 0 := by
  have he : (5 : ℚ) - PredictRating raceCfg.f0 1 1 = 19 / 4 := by
    rw [race_pred_initial]
    norm_num
  refine ⟨_, raceState (updateLoop (5 - PredictRating raceCfg.f0 1 1) 1 1
      (updateLoop (5 - PredictRating raceCfg.f0 1 1) 1 1 raceCfg.f0)) false
      [.unlocked, .unlocked], race_run, rfl, ?_, ?_, rfl, ?_⟩
  · simp only [raceState, List.map_cons, List.map_nil, he]
  · simp only [raceState, he, race_pred_after_first]
    norm_num
  · have hP := fun err f => (updateLoop_entry err 1 1 f 0 (by decide)).1
    have hQ := fun err f => (updateLoop_entry err 1 1 f 0 (by decide)).2
    simp only [raceState, Sequential.ratingUpdate, he, race_pred_after_first, hP, hQ]
    simp only [raceCfg, alpha, lambda]
    norm_num

end Concurrent
end CF

namespace CF
namespace Concurrent

theorem cf_inv_init (cfg : Cfg) (h : ¬ (cfg.numUsers + 1 < 0 ∨ cfg.numMovies + 1 < 0)) :
    Inv cfg (init cfg) := by
  constructor <;> simp [init, h]

theorem cf_all_done_of_live_zero (l : List UpdateUnit) (h : (l.map UpdateUnit.live).sum = 0) :
    ∀ u ∈ l, u.pc = .done := by
  intro u hu
  have := zero_of_map_sum_eq_zero UpdateUnit.live l h u hu
  unfold UpdateUnit.live at this
  cases hp : u.pc <;> simp [hp] at this ⊢

theorem cf_inv_stepMain (cfg : Cfg) (st st1 : State) (hinv : Inv cfg st)
    (h : stepMain cfg st = some st1) : Inv cfg st1 := by
  unfold stepMain at h
  cases hm : st.main with
  | panicked => exact absurd hm hinv.not_panicked
  | returned => rw [hm] at h; cases h
  | spawn i =>
    rw [hm] at h
    simp only [] at h
    obtain ⟨hcur, hle⟩ := hinv.cur_spawn i hm
    cases hr : cfg.ratings[i]? with
    | some r =>
      rw [hr] at h
      simp at h
      subst h
      obtain ⟨hi, _⟩ := List.getElem?_eq_some.mp hr
      constructor
      · simp
      · simp [hinv.wg_eq, UpdateUnit.live]
      · intro u hu
        simp at hu
        rcases hu with hu | hu
        · exact hinv.stamps u hu
        · subst hu
          simp
      · intro j hj
        simp at hj
        subst hj
        simp [hcur, UpdateUnit.isCur]
        omega
      · simp
      · simp
    | none =>
      rw [hr] at h
      simp at h
      subst h
      have hge : cfg.ratings.length ≤ i := by
        rcases Nat.lt_or_ge i cfg.ratings.length with hlt | hge
        · rw [List.getElem?_eq_getElem hlt] at hr
          cases hr
        · exact hge
      constructor
      · simp
      · exact hinv.wg_eq
      · exact hinv.stamps
      · simp
      · intro _
        simp only []
        omega
      · simp
  | wait =>
    rw [hm] at h
    simp only [] at h
    by_cases hw : st.wg = 0
    · rw [if_pos hw] at h
      have hlive : (st.units.map UpdateUnit.live).sum = 0 := by
        have := hinv.wg_eq
        omega
      have hdone := cf_all_done_of_live_zero st.units hlive
      by_cases he : st.epoch + 1 < epochs
      · rw [if_pos he] at h
        simp at h
        subst h
        constructor
        · simp
        · exact hinv.wg_eq
        · intro u hu
          have := (hinv.stamps u hu).1
          simp only []
          exact ⟨by omega, fun _ => hdone u hu⟩
        · intro j hj
          simp at hj
          subst hj
          refine ⟨?_, Nat.zero_le _⟩
          apply map_sum_eq_zero
          intro u hu
          have := (hinv.stamps u hu).1
          simp only [UpdateUnit.isCur]
          rw [if_neg (by omega)]
        · simp
        · simp
      · rw [if_neg he] at h
        simp at h
        subst h
        constructor
        · simp
        · exact hinv.wg_eq
        · intro u hu
          have := (hinv.stamps u hu).1
          simp only []
          exact ⟨by omega, fun _ => hdone u hu⟩
        · simp
        · simp
        · intro _ u hu
          have := (hinv.stamps u hu).1
          simp only []
          omega
    · rw [if_neg hw] at h
      cases h

theorem cf_inv_set (cfg : Cfg) (st : State) (k : Nat) (u u1 : UpdateUnit) (wg1 : Int)
    (f1 : Factors) (mu1 : Bool)
    (hinv : Inv cfg st) (hk : st.units[k]? = some u) (hr : u1.rating = u.rating)
    (he : u1.epoch = u.epoch) (hnd : u.pc ≠ .done)
    (hwg : wg1 + (u.live : Int) = st.wg + (u1.live : Int)) :
    Inv cfg { st with wg := wg1, factors := f1, mu := mu1, units := st.units.set k u1 } := by
  have hmem : u ∈ st.units := List.getElem?_mem hk
  have hlive := map_sum_set UpdateUnit.live st.units k u u1 hk
  have hcur := map_sum_set (UpdateUnit.isCur st.epoch) st.units k u u1 hk
  have hst := hinv.stamps u hmem
  have hue : u.epoch = st.epoch := by
    by_contra hne
    exact hnd (hst.2 (by omega))
  have hc : UpdateUnit.isCur st.epoch u1 = UpdateUnit.isCur st.epoch u := by
    simp [UpdateUnit.isCur, he]
  constructor
  · exact hinv.not_panicked
  · have := hinv.wg_eq
    simp only []
    omega
  · intro x hx
    rcases mem_set_cases _ _ _ _ hx with hx | hx
    · subst hx
      simp only []
      exact ⟨by omega, fun hlt => absurd hue (by omega)⟩
    · exact hinv.stamps x hx
  · intro i hi
    have := hinv.cur_spawn i hi
    simp only []
    omega
  · intro hw
    have := hinv.cur_wait hw
    simp only []
    omega
  · intro hret x hx
    rcases mem_set_cases _ _ _ _ hx with hx | hx
    · subst hx
      have := hinv.at_return hret u hmem
      simp only []
      omega
    · exact hinv.at_return hret x hx

theorem cf_inv_stepUnit (cfg : Cfg) (st st1 : State) (k : Nat) (hinv : Inv cfg st)
    (h : stepUnit cfg st k = some st1) : Inv cfg st1 := by
  unfold stepUnit at h
  cases hk : st.units[k]? with
  | none => rw [hk] at h; cases h
  | some u =>
    rw [hk] at h
    simp only [] at h
    cases hp : u.pc with
    | start =>
      rw [hp] at h
      simp only [] at h
      by_cases hr : rowsExist cfg u.rating = true
      · rw [if_pos hr] at h
        simp at h
        subst h
        exact cf_inv_set cfg st k u _ st.wg st.factors st.mu hinv hk rfl rfl (by simp [hp])
          (by simp [UpdateUnit.live, hp])
      · rw [if_neg hr] at h
        simp at h
        subst h
        exact ⟨hinv.not_panicked, hinv.wg_eq, hinv.stamps, hinv.cur_spawn, hinv.cur_wait,
          hinv.at_return⟩
    | computed err =>
      rw [hp] at h
      simp only [] at h
      by_cases hmu : st.mu = true
      · rw [if_pos hmu] at h
        cases h
      · rw [if_neg hmu] at h
        simp at h
        subst h
        exact cf_inv_set cfg st k u _ st.wg st.factors true hinv hk rfl rfl (by simp [hp])
          (by simp [UpdateUnit.live, hp])
    | locked err =>
      rw [hp] at h
      simp at h
      subst h
      exact cf_inv_set cfg st k u _ st.wg _ false hinv hk rfl rfl (by simp [hp])
        (by simp [UpdateUnit.live, hp])
    | unlocked =>
      rw [hp] at h
      simp at h
      subst h
      exact cf_inv_set cfg st k u _ (st.wg - 1) st.factors st.mu hinv hk rfl rfl (by simp [hp])
        (by simp [UpdateUnit.live, hp])
    | done =>
      rw [hp] at h
      cases h

theorem cf_inv_step (cfg : Cfg) (st st1 : State) (a : Action) (hinv : Inv cfg st)
    (h : step cfg st a = some st1) : Inv cfg st1 := by
  unfold step at h
  by_cases hc : st.crashed = true
  · rw [if_pos hc] at h
    cases h
  · rw [if_neg hc] at h
    cases a with
    | main => exact cf_inv_stepMain cfg st st1 hinv h
    | unit k => exact cf_inv_stepUnit cfg st st1 k hinv h

theorem cf_inv_run (cfg : Cfg) :
    ∀ (sched : List Action) (st st1 : State), Inv cfg st → run cfg st sched = some st1 →
      Inv cfg st1
  | [], st, st1, hinv, h => by
    simp [run] at h
    subst h
    exact hinv
  | a :: rest, st, st1, hinv, h => by
    simp only [run] at h
    cases hs : step cfg st a with
    | none => rw [hs] at h; cases h
    | some st2 =>
      rw [hs] at h
      exact cf_inv_run cfg rest st2 st1 (cf_inv_step cfg st st2 a hinv hs) h

theorem cf_run_panicked (cfg : Cfg) (hneg : cfg.numUsers + 1 < 0 ∨ cfg.numMovies + 1 < 0) :
    ∀ (sched : List Action) (st : State), run cfg (init cfg) sched = some st → st = init cfg
  | [], st, h => by
    simp [run] at h
    exact h.symm
  | a :: rest, st, h => by
    have hs : step cfg (init cfg) a = none := by
      cases a <;> simp [step, init, hneg, stepMain, stepUnit]
    simp [run, hs] at h

/-- In every reachable state the goroutines of earlier epochs have finished, and
the goroutines in flight are goroutines of the current epoch. -/
theorem cf_reachable (cfg : Cfg) (sched : List Action) (st : State)
    (hrun : run cfg (init cfg) sched = some st) :
    (∀ u ∈ st.units, u.epoch ≤ st.epoch ∧ (u.epoch < st.epoch → u.pc = .done)) ∧
    inFlight st ≤ (st.units.map (UpdateUnit.isCur st.epoch)).sum ∧
    (st.units.map (UpdateUnit.isCur st.epoch)).sum ≤ cfg.ratings.length := by
  by_cases hneg : cfg.numUsers + 1 < 0 ∨ cfg.numMovies + 1 < 0
  · have := cf_run_panicked cfg hneg sched st hrun
    subst this
    simp [init, inFlight]
  · have hinv := cf_inv_run cfg sched _ st (cf_inv_init cfg hneg) hrun
    refine ⟨hinv.stamps, ?_, ?_⟩
    · have h : ∀ l : List UpdateUnit,
          (∀ x ∈ l, x.epoch ≤ st.epoch ∧ (x.epoch < st.epoch → x.pc = .done)) →
          (l.map UpdateUnit.live).sum ≤ (l.map (UpdateUnit.isCur st.epoch)).sum := by
        intro l
        induction l with
        | nil => intro _; simp
        | cons x t ih =>
          intro hall
          have hx := hall x (List.mem_cons_self _ _)
          have ht := ih (fun y hy => hall y (List.mem_cons_of_mem _ hy))
          simp only [List.map_cons, List.sum_cons]
          have : x.live ≤ UpdateUnit.isCur st.epoch x := by
            unfold UpdateUnit.isCur UpdateUnit.live
            by_cases he : x.epoch = st.epoch
            · rw [if_pos he]
              cases x.pc <;> simp
            · rw [if_neg he, hx.2 (by omega)]
          omega
      exact h st.units hinv.stamps
    · cases hm : st.main with
      | panicked => exact absurd hm hinv.not_panicked
      | spawn i =>
        have := hinv.cur_spawn i hm
        omega
      | wait =>
        have := hinv.cur_wait hm
        omega
      | returned =>
        have hz : (st.units.map (UpdateUnit.isCur st.epoch)).sum = 0 := by
          apply map_sum_eq_zero
          intro u hu
          have := hinv.at_return hm u hu
          simp only [UpdateUnit.isCur]
          rw [if_neg (by omega)]
        omega

end Concurrent
end CF

/-- C8. Epochs do not overlap, for every schedule. Network `Train`: in every
reachable state the workers started in an earlier epoch have completed, the
channel is empty when the workers of an epoch are being started, and whenever a
record is being sent or some worker has not completed, the number of weight
updates applied equals the number of the current epoch: the merged gradient of
every earlier epoch has been applied (and that of the current one has not).
Factorization `TrainConcurrent`: in every reachable state every goroutine
`update` started in an earlier epoch has completed, so no rating of epoch N+1 is
dispatched while a goroutine of epoch N is running. -/
theorem epochs_do_not_overlap :
    (∀ (cfg : ANN.Concurrent.Cfg) (sched : List ANN.Concurrent.Action)
        (st : ANN.Concurrent.State),
      ANN.Concurrent.run cfg (ANN.Concurrent.init cfg) sched = some st →
        (∀ w ∈ st.workers, w.epoch ≤ st.epoch ∧
          (w.epoch < st.epoch → w.pc = ANN.Concurrent.WorkerPc.done)) ∧
        ((st.main = ANN.Concurrent.MainPc.epochCheck ∨
            ∃ w, st.main = ANN.Concurrent.MainPc.spawn w) → st.recordChan = []) ∧
        (((∃ i, st.main = ANN.Concurrent.MainPc.send i) ∨
            ∃ w ∈ st.workers, w.pc ≠ ANN.Concurrent.WorkerPc.done) →
          st.applied = st.epoch)) ∧
    (∀ (cfg : CF.Concurrent.Cfg) (sched : List CF.Concurrent.Action)
        (st : CF.Concurrent.State),
      CF.Concurrent.run cfg (CF.Concurrent.init cfg) sched = some st →
        ∀ u ∈ st.units, u.epoch ≤ st.epoch ∧
          (u.epoch < st.epoch → u.pc = CF.Concurrent.UnitPc.done)) := by
  constructor
  · intro cfg sched st hrun
    by_cases hneg : cfg.workers < 0
    · have := ANN.Concurrent.ann_run_panicked cfg hneg sched st hrun
      subst this
      simp [ANN.Concurrent.init, hneg]
    · obtain ⟨W, hW⟩ := Int.eq_ofNat_of_zero_le (not_lt.mp hneg)
      obtain ⟨hinv, _, _⟩ := ANN.Concurrent.ann_reachable_inv cfg W hW sched st hrun
      refine ⟨hinv.stamps, ?_, ?_⟩
      · intro hm
        have hcl : st.recordClosed = false := by
          cases hc : st.recordClosed with
          | false => rfl
          | true =>
            have := hinv.closed_iff.mp hc
            rcases hm with hm | ⟨w, hm⟩ <;> simp [hm] at this
        apply hinv.queue_empty _ _ hcl
        · intro i hi
          rcases hm with hm | ⟨w, hm⟩ <;> simp [hm] at hi
        · intro hi
          rcases hm with hm | ⟨w, hm⟩ <;> simp [hm] at hi
      · intro hd
        have hnr : st.main ≠ .reset := by
          intro hr
          rcases hd with ⟨i, hi⟩ | ⟨w, hw, hnd⟩
          · simp [hr] at hi
          · exact hnd (ANN.Concurrent.all_done_of_live_zero st.workers
              (hinv.idle (Or.inr hr)) w hw)
        have := hinv.applied_eq
        rw [if_neg hnr] at this
        omega
  · intro cfg sched st hrun
    exact (CF.Concurrent.cf_reachable cfg sched st hrun).1

/-- C8, witness: the schedule of `demoCfg` up to the return of `wg.Wait()`. -/
theorem epochs_do_not_overlap_witness :
    ∃ st, ANN.Concurrent.run ANN.Concurrent.demoCfg
        (ANN.Concurrent.init ANN.Concurrent.demoCfg) ANN.Concurrent.demoSchedule = some st ∧
      ∀ w ∈ st.workers, w.epoch ≤ st.epoch ∧
        (w.epoch < st.epoch → w.pc = ANN.Concurrent.WorkerPc.done) :=
  ⟨_, rfl, (epochs_do_not_overlap.1 ANN.Concurrent.demoCfg ANN.Concurrent.demoSchedule _ rfl).1⟩

namespace CF
namespace Concurrent

/-- Starting the goroutines of the first epoch: after `n` steps of the main
goroutine, `n` goroutines are in flight. -/
theorem spawn_all (cfg : Cfg) (hok : ¬ (cfg.numUsers + 1 < 0 ∨ cfg.numMovies + 1 < 0)) :
    ∀ n, n ≤ cfg.ratings.length →
      ∃ st, run cfg (init cfg) (List.replicate n Action.main) = some st ∧
        st.main = .spawn n ∧ inFlight st = n ∧ st.crashed = false
  | 0, _ => ⟨init cfg, rfl, by simp [init, hok], by simp [init, inFlight], rfl⟩
  | n + 1, hn => by
    obtain ⟨st, hrun, hm, hfl, hc⟩ := spawn_all cfg hok n (by omega)
    have hlt : n < cfg.ratings.length := by omega
    have hstep : step cfg st .main = some
        { st with
          main := .spawn (n + 1), wg := st.wg + 1,
          units := st.units ++ [⟨cfg.ratings[n], st.epoch, .start⟩] } := by
      simp only [step, hc, stepMain, hm, List.getElem?_eq_getElem hlt]
      simp
    refine ⟨{ st with
        main := .spawn (n + 1), wg := st.wg + 1,
        units := st.units ++ [⟨cfg.ratings[n], st.epoch, .start⟩] }, ?_, rfl, ?_, hc⟩
    · have : List.replicate (n + 1) Action.main = List.replicate n Action.main ++ [.main] := by
        rw [List.replicate_succ']
      rw [this, cf_run_append cfg _ _ _ _ hrun]
      simp only [run, hstep]
    · simp only [inFlight] at hfl ⊢
      simp [hfl, UpdateUnit.live]

/-- C10, as stated, fails: five ratings give five goroutines `update` in flight
at once, and no number bounds the goroutines in flight for all training sets. -/
theorem no_worker_limit :
    (∃ st, run ⟨List.replicate 5 ⟨1, 1, 5, 0⟩, 1, 1, raceCfg.f0⟩
        (init ⟨List.replicate 5 ⟨1, 1, 5, 0⟩, 1, 1, raceCfg.f0⟩)
        (List.replicate 5 Action.main) = some st ∧ inFlight st = 5) ∧
    ¬ ∃ W : Nat, ∀ (cfg : Cfg) (sched : List Action) (st : State),
      run cfg (init cfg) sched = some st → inFlight st ≤ W := by
  constructor
  · obtain ⟨st, h1, _, h3, _⟩ := spawn_all ⟨List.replicate 5 ⟨1, 1, 5, 0⟩, 1, 1, raceCfg.f0⟩
      (by decide) 5 (by simp)
    exact ⟨st, h1, h3⟩
  · rintro ⟨W, hW⟩
    obtain ⟨st, h1, _, h3, _⟩ := spawn_all ⟨List.replicate (W + 1) ⟨1, 1, 5, 0⟩, 1, 1, raceCfg.f0⟩
      (by norm_num) (W + 1) (by simp)
    have := hW _ _ st h1
    omega

/-- C10, amended. In every reachable state of `TrainConcurrent` the number of
goroutines `update` in flight is at most the number of ratings of the training
set; when the matrices can be allocated this bound is reached, with all the
goroutines of an epoch in flight at once. -/
theorem inFlight_le_ratings (cfg : Cfg) :
    (∀ (sched : List Action) (st : State),
      run cfg (init cfg) sched = some st → inFlight st ≤ cfg.ratings.length) ∧
    (0 ≤ cfg.numUsers + 1 ∧ 0 ≤ cfg.numMovies + 1 →
      ∃ sched st, run cfg (init cfg) sched = some st ∧ inFlight st = cfg.ratings.length) := by
  constructor
  · intro sched st hrun
    have := cf_reachable cfg sched st hrun
    omega
  · intro hok
    obtain ⟨st, h1, _, h3, _⟩ := spawn_all cfg (by omega) cfg.ratings.length (le_refl _)
    exact ⟨_, st, h1, h3⟩

/-- C10, amended, witness: the two ratings of `raceCfg`. -/
theorem inFlight_le_ratings_witness :
    ∃ sched st, run raceCfg (init raceCfg) sched = some st ∧
      inFlight st = raceCfg.ratings.length :=
  (inFlight_le_ratings raceCfg).2 (by decide)

end Concurrent
end CF

namespace SVM

theorem dotLoop_some : ∀ (v1 v2 : List ℚ) (acc : ℚ), v1.length ≤ v2.length →
    ∃ d, dotLoop acc v1 v2 = some d
  | [], _, acc, _ => ⟨acc, rfl⟩
  | _ :: _, [], _, h => by simp at h
  | a :: v1, b :: v2, acc, h => by
    simp only [dotLoop]
    exact dotLoop_some v1 v2 _ (by simpa using h)

theorem weightsUpdate_some (c d : ℚ) : ∀ (ws xs : List ℚ), ws.length ≤ xs.length →
    ∃ r, weightsUpdate c d ws xs = some r ∧ r.length = ws.length
  | [], _, _ => ⟨[], rfl, rfl⟩
  | _ :: _, [], h => by simp at h
  | w :: ws, x :: xs, h => by
    obtain ⟨r, hr, hl⟩ := weightsUpdate_some c d ws xs (by simpa using h)
    exact ⟨(c * w + d * x) :: r, by simp [weightsUpdate, hr], by simp [hl]⟩

/-- With six weights the update of a record never panics and keeps six weights. -/
theorem recordStep_some (lr lambda : ℚ) (svm : Model) (record : Record)
    (h : svm.Weights.length = 6) :
    ∃ m, recordStep lr lambda svm record = some m ∧ m.Weights.length = 6 := by
  have hf : (extractFeatures record).length = 6 := rfl
  obtain ⟨d, hd⟩ := dotLoop_some svm.Weights (extractFeatures record) 0 (by omega)
  obtain ⟨ws, hws, hl⟩ := weightsUpdate_some (1 - lr * lambda) (lr * convertLabel record.Income)
    svm.Weights (extractFeatures record) (by omega)
  unfold recordStep dotProduct
  rw [hd]
  simp only []
  by_cases hc : convertLabel record.Income * (d + svm.Bias) < 1
  · rw [if_pos hc, hws]
    exact ⟨_, rfl, by simp [hl, h]⟩
  · rw [if_neg hc]
    exact ⟨_, rfl, by simp [h]⟩

theorem unitsFrom_of_le (records : List Record) (E e : Nat) (h : E ≤ e) :
    unitsFrom records E e = [] := by
  have : E - e = 0 := by omega
  simp [unitsFrom, this]

theorem unitsFrom_of_lt (records : List Record) (E e : Nat) (h : e < E) :
    unitsFrom records E e = records.map (fun r => (e, r)) ++ unitsFrom records E (e + 1) := by
  have h1 : E - e = (E - (e + 1)) + 1 := by omega
  unfold unitsFrom
  rw [h1, List.range'_succ]
  simp

namespace Concurrent

theorem mem_held_iff (e : Nat) (r : Record) : ∀ l : List WorkerPc,
    (e, r) ∈ held l ↔ WorkerPc.holding e r ∈ l
  | [] => by simp [held]
  | .ranging :: t => by simp [held, mem_held_iff e r t]
  | .done :: t => by simp [held, mem_held_iff e r t]
  | .holding e1 r1 :: t => by
    simp only [held, List.mem_cons, mem_held_iff e r t, Prod.mk.injEq, WorkerPc.holding.injEq]

theorem held_append_ranging : ∀ l : List WorkerPc, held (l ++ [.ranging]) = held l
  | [] => rfl
  | .ranging :: t => by simp [held, held_append_ranging t]
  | .done :: t => by simp [held, held_append_ranging t]
  | .holding e1 r1 :: t => by simp [held, held_append_ranging t]

theorem single_of_length_le_one (l : List WorkerPc) (k : Nat) (w : WorkerPc)
    (hl : l.length ≤ 1) (hk : l[k]? = some w) : l = [w] ∧ k = 0 := by
  cases l with
  | nil => simp at hk
  | cons a t =>
    cases t with
    | nil =>
      cases k with
      | zero =>
        simp at hk
        exact ⟨by rw [hk], rfl⟩
      | succ k => simp at hk
    | cons b s => simp at hl

theorem svm_inv_init (cfg : Cfg) (W E : Nat) : Inv cfg W E (init cfg) := by
  constructor <;> simp [init, newModel, held, pending]

end Concurrent
end SVM

namespace SVM
namespace Concurrent

theorem svm_inv_stepMain (cfg : Cfg) (W E : Nat) (hW : cfg.workers.toNat = W)
    (hE : cfg.epochs.toNat = E) (st st1 : State) (hinv : Inv cfg W E st)
    (h : stepMain cfg st = some st1) :
    Inv cfg W E st1 ∧ potential W cfg.records.length E st1 + 1
      ≤ potential W cfg.records.length E st := by
  unfold stepMain at h
  cases hm : st.main with
  | returned => rw [hm] at h; cases h
  | spawn w =>
    rw [hm] at h
    simp only [] at h
    obtain ⟨hlen, hwW, hq, hlog, hheld⟩ := hinv.in_spawn w hm
    have hncl : st.closed = false := by
      cases hc : st.closed with
      | false => rfl
      | true =>
        have := hinv.closed_iff.mp hc
        simp [hm] at this
    by_cases hw : (w : Int) < cfg.workers
    · rw [if_pos hw] at h
      simp at h
      subst h
      have hwlt : w < W := by omega
      refine ⟨?_, ?_⟩
      · constructor
        · exact hinv.weights_len
        · exact hinv.not_crashed
        · simp [hinv.wg_eq, WorkerPc.live]
        · intro w1 hw1
          simp at hw1
          subst hw1
          simp [hlen, hq, hlog, held_append_ranging, hheld]
          omega
        · intro hns
          exact absurd rfl (hns (w + 1))
        · simp
        · simpa [hm] using hinv.closed_iff
        · intro hd
          simp at hd
          have := (hinv.done_drained hd).1
          rw [hncl] at this
          cases this
        · exact hinv.model_eq
        · intro hW1
          have := hinv.in_order hW1
          simp only [hm, pending] at this
          simp only [pending, held_append_ranging]
          exact this
        · refine ⟨hinv.tags_lt.1, ?_, hinv.tags_lt.2.2⟩
          intro e r he
          simp at he
          exact hinv.tags_lt.2.1 e r he
        · exact hinv.no_worker
        · exact hinv.queue_le
      · simp only [potential, hm, List.map_append, List.sum_append, List.map_cons, List.map_nil,
          List.sum_cons, List.sum_nil, WorkerPc.pot]
        omega
    · rw [if_neg hw] at h
      simp at h
      subst h
      have hwW1 : w = W := by omega
      refine ⟨?_, ?_⟩
      · constructor
        · exact hinv.weights_len
        · exact hinv.not_crashed
        · exact hinv.wg_eq
        · simp
        · intro _
          simp only []
          omega
        · intro e i hei
          simp at hei
          simp [← hei.1, ← hei.2]
        · simpa [hm] using hinv.closed_iff
        · exact hinv.done_drained
        · exact hinv.model_eq
        · intro hW1
          have := hinv.in_order hW1
          simp only [hm, pending] at this
          simp only [pending, List.drop_zero]
          by_cases hE0 : 0 < E
          · rw [if_pos hE0, ← unitsFrom_of_lt _ _ _ hE0]
            exact this
          · rw [if_neg hE0]
            rw [unitsFrom_of_le _ _ _ (by omega)] at this ⊢
            simpa using this
        · exact hinv.tags_lt
        · exact hinv.no_worker
        · exact hinv.queue_le
      · simp only [potential, hm, hq, List.length_nil]
        by_cases hE0 : 0 < E
        · simp only [if_pos hE0]
          have : E - 0 - 1 = E - 1 := by omega
          rw [this]
          omega
        · simp only [if_neg hE0]
          omega
  | send e i =>
    rw [hm] at h
    simp only [] at h
    obtain ⟨heE, hin⟩ := hinv.in_send e i hm
    have hasp := hinv.after_spawn (by simp [hm])
    have hncl : ¬ st.closed = true := by
      intro hc
      have := hinv.closed_iff.mp hc
      simp [hm] at this
    by_cases he : (e : Int) < cfg.epochs
    · rw [if_pos he] at h
      have helt : e < E := by omega
      cases hr : cfg.records[i]? with
      | some record =>
        rw [hr] at h
        simp only [] at h
        obtain ⟨hi, hget⟩ := List.getElem?_eq_some.mp hr
        by_cases hl : st.recordChan.length < cfg.records.length
        · rw [if_pos hl] at h
          simp at h
          subst h
          have hdrop : cfg.records.drop i = record :: cfg.records.drop (i + 1) := by
            rw [← hget]
            exact List.drop_eq_getElem_cons hi
          refine ⟨?_, ?_⟩
          · constructor
            · exact hinv.weights_len
            · exact hinv.not_crashed
            · exact hinv.wg_eq
            · simp
            · intro _
              exact hasp
            · intro e1 i1 hei
              simp at hei
              rw [← hei.1, ← hei.2]
              exact ⟨heE, by omega⟩
            · simpa [hm] using hinv.closed_iff
            · intro hd
              exact absurd (hinv.done_drained hd).1 hncl
            · exact hinv.model_eq
            · intro hW1
              have := hinv.in_order hW1
              simp only [hm, pending, if_pos helt, hdrop, List.map_cons] at this
              simp only [pending, if_pos helt]
              rw [← this]
              simp
            · refine ⟨hinv.tags_lt.1, hinv.tags_lt.2.1, ?_⟩
              intro x hx
              simp at hx
              rcases hx with hx | hx
              · exact hinv.tags_lt.2.2 x hx
              · rw [hx]
                exact helt
            · exact hinv.no_worker
            · simp only [List.length_append, List.length_singleton]
              omega
          · simp only [potential, hm, if_pos helt, List.length_append, List.length_singleton]
            omega
        · rw [if_neg hl] at h
          cases h
      | none =>
        rw [hr] at h
        simp at h
        subst h
        have hge : cfg.records.length ≤ i := by
          rcases Nat.lt_or_ge i cfg.records.length with hlt | hge
          · rw [List.getElem?_eq_getElem hlt] at hr
            cases hr
          · exact hge
        refine ⟨?_, ?_⟩
        · constructor
          · exact hinv.weights_len
          · exact hinv.not_crashed
          · exact hinv.wg_eq
          · simp
          · intro _
            exact hasp
          · intro e1 i1 hei
            simp at hei
            rw [← hei.1, ← hei.2]
            exact ⟨by omega, by omega⟩
          · simpa [hm] using hinv.closed_iff
          · exact hinv.done_drained
          · exact hinv.model_eq
          · intro hW1
            have := hinv.in_order hW1
            simp only [hm, pending, if_pos helt, List.drop_of_length_le hge, List.map_nil,
              List.nil_append] at this
            simp only [pending, List.drop_zero]
            by_cases hE1 : e + 1 < E
            · rw [if_pos hE1, ← unitsFrom_of_lt _ _ _ hE1]
              exact this
            · rw [if_neg hE1]
              rw [unitsFrom_of_le _ _ _ (by omega)] at this
              exact this
          · exact hinv.tags_lt
          · exact hinv.no_worker
          · exact hinv.queue_le
        · simp only [potential, hm, if_pos helt]
          have hi0 : cfg.records.length - i = 0 := by omega
          by_cases hE1 : e + 1 < E
          · simp only [if_pos hE1]
            have hmul : (E - e - 1) * (3 * cfg.records.length + 1)
                = (E - (e + 1) - 1) * (3 * cfg.records.length + 1)
                  + (3 * cfg.records.length + 1) := by
              have : E - e - 1 = (E - (e + 1) - 1) + 1 := by omega
              rw [this, Nat.add_mul]
              simp
            rw [hmul]
            omega
          · simp only [if_neg hE1]
            omega
    · rw [if_neg he] at h
      simp at h
      subst h
      have hEe : ¬ e < E := by omega
      refine ⟨?_, ?_⟩
      · constructor
        · exact hinv.weights_len
        · exact hinv.not_crashed
        · exact hinv.wg_eq
        · simp
        · intro _
          exact hasp
        · simp
        · simpa [hm] using hinv.closed_iff
        · exact hinv.done_drained
        · exact hinv.model_eq
        · intro hW1
          have := hinv.in_order hW1
          simp only [hm, pending, if_neg hEe] at this
          simp only [pending]
          exact this
        · exact hinv.tags_lt
        · exact hinv.no_worker
        · exact hinv.queue_le
      · simp only [potential, hm, if_neg hEe]
        omega
  | close =>
    rw [hm] at h
    simp at h
    subst h
    have hasp := hinv.after_spawn (by simp [hm])
    have hncl : ¬ st.closed = true := by
      intro hc
      have := hinv.closed_iff.mp hc
      simp [hm] at this
    refine ⟨?_, ?_⟩
    · constructor
      · exact hinv.weights_len
      · exact hinv.not_crashed
      · exact hinv.wg_eq
      · simp
      · intro _
        exact hasp
      · simp
      · simp
      · intro hd
        exact absurd (hinv.done_drained hd).1 hncl
      · exact hinv.model_eq
      · intro hW1
        have := hinv.in_order hW1
        simp only [hm, pending] at this
        simp only [pending]
        exact this
      · exact hinv.tags_lt
      · exact hinv.no_worker
      · exact hinv.queue_le
    · simp only [potential, hm]
      omega
  | wait =>
    rw [hm] at h
    simp only [] at h
    have hasp := hinv.after_spawn (by simp [hm])
    have hcl : st.closed = true := hinv.closed_iff.mpr (Or.inl hm)
    by_cases hw : st.wg = 0
    · rw [if_pos hw] at h
      simp at h
      subst h
      refine ⟨?_, ?_⟩
      · constructor
        · exact hinv.weights_len
        · exact hinv.not_crashed
        · exact hinv.wg_eq
        · simp
        · intro _
          exact hasp
        · simp
        · simp [hcl]
        · exact hinv.done_drained
        · exact hinv.model_eq
        · intro hW1
          have := hinv.in_order hW1
          simp only [hm, pending] at this
          simp only [pending]
          exact this
        · exact hinv.tags_lt
        · exact hinv.no_worker
        · exact hinv.queue_le
      · simp only [potential, hm]
        omega
    · rw [if_neg hw] at h
      cases h

end Concurrent
end SVM

namespace SVM
namespace Concurrent

theorem svm_workers_length_le (cfg : Cfg) (W E : Nat) (st : State) (hinv : Inv cfg W E st) :
    st.workers.length ≤ W := by
  by_cases hs : ∃ w, st.main = .spawn w
  · obtain ⟨w, hw⟩ := hs
    have := hinv.in_spawn w hw
    omega
  · push_neg at hs
    have := hinv.after_spawn hs
    omega

theorem svm_inv_stepWorker (cfg : Cfg) (W E : Nat) (st st1 : State) (k : Nat)
    (hinv : Inv cfg W E st) (h : stepWorker cfg st k = some st1) :
    Inv cfg W E st1 ∧ potential W cfg.records.length E st1 + 1
      ≤ potential W cfg.records.length E st := by
  unfold stepWorker at h
  have hlenW := svm_workers_length_le cfg W E st hinv
  cases hk : st.workers[k]? with
  | none => rw [hk] at h; cases h
  | some w =>
    rw [hk] at h
    have hmem : w ∈ st.workers := List.getElem?_mem hk
    have hlive := fun b => map_sum_set WorkerPc.live st.workers k w b hk
    have hpot := fun b => map_sum_set WorkerPc.pot st.workers k w b hk
    cases w with
    | ranging =>
      simp only [] at h
      cases hq : st.recordChan with
      | cons x rest =>
        obtain ⟨e, record⟩ := x
        rw [hq] at h
        simp at h
        subst h
        have h1 := hlive (.holding e record)
        have h2 := hpot (.holding e record)
        simp only [WorkerPc.live, WorkerPc.pot] at h1 h2
        have hne : ¬ st.recordChan = [] := by simp [hq]
        have hns : ∀ w1, st.main ≠ .spawn w1 := by
          intro w1 hw1
          exact hne (hinv.in_spawn w1 hw1).2.2.1
        have hetag : e < E := hinv.tags_lt.2.2 (e, record) (by rw [hq]; simp)
        refine ⟨?_, ?_⟩
        · constructor
          · exact hinv.weights_len
          · exact hinv.not_crashed
          · have := hinv.wg_eq
            simp only []
            omega
          · intro w1 hw1
            exact absurd hw1 (hns w1)
          · intro _
            simp only [List.length_set]
            exact hinv.after_spawn hns
          · exact hinv.in_send
          · exact hinv.closed_iff
          · intro hd
            rcases mem_set_cases _ _ _ _ hd with hd | hd
            · cases hd
            · exact absurd (hinv.done_drained hd).2 hne
          · exact hinv.model_eq
          · intro hW1
            have := hinv.in_order hW1
            obtain ⟨hl, hk0⟩ := single_of_length_le_one st.workers k _ (by omega) hk
            subst hk0
            rw [hl, hq] at this
            simp only [hl, List.set_cons_zero, held]
            simp only [held] at this
            rw [← this]
            simp
          · refine ⟨hinv.tags_lt.1, ?_, ?_⟩
            · intro e1 r1 he1
              rcases mem_set_cases _ _ _ _ he1 with he1 | he1
              · cases he1
                exact hetag
              · exact hinv.tags_lt.2.1 e1 r1 he1
            · intro y hy
              exact hinv.tags_lt.2.2 y (by rw [hq]; exact List.mem_cons_of_mem _ hy)
          · exact hinv.no_worker
          · have := hinv.queue_le
            rw [hq] at this
            simp only [List.length_cons] at this
            simp only []
            omega
        · simp only [potential, hq, List.length_cons]
          omega
      | nil =>
        rw [hq] at h
        simp only [] at h
        by_cases hc : st.closed = true
        · rw [if_pos hc] at h
          simp at h
          subst h
          have h1 := hlive .done
          have h2 := hpot .done
          simp only [WorkerPc.live, WorkerPc.pot] at h1 h2
          have hns : ∀ w1, st.main ≠ .spawn w1 := by
            intro w1 hw1
            have := hinv.closed_iff.mp hc
            simp [hw1] at this
          refine ⟨?_, ?_⟩
          · constructor
            · exact hinv.weights_len
            · exact hinv.not_crashed
            · have := hinv.wg_eq
              simp only []
              omega
            · intro w1 hw1
              exact absurd hw1 (hns w1)
            · intro _
              simp only [List.length_set]
              exact hinv.after_spawn hns
            · exact hinv.in_send
            · exact hinv.closed_iff
            · intro _
              exact ⟨hc, rfl⟩
            · exact hinv.model_eq
            · intro hW1
              have := hinv.in_order hW1
              obtain ⟨hl, hk0⟩ := single_of_length_le_one st.workers k _ (by omega) hk
              subst hk0
              rw [hl, hq] at this
              simp only [hl, List.set_cons_zero, held]
              simp only [held] at this
              exact this
            · refine ⟨hinv.tags_lt.1, ?_, by simp⟩
              intro e1 r1 he1
              rcases mem_set_cases _ _ _ _ he1 with he1 | he1
              · cases he1
              · exact hinv.tags_lt.2.1 e1 r1 he1
            · exact hinv.no_worker
            · simp
          · simp only [potential, hq]
            omega
        · rw [if_neg hc] at h
          cases h
    | holding e record =>
      simp only [] at h
      obtain ⟨m, hm, hml⟩ := recordStep_some cfg.lr cfg.lambda st.svm record hinv.weights_len
      rw [hm] at h
      simp at h
      subst h
      have h1 := hlive .ranging
      have h2 := hpot .ranging
      simp only [WorkerPc.live, WorkerPc.pot] at h1 h2
      have hheld : (e, record) ∈ held st.workers := (mem_held_iff e record st.workers).mpr hmem
      have hns : ∀ w1, st.main ≠ .spawn w1 := by
        intro w1 hw1
        have := (hinv.in_spawn w1 hw1).2.2.2.2
        rw [this] at hheld
        simp at hheld
      have hetag : e < E := hinv.tags_lt.2.1 e record hmem
      refine ⟨?_, ?_⟩
      · constructor
        · exact hml
        · exact hinv.not_crashed
        · have := hinv.wg_eq
          simp only []
          omega
        · intro w1 hw1
          exact absurd hw1 (hns w1)
        · intro _
          simp only [List.length_set]
          exact hinv.after_spawn hns
        · exact hinv.in_send
        · exact hinv.closed_iff
        · intro hd
          rcases mem_set_cases _ _ _ _ hd with hd | hd
          · cases hd
          · exact hinv.done_drained hd
        · simp only [List.foldlM_append, hinv.model_eq, List.foldlM_cons, List.foldlM_nil,
            Option.bind_eq_bind, Option.some_bind, hm]
          rfl
        · intro hW1
          have := hinv.in_order hW1
          obtain ⟨hl, hk0⟩ := single_of_length_le_one st.workers k _ (by omega) hk
          subst hk0
          rw [hl] at this
          simp only [hl, List.set_cons_zero, held]
          simp only [held] at this
          rw [← this]
          simp
        · refine ⟨?_, ?_, hinv.tags_lt.2.2⟩
          · intro y hy
            simp at hy
            rcases hy with hy | hy
            · exact hinv.tags_lt.1 y hy
            · rw [hy]
              exact hetag
          · intro e1 r1 he1
            rcases mem_set_cases _ _ _ _ he1 with he1 | he1
            · cases he1
            · exact hinv.tags_lt.2.1 e1 r1 he1
        · intro hW0
          have hlt : k < st.workers.length := (List.getElem?_eq_some.mp hk).1
          omega
        · exact hinv.queue_le
      · simp only [potential]
        omega
    | done =>
      simp at h

theorem svm_inv_step (cfg : Cfg) (W E : Nat) (hW : cfg.workers.toNat = W)
    (hE : cfg.epochs.toNat = E) (st st1 : State) (a : Action) (hinv : Inv cfg W E st)
    (h : step cfg st a = some st1) :
    Inv cfg W E st1 ∧ potential W cfg.records.length E st1 + 1
      ≤ potential W cfg.records.length E st := by
  unfold step at h
  by_cases hc : st.crashed = true
  · rw [if_pos hc] at h
    cases h
  · rw [if_neg hc] at h
    cases a with
    | main => exact svm_inv_stepMain cfg W E hW hE st st1 hinv h
    | worker k => exact svm_inv_stepWorker cfg W E st st1 k hinv h

theorem svm_inv_run (cfg : Cfg) (W E : Nat) (hW : cfg.workers.toNat = W)
    (hE : cfg.epochs.toNat = E) :
    ∀ (sched : List Action) (st st1 : State), Inv cfg W E st → run cfg st sched = some st1 →
      Inv cfg W E st1 ∧ potential W cfg.records.length E st1 + sched.length
        ≤ potential W cfg.records.length E st
  | [], st, st1, hinv, h => by
    simp [run] at h
    subst h
    exact ⟨hinv, by simp⟩
  | a :: rest, st, st1, hinv, h => by
    simp only [run] at h
    cases hs : step cfg st a with
    | none => rw [hs] at h; cases h
    | some st2 =>
      rw [hs] at h
      have h1 := svm_inv_step cfg W E hW hE st st2 a hinv hs
      have h2 := svm_inv_run cfg W E hW hE rest st2 st1 h1.1 h
      refine ⟨h2.1, ?_⟩
      simp only [List.length_cons]
      omega

/-- No deadlock when there is a worker or no epoch: unless the call has
returned, some thread can take a step. -/
theorem svm_progress (cfg : Cfg) (W E : Nat) (_ : cfg.workers.toNat = W)
    (hE : cfg.epochs.toNat = E) (hWE : 1 ≤ W ∨ E = 0) (st : State) (hinv : Inv cfg W E st)
    (hret : st.main ≠ .returned) : ∃ a st1, step cfg st a = some st1 := by
  have hnc : ¬ st.crashed = true := by simp [hinv.not_crashed]
  unfold step
  simp only [if_neg hnc]
  have hworker : ∀ (k : Nat) (w : WorkerPc), st.workers[k]? = some w → w ≠ .done →
      (st.recordChan ≠ [] ∨ st.closed = true) → ∃ st1, stepWorker cfg st k = some st1 := by
    intro k w hk hnd hq
    unfold stepWorker
    rw [hk]
    cases w with
    | ranging =>
      simp only []
      cases hqq : st.recordChan with
      | cons x rest => exact ⟨_, rfl⟩
      | nil =>
        rcases hq with hq | hq
        · exact absurd hqq hq
        · simp only [hq, if_true]
          exact ⟨_, rfl⟩
    | holding e record =>
      simp only []
      obtain ⟨m, hm, _⟩ := recordStep_some cfg.lr cfg.lambda st.svm record hinv.weights_len
      rw [hm]
      exact ⟨_, rfl⟩
    | done => exact absurd rfl hnd
  cases hm : st.main with
  | returned => exact absurd hm hret
  | spawn w =>
    refine ⟨.main, ?_⟩
    simp only [stepMain, hm]
    by_cases hw : (w : Int) < cfg.workers
    · rw [if_pos hw]
      exact ⟨_, rfl⟩
    · rw [if_neg hw]
      exact ⟨_, rfl⟩
  | send e i =>
    by_cases he : (e : Int) < cfg.epochs
    · cases hr : cfg.records[i]? with
      | none =>
        refine ⟨.main, ?_⟩
        simp only [stepMain, hm, if_pos he, hr]
        exact ⟨_, rfl⟩
      | some record =>
        by_cases hl : st.recordChan.length < cfg.records.length
        · refine ⟨.main, ?_⟩
          simp only [stepMain, hm, if_pos he, hr, if_pos hl]
          exact ⟨_, rfl⟩
        · obtain ⟨hi, _⟩ := List.getElem?_eq_some.mp hr
          have hW1 : 1 ≤ W := by
            rcases hWE with h | h
            · exact h
            · omega
          have hlen := hinv.after_spawn (by simp [hm])
          have hqne : st.recordChan ≠ [] := by
            intro hq
            have hq0 : st.recordChan.length = 0 := by rw [hq]; rfl
            omega
          have h0 : 0 < st.workers.length := by omega
          have hk : st.workers[0]? = some (st.workers[0]) := List.getElem?_eq_getElem h0
          have hnd : st.workers[0] ≠ .done := by
            intro hd
            have hmem : WorkerPc.done ∈ st.workers := by
              rw [← hd]
              exact List.getElem_mem _
            exact hqne (hinv.done_drained hmem).2
          obtain ⟨st1, hs⟩ := hworker 0 _ hk hnd (Or.inl hqne)
          exact ⟨.worker 0, st1, hs⟩
    · refine ⟨.main, ?_⟩
      simp only [stepMain, hm, if_neg he]
      exact ⟨_, rfl⟩
  | close =>
    refine ⟨.main, ?_⟩
    simp only [stepMain, hm]
    exact ⟨_, rfl⟩
  | wait =>
    have hcl : st.closed = true := hinv.closed_iff.mpr (Or.inl hm)
    by_cases hw : st.wg = 0
    · refine ⟨.main, ?_⟩
      simp only [stepMain, hm, if_pos hw]
      exact ⟨_, rfl⟩
    · have hwg := hinv.wg_eq
      obtain ⟨j, u, hj, hu⟩ := exists_pos_of_map_sum_pos WorkerPc.live st.workers (by omega)
      have hnd : u ≠ .done := by
        intro hd
        rw [hd] at hu
        simp [WorkerPc.live] at hu
      obtain ⟨st1, hs⟩ := hworker j u hj hnd (Or.inr hcl)
      exact ⟨.worker j, st1, hs⟩

/-- From a state that satisfies the invariant the call can run to its return,
when there is a worker or no epoch. -/
theorem svm_can_return (cfg : Cfg) (W E : Nat) (hW : cfg.workers.toNat = W)
    (hE : cfg.epochs.toNat = E) (hWE : 1 ≤ W ∨ E = 0) :
    ∀ (n : Nat) (st : State), Inv cfg W E st → potential W cfg.records.length E st ≤ n →
      ∃ sched st1, run cfg st sched = some st1 ∧ st1.main = .returned := by
  intro n
  induction n with
  | zero =>
    intro st hinv hp
    refine ⟨[], st, rfl, ?_⟩
    cases hm : st.main with
    | returned => rfl
    | spawn w =>
      simp only [potential, hm] at hp
      omega
    | send e i =>
      simp only [potential, hm] at hp
      by_cases he : e < E
      · rw [if_pos he] at hp
        omega
      · rw [if_neg he] at hp
        omega
    | close =>
      simp only [potential, hm] at hp
      omega
    | wait =>
      simp only [potential, hm] at hp
      omega
  | succ n ih =>
    intro st hinv hp
    by_cases hret : st.main = .returned
    · exact ⟨[], st, rfl, hret⟩
    · obtain ⟨a, st1, hs⟩ := svm_progress cfg W E hW hE hWE st hinv hret
      have h1 := svm_inv_step cfg W E hW hE st st1 a hinv hs
      obtain ⟨sched, st2, hr, hm⟩ := ih st1 h1.1 (by omega)
      refine ⟨a :: sched, st2, ?_, hm⟩
      simp only [run, hs]
      exact hr

end Concurrent
end SVM

namespace SVM

theorem mem_unitsFrom (records : List Record) (E e : Nat) (x : Nat × Record)
    (h : x ∈ unitsFrom records E e) : e ≤ x.1 ∧ x.1 < E := by
  simp only [unitsFrom, List.mem_flatten, List.mem_map, List.mem_range'_1] at h
  obtain ⟨l, ⟨e1, he1, rfl⟩, hx⟩ := h
  simp only [List.mem_map] at hx
  obtain ⟨r, _, rfl⟩ := hx
  simp only []
  omega

/-- The sequential order visits the epochs in increasing order. -/
theorem unitsFrom_sorted (records : List Record) (E : Nat) :
    ∀ (d e : Nat), E - e = d → (unitsFrom records E e).Pairwise (fun a b => a.1 ≤ b.1)
  | 0, e, h => by
    rw [unitsFrom_of_le records E e (by omega)]
    exact List.Pairwise.nil
  | d + 1, e, h => by
    rw [unitsFrom_of_lt records E e (by omega), List.pairwise_append]
    refine ⟨?_, unitsFrom_sorted records E d (e + 1) (by omega), ?_⟩
    · rw [List.pairwise_map]
      exact List.pairwise_of_forall (fun _ _ => le_refl _)
    · intro a ha b hb
      simp only [List.mem_map] at ha
      obtain ⟨r, _, rfl⟩ := ha
      have := (mem_unitsFrom records E (e + 1) b hb).1
      simp only []
      omega

/-- The units of epoch `e1` in the sequential order are the records, in list order. -/
theorem unitsFrom_filter (records : List Record) (E e1 : Nat) (h1 : e1 < E) :
    ∀ (d e : Nat), E - e = d → e ≤ e1 →
      (unitsFrom records E e).filter (fun x => x.1 = e1) = records.map (fun r => (e1, r))
  | 0, e, h, he => by omega
  | d + 1, e, h, he => by
    rw [unitsFrom_of_lt records E e (by omega), List.filter_append]
    by_cases hee : e = e1
    · subst hee
      have hrest : (unitsFrom records E (e + 1)).filter (fun x => x.1 = e) = [] := by
        rw [List.filter_eq_nil_iff]
        intro x hx
        have := (mem_unitsFrom records E (e + 1) x hx).1
        simp only [decide_eq_true_eq]
        omega
      rw [hrest, List.append_nil, List.filter_eq_self]
      intro x hx
      simp only [List.mem_map] at hx
      obtain ⟨r, _, rfl⟩ := hx
      simp
    · have hblock : (records.map (fun r => (e, r))).filter (fun x => x.1 = e1) = [] := by
        rw [List.filter_eq_nil_iff]
        intro x hx
        simp only [List.mem_map] at hx
        obtain ⟨r, _, rfl⟩ := hx
        simp only [decide_eq_true_eq]
        exact hee
      rw [hblock, List.nil_append]
      exact unitsFrom_filter records E e1 h1 d (e + 1) (by omega) (by omega)

/-- When the unit `x` comes right after the prefix `l1` of the sequential order,
`l1` contains every unit of every epoch before that of `x`. -/
theorem prefix_has_earlier_epochs (records : List Record) (E : Nat)
    (l1 l2 : List (Nat × Record)) (x : Nat × Record)
    (h : l1 ++ x :: l2 = unitsFrom records E 0) (e1 : Nat) (he : e1 < x.1) :
    l1.filter (fun y => y.1 = e1) = records.map (fun r => (e1, r)) := by
  have hsorted := unitsFrom_sorted records E E 0 rfl
  rw [← h, List.pairwise_append] at hsorted
  have hxU : x ∈ unitsFrom records E 0 := by
    rw [← h]
    simp
  have hxE := (mem_unitsFrom records E 0 x hxU).2
  have hfil := unitsFrom_filter records E e1 (by omega) E 0 rfl (Nat.zero_le _)
  rw [← h, List.filter_append] at hfil
  have htail : (x :: l2).filter (fun y => y.1 = e1) = [] := by
    rw [List.filter_eq_nil_iff]
    intro y hy
    simp only [decide_eq_true_eq]
    rcases List.mem_cons.mp hy with hy | hy
    · rw [hy]
      omega
    · have := List.rel_of_pairwise_cons hsorted.2.1 hy
      omega
  rw [htail, List.append_nil] at hfil
  exact hfil

theorem unitsFrom_length_ge (records : List Record) (E : Nat) (hE : 2 ≤ E) :
    2 * records.length ≤ (unitsFrom records E 0).length := by
  rw [unitsFrom_of_lt records E 0 (by omega), unitsFrom_of_lt records E 1 (by omega)]
  simp only [List.length_append, List.length_map]
  omega

namespace Concurrent

theorem svm_run_append (cfg : Cfg) : ∀ (s1 s2 : List Action) (st st1 : State),
    run cfg st s1 = some st1 → run cfg st (s1 ++ s2) = run cfg st1 s2
  | [], s2, st, st1, h1 => by
    simp [run] at h1
    subst h1
    rfl
  | a :: rest, s2, st, st1, h1 => by
    simp only [run, List.cons_append] at h1 ⊢
    cases hs : step cfg st a with
    | none => rw [hs] at h1; cases h1
    | some st3 =>
      rw [hs] at h1
      simp only []
      exact svm_run_append cfg rest s2 st3 st1 h1

/-- Every reachable state satisfies the invariant, and runs are bounded. -/
theorem svm_reachable (cfg : Cfg) (sched : List Action) (st : State)
    (hrun : run cfg (init cfg) sched = some st) :
    Inv cfg cfg.workers.toNat cfg.epochs.toNat st ∧
      potential cfg.workers.toNat cfg.records.length cfg.epochs.toNat st + sched.length
        ≤ potential cfg.workers.toNat cfg.records.length cfg.epochs.toNat (init cfg) :=
  svm_inv_run cfg _ _ rfl rfl sched _ st (svm_inv_init cfg _ _) hrun

/-- A worker with a record in hand can apply it when the model has six weights:
the update never panics. -/
theorem svm_apply_step (cfg : Cfg) (st : State) (k e : Nat) (record : Record)
    (hc : st.crashed = false) (hw : st.svm.Weights.length = 6)
    (hk : st.workers[k]? = some (.holding e record)) :
    ∃ m, m.Weights.length = 6 ∧ step cfg st (.worker k) = some
      { st with svm := m, log := st.log ++ [(e, record)],
                workers := st.workers.set k .ranging } := by
  obtain ⟨m, hm, hml⟩ := recordStep_some cfg.lr cfg.lambda st.svm record hw
  refine ⟨m, hml, ?_⟩
  simp only [step, hc, stepWorker, hk, hm]
  rfl

/-- With no epoch or with no worker, no update is ever applied. -/
theorem svm_log_nil (cfg : Cfg) (sched : List Action) (st : State)
    (h : cfg.epochs ≤ 0 ∨ cfg.workers ≤ 0) (hrun : run cfg (init cfg) sched = some st) :
    st.log = [] := by
  have hinv := (svm_reachable cfg sched st hrun).1
  rcases h with h | h
  · have hE : cfg.epochs.toNat = 0 := by omega
    rw [List.eq_nil_iff_forall_not_mem]
    intro x hx
    have := hinv.tags_lt.1 x hx
    omega
  · exact hinv.no_worker (by omega)

end Concurrent
end SVM

namespace ANN
namespace Concurrent

/-- With no worker or no epoch, `Train` starts no worker and leaves the network
as it was at the call, in every reachable state. -/
theorem ann_idle_run (cfg : Cfg) (h0 : 0 ≤ cfg.workers)
    (h : cfg.workers = 0 ∨ cfg.epochs ≤ 0) (sched : List Action) (st : State)
    (hrun : run cfg (init cfg) sched = some st) :
    st.workers = [] ∧ st.nn = cfg.nn0 ∧ st.main ≠ .panicked := by
  have key : st.workers = [] ∧ st.nn = cfg.nn0 ∧ st.global = Gradients.zero ∧
      st.main ≠ .panicked ∧
      (cfg.workers ≠ 0 → (st.main = .epochCheck ∧ st.epoch = 0) ∨ st.main = .returned) := by
    refine ann_run_induction cfg
      (fun st => st.workers = [] ∧ st.nn = cfg.nn0 ∧ st.global = Gradients.zero ∧
        st.main ≠ .panicked ∧
        (cfg.workers ≠ 0 → (st.main = .epochCheck ∧ st.epoch = 0) ∨ st.main = .returned))
      ?_ sched (init cfg) st ?_ hrun
    · intro s a s1 ⟨hw, hnn, hg, hnp, hm⟩ hs
      unfold step at hs
      by_cases hc : s.crashed = true
      · rw [if_pos hc] at hs
        cases hs
      · rw [if_neg hc] at hs
        cases a with
        | worker k =>
          simp [stepWorker, hw] at hs
        | main =>
          simp only [] at hs
          unfold stepMain at hs
          cases hmain : s.main with
          | panicked => exact absurd hmain hnp
          | returned => rw [hmain] at hs; cases hs
          | epochCheck =>
            rw [hmain] at hs
            simp only [] at hs
            by_cases he : (s.epoch : Int) < cfg.epochs
            · rw [if_pos he] at hs
              simp at hs
              subst hs
              refine ⟨hw, hnn, rfl, by simp, ?_⟩
              intro hne
              rcases hm hne with ⟨_, h2⟩ | h2
              · rcases h with h | h
                · exact absurd h hne
                · omega
              · rw [hmain] at h2
                cases h2
            · rw [if_neg he] at hs
              simp at hs
              subst hs
              exact ⟨hw, hnn, hg, by simp, fun _ => Or.inr rfl⟩
          | spawn w =>
            rw [hmain] at hs
            simp only [] at hs
            have hw0 : cfg.workers = 0 := by
              by_contra hne
              rcases hm hne with ⟨h1, _⟩ | h2
              · rw [hmain] at h1
                cases h1
              · rw [hmain] at h2
                cases h2
            have hlt : ¬ (w : Int) < cfg.workers := by omega
            rw [if_neg hlt] at hs
            simp at hs
            subst hs
            exact ⟨hw, hnn, hg, by simp, fun hne => absurd hw0 hne⟩
          | send i =>
            rw [hmain] at hs
            simp only [] at hs
            have hw0 : cfg.workers = 0 := by
              by_contra hne
              rcases hm hne with ⟨h1, _⟩ | h2
              · rw [hmain] at h1
                cases h1
              · rw [hmain] at h2
                cases h2
            cases hr : cfg.records[i]? with
            | none =>
              rw [hr] at hs
              simp at hs
              subst hs
              exact ⟨hw, hnn, hg, by simp, fun hne => absurd hw0 hne⟩
            | some record =>
              rw [hr] at hs
              simp only [] at hs
              by_cases hl : s.recordChan.length < cfg.records.length
              · rw [if_pos hl] at hs
                simp at hs
                subst hs
                exact ⟨hw, hnn, hg, by simp, fun hne => absurd hw0 hne⟩
              · rw [if_neg hl] at hs
                cases hs
          | close =>
            rw [hmain] at hs
            simp at hs
            subst hs
            refine ⟨hw, hnn, hg, by simp, ?_⟩
            intro hne
            rcases hm hne with ⟨h1, _⟩ | h2
            · rw [hmain] at h1
              cases h1
            · rw [hmain] at h2
              cases h2
          | wait =>
            rw [hmain] at hs
            simp only [] at hs
            by_cases hwg : s.wg = 0
            · rw [if_pos hwg] at hs
              simp at hs
              subst hs
              refine ⟨hw, hnn, hg, by simp, ?_⟩
              intro hne
              rcases hm hne with ⟨h1, _⟩ | h2
              · rw [hmain] at h1
                cases h1
              · rw [hmain] at h2
                cases h2
            · rw [if_neg hwg] at hs
              cases hs
          | apply =>
            rw [hmain] at hs
            simp at hs
            subst hs
            refine ⟨hw, ?_, hg, by simp, ?_⟩
            · simp only []
              rw [hnn, hg]
              exact applyGradients_zero cfg.nn0 Gradients.zero (fun c _ => entry_zero c)
            · intro hne
              rcases hm hne with ⟨h1, _⟩ | h2
              · rw [hmain] at h1
                cases h1
              · rw [hmain] at h2
                cases h2
          | reset =>
            rw [hmain] at hs
            simp at hs
            subst hs
            refine ⟨hw, hnn, hg, by simp, ?_⟩
            intro hne
            rcases hm hne with ⟨h1, _⟩ | h2
            · rw [hmain] at h1
              cases h1
            · rw [hmain] at h2
              cases h2
    · have hneg : ¬ cfg.workers < 0 := by omega
      refine ⟨rfl, rfl, rfl, by simp [init, hneg], ?_⟩
      intro _
      left
      simp [init, hneg]
  exact ⟨key.1, key.2.1, key.2.2.2.1⟩

end Concurrent
end ANN

namespace SVM
namespace Concurrent

/-- With no worker, two or more epochs and at least one record, `TrainSVM` never
reaches the close of the channel: the second epoch does not fit into it. -/
theorem svm_no_worker_blocks (cfg : Cfg) (hw : cfg.workers ≤ 0) (he : 2 ≤ cfg.epochs)
    (hr : cfg.records ≠ []) (sched : List Action) (st : State)
    (hrun : run cfg (init cfg) sched = some st) :
    st.main ≠ .close ∧ st.main ≠ .wait ∧ st.main ≠ .returned := by
  have hinv := (svm_reachable cfg sched st hrun).1
  have hW : cfg.workers.toNat = 0 := by omega
  have hlen := svm_workers_length_le cfg _ _ st hinv
  have hnil : st.workers = [] := List.length_eq_zero.mp (by omega)
  have hlog : st.log = [] := hinv.no_worker hW
  have hord := hinv.in_order (by omega)
  have hge := unitsFrom_length_ge cfg.records cfg.epochs.toNat (by omega)
  have hq := hinv.queue_le
  have hn : 0 < cfg.records.length := List.length_pos.mpr hr
  rw [hnil, hlog] at hord
  simp only [held, List.nil_append] at hord
  refine ⟨?_, ?_, ?_⟩ <;>
  · intro hm
    rw [hm] at hord
    simp only [pending, List.append_nil] at hord
    rw [← hord] at hge
    omega

end Concurrent
end SVM

/-- C6, as stated, fails: neither trainer checks its configuration. `Train` with
no worker runs its epoch, applies the update and returns normally. `TrainSVM`
with no epoch starts its worker and then returns the zero model. `TrainSVM` with
no worker and two epochs over one record sends the record once and then blocks
for ever: no thread can take a step and the call has not returned. -/
theorem trainers_do_not_check_config :
    (∃ st, ANN.Concurrent.run ANN.Concurrent.noWorkerCfg
        (ANN.Concurrent.init ANN.Concurrent.noWorkerCfg)
        (List.replicate 9 ANN.Concurrent.Action.main) = some st ∧
      st.main = ANN.Concurrent.MainPc.returned ∧ st.applied = 1 ∧ st.crashed = false) ∧
    (∃ st, SVM.Concurrent.run SVM.Concurrent.noEpochCfg
        (SVM.Concurrent.init SVM.Concurrent.noEpochCfg) [SVM.Concurrent.Action.main] = some st ∧
      st.workers = [SVM.Concurrent.WorkerPc.ranging]) ∧
    (∃ st, SVM.Concurrent.run SVM.Concurrent.noEpochCfg
        (SVM.Concurrent.init SVM.Concurrent.noEpochCfg)
        [SVM.Concurrent.Action.main, SVM.Concurrent.Action.main, SVM.Concurrent.Action.main,
         SVM.Concurrent.Action.main, SVM.Concurrent.Action.worker 0,
         SVM.Concurrent.Action.main] = some st ∧
      st.main = SVM.Concurrent.MainPc.returned ∧
      st.svm = SVM.newModel SVM.Concurrent.noEpochCfg.lambda SVM.Concurrent.noEpochCfg.lr) ∧
    (∃ st, SVM.Concurrent.run SVM.Concurrent.noWorkerCfg
        (SVM.Concurrent.init SVM.Concurrent.noWorkerCfg)
        [SVM.Concurrent.Action.main, SVM.Concurrent.Action.main,
         SVM.Concurrent.Action.main] = some st ∧
      st.main = SVM.Concurrent.MainPc.send 1 0 ∧ st.workers = [] ∧ st.crashed = false ∧
      ∀ a, SVM.Concurrent.step SVM.Concurrent.noWorkerCfg st a = none) := by
  refine ⟨⟨_, rfl, rfl, rfl, rfl⟩, ⟨_, rfl, rfl⟩, ⟨_, rfl, rfl, rfl⟩, ⟨_, rfl, rfl, rfl, rfl, ?_⟩⟩
  intro a
  cases a with
  | main => rfl
  | worker k => rfl

/-- C6, amended. Neither trainer checks its configuration; what the code does
with a degenerate one is this. Network `Train`: a negative worker count makes the
allocation of the token channel panic, before any worker is started and before
any parameter is changed; with a worker count of zero, or with `epochs <= 0` and
a worker count that is not negative, no worker is ever started, the network
keeps its value at the call in every reachable state, and the call can run to a
normal return. `TrainSVM`: with
`epochs <= 0` or `workers <= 0` no update is ever applied and the model stays the
zero model; with `workers <= 0` no worker is started; with `epochs <= 0` the call
can run to its return, returns only after all `workers` workers have been
started, and returns the zero model; with `workers <= 0`, `epochs >= 2` and at
least one record the call never returns, and as every run is bounded it ends
blocked on a send. -/
theorem degenerate_config_behaviour :
    (∀ cfg : ANN.Concurrent.Cfg,
      (cfg.workers < 0 →
        ∀ sched st, ANN.Concurrent.run cfg (ANN.Concurrent.init cfg) sched = some st →
          st = ANN.Concurrent.init cfg ∧ st.main = ANN.Concurrent.MainPc.panicked ∧
            st.workers = [] ∧ st.nn = cfg.nn0) ∧
      (0 ≤ cfg.workers → (cfg.workers = 0 ∨ cfg.epochs ≤ 0) →
        (∀ sched st, ANN.Concurrent.run cfg (ANN.Concurrent.init cfg) sched = some st →
          st.workers = [] ∧ st.nn = cfg.nn0 ∧ st.main ≠ ANN.Concurrent.MainPc.panicked) ∧
        ∃ sched st, ANN.Concurrent.run cfg (ANN.Concurrent.init cfg) sched = some st ∧
          st.main = ANN.Concurrent.MainPc.returned)) ∧
    (∀ cfg : SVM.Concurrent.Cfg,
      ((cfg.epochs ≤ 0 ∨ cfg.workers ≤ 0) →
        ∀ sched st, SVM.Concurrent.run cfg (SVM.Concurrent.init cfg) sched = some st →
          st.log = [] ∧ st.svm = SVM.newModel cfg.lambda cfg.lr) ∧
      (cfg.workers ≤ 0 →
        ∀ sched st, SVM.Concurrent.run cfg (SVM.Concurrent.init cfg) sched = some st →
          st.workers = []) ∧
      (cfg.epochs ≤ 0 →
        (∃ sched st, SVM.Concurrent.run cfg (SVM.Concurrent.init cfg) sched = some st ∧
          st.main = SVM.Concurrent.MainPc.returned) ∧
        ∀ sched st, SVM.Concurrent.run cfg (SVM.Concurrent.init cfg) sched = some st →
          st.main = SVM.Concurrent.MainPc.returned →
            st.workers.length = cfg.workers.toNat ∧
              st.svm = SVM.newModel cfg.lambda cfg.lr) ∧
      (cfg.workers ≤ 0 → 2 ≤ cfg.epochs → cfg.records ≠ [] →
        ∀ sched st, SVM.Concurrent.run cfg (SVM.Concurrent.init cfg) sched = some st →
          st.main ≠ SVM.Concurrent.MainPc.returned ∧
            sched.length ≤ SVM.Concurrent.potential 0 cfg.records.length cfg.epochs.toNat
              (SVM.Concurrent.init cfg))) := by
  have hsvm : ∀ (cfg : SVM.Concurrent.Cfg), (cfg.epochs ≤ 0 ∨ cfg.workers ≤ 0) →
      ∀ sched st, SVM.Concurrent.run cfg (SVM.Concurrent.init cfg) sched = some st →
        st.log = [] ∧ st.svm = SVM.newModel cfg.lambda cfg.lr := by
    intro cfg h sched st hrun
    have hlog := SVM.Concurrent.svm_log_nil cfg sched st h hrun
    have hm := (SVM.Concurrent.svm_reachable cfg sched st hrun).1.model_eq
    rw [hlog] at hm
    simp only [List.foldlM_nil] at hm
    exact ⟨hlog, (Option.some.inj hm).symm⟩
  constructor
  · intro cfg
    constructor
    · intro hneg sched st hrun
      have := ANN.Concurrent.ann_run_panicked cfg hneg sched st hrun
      subst this
      simp [ANN.Concurrent.init, hneg]
    · intro h0 h
      refine ⟨ANN.Concurrent.ann_idle_run cfg h0 h, ?_⟩
      obtain ⟨W, hW⟩ := Int.eq_ofNat_of_zero_le h0
      have hW1 : cfg.workers = (W : Int) := hW
      exact ANN.Concurrent.ann_can_return cfg W cfg.epochs.toNat hW1 rfl
        (by right; omega) _ (ANN.Concurrent.init cfg)
        (ANN.Concurrent.ann_inv_init cfg W hW1) (ANN.Concurrent.ann_inv2_init cfg _ _)
        (le_refl _)
  · intro cfg
    refine ⟨hsvm cfg, ?_, ?_, ?_⟩
    · intro hw sched st hrun
      have hinv := (SVM.Concurrent.svm_reachable cfg sched st hrun).1
      have := SVM.Concurrent.svm_workers_length_le cfg _ _ st hinv
      exact List.length_eq_zero.mp (by omega)
    · intro he
      refine ⟨?_, ?_⟩
      · exact SVM.Concurrent.svm_can_return cfg _ _ rfl rfl (by right; omega) _
          (SVM.Concurrent.init cfg) (SVM.Concurrent.svm_inv_init cfg _ _) (le_refl _)
      · intro sched st hrun hret
        have hinv := (SVM.Concurrent.svm_reachable cfg sched st hrun).1
        exact ⟨hinv.after_spawn (by simp [hret]), (hsvm cfg (Or.inl he) sched st hrun).2⟩
    · intro hw he hr sched st hrun
      refine ⟨(SVM.Concurrent.svm_no_worker_blocks cfg hw he hr sched st hrun).2.2, ?_⟩
      have hb := (SVM.Concurrent.svm_reachable cfg sched st hrun).2
      have hW : cfg.workers.toNat = 0 := by omega
      rw [hW] at hb
      omega

/-- C6, amended, witness: `TrainSVM` with no worker and two epochs over one record
never returns, and the length of its runs is bounded. -/
theorem degenerate_config_behaviour_witness :
    ∀ sched st, SVM.Concurrent.run SVM.Concurrent.noWorkerCfg
        (SVM.Concurrent.init SVM.Concurrent.noWorkerCfg) sched = some st →
      st.main ≠ SVM.Concurrent.MainPc.returned ∧
        sched.length ≤ SVM.Concurrent.potential 0 SVM.Concurrent.noWorkerCfg.records.length
          SVM.Concurrent.noWorkerCfg.epochs.toNat
          (SVM.Concurrent.init SVM.Concurrent.noWorkerCfg) :=
  (degenerate_config_behaviour.2 SVM.Concurrent.noWorkerCfg).2.2.2 (by decide) (by decide)
    (List.cons_ne_nil _ _)

namespace SVM
namespace Concurrent

theorem svm_all_done_of_live_zero (l : List WorkerPc) (h : (l.map WorkerPc.live).sum = 0) :
    ∀ w ∈ l, w = .done := by
  intro w hw
  have := zero_of_map_sum_eq_zero WorkerPc.live l h w hw
  cases w <;> simp [WorkerPc.live] at this ⊢

/-- After `wg.Wait()` has returned the counter is zero: no worker is left. -/
theorem svm_returned_idle (cfg : Cfg) :
    ∀ (sched : List Action) (st st1 : State),
      Inv cfg cfg.workers.toNat cfg.epochs.toNat st → (st.main = .returned → st.wg = 0) →
      run cfg st sched = some st1 → st1.main = .returned → st1.wg = 0
  | [], st, st1, _, hp, h => by
    simp [run] at h
    subst h
    exact hp
  | a :: rest, st, st1, hinv, hp, h => by
    simp only [run] at h
    cases hs : step cfg st a with
    | none => rw [hs] at h; cases h
    | some st2 =>
      rw [hs] at h
      have hinv2 := (svm_inv_step cfg _ _ rfl rfl st st2 a hinv hs).1
      refine svm_returned_idle cfg rest st2 st1 hinv2 ?_ h
      intro hret
      unfold step at hs
      have hnc : ¬ st.crashed = true := by simp [hinv.not_crashed]
      rw [if_neg hnc] at hs
      cases a with
      | main =>
        simp only [] at hs
        unfold stepMain at hs
        cases hm : st.main with
        | returned => rw [hm] at hs; cases hs
        | spawn w =>
          rw [hm] at hs
          simp only [] at hs
          split at hs <;>
          · simp at hs
            subst hs
            cases hret
        | send e i =>
          rw [hm] at hs
          simp only [] at hs
          split at hs
          · split at hs
            · split at hs
              · simp at hs
                subst hs
                cases hret
              · cases hs
            · simp at hs
              subst hs
              cases hret
          · simp at hs
            subst hs
            cases hret
        | close =>
          rw [hm] at hs
          simp at hs
          subst hs
          cases hret
        | wait =>
          rw [hm] at hs
          simp only [] at hs
          by_cases hw : st.wg = 0
          · rw [if_pos hw] at hs
            simp at hs
            subst hs
            exact hw
          · rw [if_neg hw] at hs
            cases hs
      | worker k =>
        simp only [] at hs
        exfalso
        have hmain : st.main = .returned := by
          unfold stepWorker at hs
          cases hk : st.workers[k]? with
          | none => rw [hk] at hs; cases hs
          | some w =>
            rw [hk] at hs
            cases w with
            | ranging =>
              simp only [] at hs
              split at hs
              · simp at hs
                subst hs
                exact hret
              · split at hs
                · simp at hs
                  subst hs
                  exact hret
                · cases hs
            | holding e record =>
              simp only [] at hs
              split at hs <;>
              · simp at hs
                subst hs
                exact hret
            | done => simp at hs
        have hwg := hp hmain
        have hsum : (st.workers.map WorkerPc.live).sum = 0 := by
          have := hinv.wg_eq
          omega
        have hall := svm_all_done_of_live_zero st.workers hsum
        unfold stepWorker at hs
        cases hk : st.workers[k]? with
        | none => rw [hk] at hs; cases hs
        | some w =>
          have := hall w (List.getElem?_mem hk)
          subst this
          rw [hk] at hs
          simp at hs

/-- The run of `overlapCfg` along `overlapSchedule`. -/
theorem overlap_run :
    ∃ m, run overlapCfg (init overlapCfg) overlapSchedule = some
      { main := .send 1 1, svm := m, recordChan := [], closed := false, wg := 2,
        workers := [.holding 0 { Age := 1, Income := ">50K" }, .ranging],
        log := [(1, { Age := 1, Income := ">50K" })], crashed := false } := by
  have h8 : run overlapCfg (init overlapCfg)
      [.main, .main, .main, .main, .worker 0, .main, .main, .worker 1] = some
      { main := .send 1 1, svm := newModel overlapCfg.lambda overlapCfg.lr, recordChan := [],
        closed := false, wg := 2,
        workers := [.holding 0 { Age := 1, Income := ">50K" },
                    .holding 1 { Age := 1, Income := ">50K" }],
        log := [], crashed := false } := rfl
  obtain ⟨m, _, hm⟩ := svm_apply_step overlapCfg
    { main := .send 1 1, svm := newModel overlapCfg.lambda overlapCfg.lr, recordChan := [],
      closed := false, wg := 2,
      workers := [.holding 0 { Age := 1, Income := ">50K" },
                  .holding 1 { Age := 1, Income := ">50K" }],
      log := [], crashed := false } 1 1 { Age := 1, Income := ">50K" } rfl rfl rfl
  refine ⟨m, ?_⟩
  have hsplit : overlapSchedule
      = [.main, .main, .main, .main, .worker 0, .main, .main, .worker 1] ++ [.worker 1] := rfl
  rw [hsplit, svm_run_append overlapCfg _ _ _ _ h8]
  simp only [run, hm]
  rfl

/-- The run of `singleCfg` along `singleSchedule`. -/
theorem single_run :
    ∃ m, run singleCfg (init singleCfg) singleSchedule = some
      { main := .send 1 1, svm := m, recordChan := [], closed := false, wg := 1,
        workers := [.holding 1 { Age := 1, Income := ">50K" }],
        log := [(0, { Age := 1, Income := ">50K" })], crashed := false } := by
  have h6 : run singleCfg (init singleCfg)
      [.main, .main, .main, .worker 0, .main, .main] = some
      { main := .send 1 1, svm := newModel singleCfg.lambda singleCfg.lr,
        recordChan := [(1, { Age := 1, Income := ">50K" })],
        closed := false, wg := 1,
        workers := [.holding 0 { Age := 1, Income := ">50K" }],
        log := [], crashed := false } := rfl
  obtain ⟨m, _, hm⟩ := svm_apply_step singleCfg
    { main := .send 1 1, svm := newModel singleCfg.lambda singleCfg.lr,
      recordChan := [(1, { Age := 1, Income := ">50K" })],
      closed := false, wg := 1,
      workers := [.holding 0 { Age := 1, Income := ">50K" }],
      log := [], crashed := false } 0 0 { Age := 1, Income := ">50K" } rfl rfl rfl
  refine ⟨m, ?_⟩
  have hsplit : singleSchedule
      = [.main, .main, .main, .worker 0, .main, .main] ++ [.worker 0, .worker 0] := rfl
  rw [hsplit, svm_run_append singleCfg _ _ _ _ h6]
  simp only [run, hm]
  rfl

/-- C7, as stated, fails: `TrainSVM` puts the records of all epochs into one
channel and has no barrier between epochs. With two epochs over one record and
two workers, worker 0 receives the record of epoch 0 and, before it applies its
update, worker 1 receives the record of epoch 1 and applies it: the only update
applied is one of epoch 1, while the record of epoch 0 is still in the hands of
worker 0. -/
theorem epochs_overlap :
    2 ≤ overlapCfg.epochs ∧ 1 ≤ overlapCfg.workers ∧
    ∃ st, run overlapCfg (init overlapCfg) overlapSchedule = some st ∧
      st.log = [(1, { Age := 1, Income := ">50K" })] ∧
      st.workers = [.holding 0 { Age := 1, Income := ">50K" }, .ranging] := by
  obtain ⟨m, hm⟩ := overlap_run
  exact ⟨by decide, by decide, _, hm, rfl, rfl⟩

/-- C7, amended. In the concurrent `TrainSVM` with exactly one worker, epochs are
strictly sequential, for every schedule. In every reachable state the updates
applied, the record in the hands of the worker, the records in the channel and
the records not yet sent make up, in this order, the order of the sequential
loops (every record of epoch 0, then every record of epoch 1, and so on), and the
model is the result of the updates applied, in that order. Hence when the worker
holds a record of epoch `e`, and when the update of a record of epoch `e` is
applied, the updates of all records of every earlier epoch have been applied
before. The call can run to its return, and whenever it returns, it returns the
model of the sequential `TrainSVM`. (With two or more workers there is no such
order: the records of all epochs go through one channel with no barrier.) -/
theorem TrainSVM_one_worker_sequential (cfg : Cfg) (hw : cfg.workers = 1) :
    (∀ sched st, run cfg (init cfg) sched = some st →
      (st.log ++ held st.workers ++ st.recordChan
          ++ pending cfg.records cfg.epochs.toNat st.main
        = unitsFrom cfg.records cfg.epochs.toNat 0) ∧
      (st.log.foldlM (fun svm u => recordStep cfg.lr cfg.lambda svm u.2)
          (newModel cfg.lambda cfg.lr) = some st.svm) ∧
      (∀ e r, WorkerPc.holding e r ∈ st.workers → ∀ e1, e1 < e →
        st.log.filter (fun x => x.1 = e1) = cfg.records.map (fun r1 => (e1, r1))) ∧
      (∀ l1 l2 x, st.log = l1 ++ x :: l2 → ∀ e1, e1 < x.1 →
        l1.filter (fun y => y.1 = e1) = cfg.records.map (fun r1 => (e1, r1))) ∧
      (st.main = .returned →
        Sequential.TrainSVM cfg.records cfg.epochs cfg.lambda cfg.lr = some st.svm)) ∧
    (∃ sched st, run cfg (init cfg) sched = some st ∧ st.main = .returned) := by
  have hW : cfg.workers.toNat = 1 := by omega
  constructor
  · intro sched st hrun
    have hinv := (svm_reachable cfg sched st hrun).1
    have hord := hinv.in_order (by omega)
    have hlen := svm_workers_length_le cfg _ _ st hinv
    refine ⟨hord, hinv.model_eq, ?_, ?_, ?_⟩
    · intro e r hmem e1 he1
      obtain ⟨k, hk⟩ := List.mem_iff_getElem?.mp hmem
      obtain ⟨hl, _⟩ := single_of_length_le_one st.workers k _ (by omega) hk
      rw [hl] at hord
      simp only [held, List.append_assoc, List.singleton_append] at hord
      exact prefix_has_earlier_epochs cfg.records cfg.epochs.toNat st.log _ (e, r) hord e1 he1
    · intro l1 l2 x hlog e1 he1
      rw [hlog] at hord
      simp only [List.append_assoc, List.cons_append] at hord
      exact prefix_has_earlier_epochs cfg.records cfg.epochs.toNat l1 _ x hord e1 he1
    · intro hret
      have hwg := svm_returned_idle cfg sched (init cfg) st (svm_inv_init cfg _ _)
        (by intro h; cases h) hrun hret
      have hsum : (st.workers.map WorkerPc.live).sum = 0 := by
        have := hinv.wg_eq
        omega
      have hall := svm_all_done_of_live_zero st.workers hsum
      have hlen1 : st.workers.length = 1 := by
        have := hinv.after_spawn (by simp [hret])
        omega
      have hheld : held st.workers = [] := by
        rw [List.eq_nil_iff_forall_not_mem]
        intro x hx
        have := hall _ ((mem_held_iff x.1 x.2 st.workers).mp hx)
        cases this
      have hq : st.recordChan = [] := by
        cases hws : st.workers with
        | nil => rw [hws] at hlen1; cases hlen1
        | cons w t =>
          have hd : w = .done := hall w (by rw [hws]; exact List.mem_cons_self _ _)
          have hmem : WorkerPc.done ∈ st.workers := by
            rw [hws, ← hd]
            exact List.mem_cons_self _ _
          exact (hinv.done_drained hmem).2
      rw [hheld, hq, hret] at hord
      simp only [pending, List.append_nil] at hord
      have hmodel := hinv.model_eq
      rw [hord] at hmodel
      exact hmodel
  · exact svm_can_return cfg _ _ rfl rfl (by left; omega) _ (init cfg) (svm_inv_init cfg _ _)
      (le_refl _)

/-- C7, amended, witness: with one worker and two epochs over one record, the
worker holds the record of epoch 1 only after the update of epoch 0 is applied. -/
theorem TrainSVM_one_worker_sequential_witness :
    ∃ st, run singleCfg (init singleCfg) singleSchedule = some st ∧
      WorkerPc.holding 1 { Age := 1, Income := ">50K" } ∈ st.workers ∧
      st.log.filter (fun x => x.1 = 0) = singleCfg.records.map (fun r1 => (0, r1)) :=
  Exists.elim single_run (fun _ h =>
    ⟨_, h, List.mem_singleton.mpr rfl,
      (((TrainSVM_one_worker_sequential singleCfg rfl).1 singleSchedule _ h).2.2.1 1
        { Age := 1, Income := ">50K" } (List.mem_singleton.mpr rfl) 0 (by decide))⟩)

end Concurrent
end SVM

namespace RF
namespace Concurrent

/-- The tokens in `workerChan` are those of the goroutines in flight, and there
are never more than four: one step. -/
theorem rf_gate_step (cfg : Cfg) (st st1 : State) (a : Action)
    (hinv : st.workerChan.length = inFlight st ∧ st.workerChan.length ≤ 4)
    (h : step cfg st a = some st1) :
    st1.workerChan.length = inFlight st1 ∧ st1.workerChan.length ≤ 4 := by
  obtain ⟨heq, hle⟩ := hinv
  unfold inFlight at heq ⊢
  cases a with
  | main =>
    simp only [step] at h
    unfold stepMain at h
    cases hm : st.main with
    | returned => rw [hm] at h; cases h
    | panicked => rw [hm] at h; cases h
    | loop i =>
      rw [hm] at h
      simp only [] at h
      split at h
      · split at h
        · simp at h
          subst h
          simp only [List.length_append, List.length_singleton, List.map_append, List.sum_append,
            List.map_cons, List.map_nil, List.sum_cons, List.sum_nil, UnitPc.holds]
          omega
        · cases h
      · simp at h
        subst h
        exact ⟨heq, hle⟩
    | collect =>
      rw [hm] at h
      simp only [] at h
      split at h
      · simp at h
        subst h
        exact ⟨heq, hle⟩
      · split at h
        · simp at h
          subst h
          exact ⟨heq, hle⟩
        · cases h
  | closer =>
    simp only [step] at h
    unfold stepCloser at h
    split at h
    · split at h
      · simp at h
        subst h
        exact ⟨heq, hle⟩
      · cases h
    · cases h
  | unit i =>
    simp only [step] at h
    unfold stepUnit at h
    cases hu : st.units[i]? with
    | none => rw [hu] at h; cases h
    | some u =>
      rw [hu] at h
      have hholds := fun b => map_sum_set UnitPc.holds st.units i u b hu
      cases u with
      | building =>
        simp only [] at h
        split at h
        · cases h
        · rename_i tree c1 hb
          simp at h
          subst h
          have h3 := hholds (.built tree)
          simp only [UnitPc.holds] at h3
          simp only []
          omega
      | built tree =>
        simp only [] at h
        split at h
        · simp at h
          subst h
          have h3 := hholds .sent
          simp only [UnitPc.holds] at h3
          simp only []
          omega
        · cases h
      | sent =>
        simp only [] at h
        split at h
        · rename_i x rest hq
          simp at h
          subst h
          have h3 := hholds .released
          simp only [UnitPc.holds] at h3
          rw [hq] at heq hle
          simp only [List.length_cons] at heq hle
          simp only []
          omega
        · cases h
      | released =>
        simp at h
        subst h
        have h3 := hholds .done
        simp only [UnitPc.holds] at h3
        simp only []
        omega
      | done => simp at h

theorem rf_gate_run (cfg : Cfg) :
    ∀ (sched : List Action) (st st1 : State),
      (st.workerChan.length = inFlight st ∧ st.workerChan.length ≤ 4) →
      run cfg st sched = some st1 →
      st1.workerChan.length = inFlight st1 ∧ st1.workerChan.length ≤ 4
  | [], st, st1, hinv, h => by
    simp [run] at h
    subst h
    exact hinv
  | a :: rest, st, st1, hinv, h => by
    simp only [run] at h
    cases hs : step cfg st a with
    | none => rw [hs] at h; cases h
    | some st2 =>
      rw [hs] at h
      exact rf_gate_run cfg rest st2 st1 (rf_gate_step cfg st st2 a hinv hs) h

end Concurrent
end RF

namespace ANN
namespace Concurrent

/-- The workers that have not finished were all started in the current epoch. -/
theorem ann_live_le_isCur (st : State) (cfg : Cfg) (W : Nat) (hinv : Inv cfg W st) :
    (st.workers.map Worker.live).sum ≤ (st.workers.map (Worker.isCur st.epoch)).sum := by
  have h : ∀ l : List Worker, (∀ x ∈ l, x.epoch ≤ st.epoch ∧ (x.epoch < st.epoch → x.pc = .done)) →
      (l.map Worker.live).sum ≤ (l.map (Worker.isCur st.epoch)).sum := by
    intro l
    induction l with
    | nil => intro _; simp
    | cons x t ih =>
      intro hall
      have hx := hall x (List.mem_cons_self _ _)
      have ht := ih (fun y hy => hall y (List.mem_cons_of_mem _ hy))
      simp only [List.map_cons, List.sum_cons]
      have : x.live ≤ Worker.isCur st.epoch x := by
        unfold Worker.isCur Worker.live
        by_cases he : x.epoch = st.epoch
        · rw [if_pos he]
          cases x.pc <;> simp
        · rw [if_neg he, hx.2 (by omega)]
      omega
  exact h st.workers hinv.stamps

theorem ann_isCur_le (st : State) (cfg : Cfg) (W : Nat) (hinv : Inv cfg W st) :
    (st.workers.map (Worker.isCur st.epoch)).sum ≤ W := by
  by_cases hs : ∃ w, st.main = .spawn w
  · obtain ⟨w, hw⟩ := hs
    have := hinv.cur_spawn w hw
    omega
  · push_neg at hs
    by_cases hwk : st.main.working ∨ st.main = .reset
    · have := hinv.cur_full hwk hs
      omega
    · push_neg at hwk
      have hfresh := hinv.fresh hwk.1 hwk.2
      have : (st.workers.map (Worker.isCur st.epoch)).sum = 0 := by
        apply map_sum_eq_zero
        intro w hw
        have := hfresh w hw
        unfold Worker.isCur
        rw [if_neg (by omega)]
      omega

end Concurrent
end ANN

/-- C11. The worker gates bound the units in flight, for every schedule. In every
reachable state of the concurrent `TrainRandomForest`, for every `numTrees`, the
tokens in the size-4 channel are exactly those of the tree goroutines in flight
(started after their token was placed, and not yet past their `<-workerChan`);
so at most 4 goroutines are in flight, and at most 4 are building a tree. In
every reachable state of the network `Train` the number of worker goroutines
running (started, deferred `wg.Done()` not yet run) is at most `workers`, a
negative count meaning none. -/
theorem gate_bounds_units_in_flight :
    (∀ (cfg : RF.Concurrent.Cfg) (sched : List RF.Concurrent.Action) (st : RF.Concurrent.State),
      RF.Concurrent.run cfg (RF.Concurrent.init cfg) sched = some st →
        st.workerChan.length = RF.Concurrent.inFlight st ∧
        RF.Concurrent.inFlight st ≤ 4 ∧
        (st.units.map RF.Concurrent.UnitPc.isBuilding).sum ≤ 4) ∧
    (∀ (cfg : ANN.Concurrent.Cfg) (sched : List ANN.Concurrent.Action)
        (st : ANN.Concurrent.State),
      ANN.Concurrent.run cfg (ANN.Concurrent.init cfg) sched = some st →
        ANN.Concurrent.running st ≤ cfg.workers.toNat) := by
  constructor
  · intro cfg sched st hrun
    have h := RF.Concurrent.rf_gate_run cfg sched (RF.Concurrent.init cfg) st
      ⟨by simp [RF.Concurrent.init, RF.Concurrent.inFlight],
        by simp [RF.Concurrent.init]⟩ hrun
    refine ⟨h.1, by omega, ?_⟩
    have hle := map_sum_le RF.Concurrent.UnitPc.isBuilding RF.Concurrent.UnitPc.holds
      (by intro u; cases u <;> simp [RF.Concurrent.UnitPc.isBuilding, RF.Concurrent.UnitPc.holds])
      st.units
    have := h.1
    unfold RF.Concurrent.inFlight at this
    omega
  · intro cfg sched st hrun
    by_cases hneg : cfg.workers < 0
    · have := ANN.Concurrent.ann_run_panicked cfg hneg sched st hrun
      subst this
      simp [ANN.Concurrent.running, ANN.Concurrent.init]
    · obtain ⟨W, hW⟩ := Int.eq_ofNat_of_zero_le (not_lt.mp hneg)
      have hW1 : cfg.workers = (W : Int) := hW
      obtain ⟨hinv, _, _⟩ := ANN.Concurrent.ann_reachable_inv cfg W hW1 sched st hrun
      have h1 := ANN.Concurrent.ann_live_le_isCur st cfg W hinv
      have h2 := ANN.Concurrent.ann_isCur_le st cfg W hinv
      unfold ANN.Concurrent.running
      rw [hW1]
      simp only [Int.toNat_ofNat]
      omega

/-- C11, witness: after four trees of `gateCfg` have been started the gate is
full, with four goroutines in flight. -/
theorem gate_bounds_units_in_flight_witness :
    ∃ st, RF.Concurrent.run RF.Concurrent.gateCfg (RF.Concurrent.init RF.Concurrent.gateCfg)
        (List.replicate 4 RF.Concurrent.Action.main) = some st ∧
      st.workerChan.length = 4 ∧
      st.workerChan.length = RF.Concurrent.inFlight st ∧ RF.Concurrent.inFlight st ≤ 4 :=
  ⟨_, rfl, rfl,
    (gate_bounds_units_in_flight.1 RF.Concurrent.gateCfg
      (List.replicate 4 RF.Concurrent.Action.main) _ rfl).1,
    (gate_bounds_units_in_flight.1 RF.Concurrent.gateCfg
      (List.replicate 4 RF.Concurrent.Action.main) _ rfl).2.1⟩

namespace SVM

theorem dotLoop_eq : ∀ (v1 v2 : List ℚ) (acc : ℚ), v1.length ≤ v2.length →
    dotLoop acc v1 v2 = some (acc + (List.zipWith (fun a b => a * b) v1 v2).sum)
  | [], _, acc, _ => by simp [dotLoop]
  | _ :: _, [], _, h => by simp at h
  | a :: v1, b :: v2, acc, h => by
    simp only [dotLoop]
    rw [dotLoop_eq v1 v2 _ (by simpa using h)]
    simp only [List.zipWith_cons_cons, List.sum_cons]
    rw [add_assoc]

theorem dotProduct_eq (w : List ℚ) (record : Record) (h : w.length = 6) :
    dotProduct w (extractFeatures record)
      = some ((List.zipWith (fun a b => a * b) w (extractFeatures record)).sum) := by
  have hf : (extractFeatures record).length = 6 := rfl
  unfold dotProduct
  rw [dotLoop_eq w (extractFeatures record) 0 (by omega), zero_add]

theorem weightsUpdate_eq (c d : ℚ) : ∀ (ws xs : List ℚ), ws.length ≤ xs.length →
    weightsUpdate c d ws xs = some (List.zipWith (fun w x => c * w + d * x) ws xs)
  | [], _, _ => by simp [weightsUpdate]
  | _ :: _, [], h => by simp at h
  | w :: ws, x :: xs, h => by
    simp only [weightsUpdate, weightsUpdate_eq c d ws xs (by simpa using h)]
    rfl

/-- The loops of the sequential `TrainSVM` never panic and keep six weights. -/
theorem foldlM_recordStep_some (lr lambda : ℚ) : ∀ (l : List (Nat × Record)) (m : Model),
    m.Weights.length = 6 →
      ∃ m1, l.foldlM (fun svm u => recordStep lr lambda svm u.2) m = some m1 ∧
        m1.Weights.length = 6
  | [], m, h => ⟨m, rfl, h⟩
  | u :: t, m, h => by
    obtain ⟨m1, h1, hl⟩ := recordStep_some lr lambda m u.2 h
    obtain ⟨m2, h2, hl2⟩ := foldlM_recordStep_some lr lambda t m1 hl
    refine ⟨m2, ?_, hl2⟩
    simp only [List.foldlM_cons, h1, Option.bind_eq_bind, Option.some_bind]
    exact h2

/-- The sequential `TrainSVM` returns a model, with six weights. -/
theorem Sequential_TrainSVM_some (records : List Record) (epochs : Int) (lambda lr : ℚ) :
    ∃ m, Sequential.TrainSVM records epochs lambda lr = some m ∧ m.Weights.length = 6 :=
  foldlM_recordStep_some lr lambda _ _ (by simp [newModel])

/-- The records of the sequential order: the record list, `E` times. -/
theorem unitsFrom_records (records : List Record) (E : Nat) :
    ∀ (d e : Nat), E - e = d →
      (unitsFrom records E e).map Prod.snd = (List.replicate d records).flatten
  | 0, e, h => by
    rw [unitsFrom_of_le records E e (by omega)]
    rfl
  | d + 1, e, h => by
    rw [unitsFrom_of_lt records E e (by omega), List.map_append,
      unitsFrom_records records E d (e + 1) (by omega), List.replicate_succ, List.flatten_cons]
    congr 1
    rw [List.map_map]
    exact List.map_id _

namespace Concurrent

/-- With one worker, at the return every unit has been applied, in the
sequential order. -/
theorem svm_one_worker_at_return (cfg : Cfg) (hw : cfg.workers = 1) (sched : List Action)
    (st : State) (hrun : run cfg (init cfg) sched = some st) (hret : st.main = .returned) :
    st.log = unitsFrom cfg.records cfg.epochs.toNat 0 := by
  have hW : cfg.workers.toNat = 1 := by omega
  have hinv := (svm_reachable cfg sched st hrun).1
  have hord := hinv.in_order (by omega)
  have hwg := svm_returned_idle cfg sched (init cfg) st (svm_inv_init cfg _ _)
    (by intro h; cases h) hrun hret
  have hsum : (st.workers.map WorkerPc.live).sum = 0 := by
    have := hinv.wg_eq
    omega
  have hall := svm_all_done_of_live_zero st.workers hsum
  have hlen1 : st.workers.length = 1 := by
    have := hinv.after_spawn (by simp [hret])
    omega
  have hheld : held st.workers = [] := by
    rw [List.eq_nil_iff_forall_not_mem]
    intro x hx
    have := hall _ ((mem_held_iff x.1 x.2 st.workers).mp hx)
    cases this
  have hq : st.recordChan = [] := by
    cases hws : st.workers with
    | nil => rw [hws] at hlen1; cases hlen1
    | cons w t =>
      have hd : w = .done := hall w (by rw [hws]; exact List.mem_cons_self _ _)
      have hmem : WorkerPc.done ∈ st.workers := by
        rw [hws, ← hd]
        exact List.mem_cons_self _ _
      exact (hinv.done_drained hmem).2
  rw [hheld, hq, hret] at hord
  simpa [pending] using hord

/-- C12. The concurrent `TrainSVM` with exactly one worker returns the model of
the sequential `TrainSVM` on the same arguments, for every record list, every
`epochs` (a negative count runs no epoch), `lambda` and `lr`, and for every
schedule. The sequential call returns a model `m`; the concurrent call can run to
its return; and whenever it has returned, its model is `m` (the same `Weights`
and `Bias`), and the updates it has applied are the per-record update of the
sequential loops applied to the record list in list order, `epochs` times. -/
theorem TrainSVM_one_worker_eq_sequential (cfg : Cfg) (hw : cfg.workers = 1) :
    ∃ m, Sequential.TrainSVM cfg.records cfg.epochs cfg.lambda cfg.lr = some m ∧
      (∃ sched st, run cfg (init cfg) sched = some st ∧ st.main = .returned) ∧
      (∀ sched st, run cfg (init cfg) sched = some st → st.main = .returned →
        st.svm = m ∧ st.svm.Weights = m.Weights ∧ st.svm.Bias = m.Bias ∧
        st.log.map Prod.snd = (List.replicate cfg.epochs.toNat cfg.records).flatten ∧
        st.log.foldlM (fun svm u => recordStep cfg.lr cfg.lambda svm u.2)
          (newModel cfg.lambda cfg.lr) = some st.svm) := by
  obtain ⟨m, hm, _⟩ := Sequential_TrainSVM_some cfg.records cfg.epochs cfg.lambda cfg.lr
  have hW : cfg.workers.toNat = 1 := by omega
  refine ⟨m, hm, ?_, ?_⟩
  · exact svm_can_return cfg _ _ rfl rfl (by left; omega) _ (init cfg) (svm_inv_init cfg _ _)
      (le_refl _)
  · intro sched st hrun hret
    have hlog := svm_one_worker_at_return cfg hw sched st hrun hret
    have hmodel := (svm_reachable cfg sched st hrun).1.model_eq
    have heq : st.svm = m := by
      have h1 := hmodel
      rw [hlog] at h1
      unfold Sequential.TrainSVM at hm
      rw [hm] at h1
      exact (Option.some.inj h1).symm
    refine ⟨heq, by rw [heq], by rw [heq], ?_, hmodel⟩
    rw [hlog]
    exact unitsFrom_records cfg.records cfg.epochs.toNat _ 0 rfl

/-- C12, witness: one worker, two epochs over one record. -/
theorem TrainSVM_one_worker_eq_sequential_witness :
    ∃ m, Sequential.TrainSVM singleCfg.records singleCfg.epochs singleCfg.lambda singleCfg.lr
        = some m ∧
      (∃ sched st, run singleCfg (init singleCfg) sched = some st ∧ st.main = .returned) ∧
      (∀ sched st, run singleCfg (init singleCfg) sched = some st → st.main = .returned →
        st.svm = m ∧ st.svm.Weights = m.Weights ∧ st.svm.Bias = m.Bias ∧
        st.log.map Prod.snd = (List.replicate singleCfg.epochs.toNat singleCfg.records).flatten ∧
        st.log.foldlM (fun svm u => recordStep singleCfg.lr singleCfg.lambda svm u.2)
          (newModel singleCfg.lambda singleCfg.lr) = some st.svm) :=
  TrainSVM_one_worker_eq_sequential singleCfg rfl

end Concurrent

/-- C13. One per-record step of `TrainSVM` (the loop body of the sequential
trainer and the critical section of the concurrent worker), on a model with six
weights: with `label` 1 for income ">50K" and -1 otherwise and `x` the six
numeric features, if `label * (Weights.x + Bias) < 1` every `Weights[i]` becomes
`(1 - lr*lambda) * Weights[i] + lr*label*x[i]` and `Bias` grows by `lr*label`;
otherwise every `Weights[i]` is multiplied by `1 - lr*lambda` and `Bias` is
unchanged. The step never panics, `Weights` keeps length 6, and `Lambda` and `LR`
are unchanged. -/
theorem recordStep_as_stated (lr lambda : ℚ) (svm : Model) (record : Record)
    (h : svm.Weights.length = 6) :
    convertLabel record.Income = (if record.Income = ">50K" then 1 else -1) ∧
    extractFeatures record = [(record.Age : ℚ), (record.Fnlwgt : ℚ), (record.EducationNum : ℚ),
      (record.CapitalGain : ℚ), (record.CapitalLoss : ℚ), (record.HoursPerWeek : ℚ)] ∧
    (convertLabel record.Income
        * ((List.zipWith (fun w x => w * x) svm.Weights (extractFeatures record)).sum + svm.Bias)
        < 1 →
      recordStep lr lambda svm record = some
        { Weights := List.zipWith
            (fun w x => (1 - lr * lambda) * w + lr * convertLabel record.Income * x)
            svm.Weights (extractFeatures record)
          Bias := svm.Bias + lr * convertLabel record.Income
          Lambda := svm.Lambda, LR := svm.LR }) ∧
    (¬ convertLabel record.Income
        * ((List.zipWith (fun w x => w * x) svm.Weights (extractFeatures record)).sum + svm.Bias)
        < 1 →
      recordStep lr lambda svm record = some
        { Weights := svm.Weights.map (fun w => w * (1 - lr * lambda))
          Bias := svm.Bias, Lambda := svm.Lambda, LR := svm.LR }) ∧
    (∃ m, recordStep lr lambda svm record = some m ∧ m.Weights.length = 6) := by
  have hf : (extractFeatures record).length = 6 := rfl
  have hd := dotProduct_eq svm.Weights record h
  have hws := weightsUpdate_eq (1 - lr * lambda) (lr * convertLabel record.Income)
    svm.Weights (extractFeatures record) (by omega)
  refine ⟨rfl, rfl, ?_, ?_, recordStep_some lr lambda svm record h⟩
  · intro hc
    unfold recordStep
    rw [hd]
    simp only []
    rw [if_pos hc, hws]
  · intro hc
    unfold recordStep
    rw [hd]
    simp only []
    rw [if_neg hc]

/-- C13, witness: the first step of a training run, on the zero model, changes
the weights and the bias. -/
theorem recordStep_as_stated_witness :
    recordStep (1 / 1000) (1 / 100) (newModel (1 / 100) (1 / 1000))
        { Age := 1, Income := ">50K" }
      = some
        { Weights := List.zipWith
            (fun w x => (1 - 1 / 1000 * (1 / 100)) * w + 1 / 1000 * convertLabel ">50K" * x)
            (newModel (1 / 100) (1 / 1000)).Weights
            (extractFeatures { Age := 1, Income := ">50K" })
          Bias := (newModel (1 / 100) (1 / 1000)).Bias + 1 / 1000 * convertLabel ">50K"
          Lambda := 1 / 100, LR := 1 / 1000 } :=
  (recordStep_as_stated (1 / 1000) (1 / 100) (newModel (1 / 100) (1 / 1000))
    { Age := 1, Income := ">50K" } rfl).2.2.1 (by
      simp [convertLabel, extractFeatures, newModel, List.replicate])

theorem dotLoop_none : ∀ (v1 v2 : List ℚ) (acc : ℚ), v2.length < v1.length →
    dotLoop acc v1 v2 = none
  | [], _, _, h => by simp at h
  | _ :: _, [], _, _ => by simp [dotLoop]
  | a :: v1, b :: v2, acc, h => by
    simp only [dotLoop]
    exact dotLoop_none v1 v2 _ (by simpa using h)

/-- C14, as stated, fails: `Predict` does not return a label for every model. On
a model with seven weights `dotProduct` reads `features[6]` of the six features
and `Predict` of both packages panics. -/
theorem Predict_panics_on_seven_weights :
    Sequential.Predict { Weights := [0, 0, 0, 0, 0, 0, 1], Bias := 0, Lambda := 0, LR := 0 }
        { Age := 30, Income := ">50K" } = none ∧
    Concurrent.Predict { Weights := [0, 0, 0, 0, 0, 0, 1], Bias := 0, Lambda := 0, LR := 0 }
        { Age := 30, Income := ">50K" } = none ∧
    (extractFeatures { Age := 30, Income := ">50K" }).length = 6 := by
  refine ⟨?_, ?_, rfl⟩
  · unfold Sequential.Predict dotProduct
    rw [dotLoop_none _ _ _ (by simp [extractFeatures])]
  · unfold Concurrent.Predict dotProduct
    rw [dotLoop_none _ _ _ (by simp [extractFeatures])]

/-- C14, amended. For every model with at most six weights and every record,
`Predict` returns ">50K" exactly when `dotProduct(Weights, features) + Bias >= 0`
and "<=50K" otherwise, with the features (Age, Fnlwgt, EducationNum,
CapitalGain, CapitalLoss, HoursPerWeek) and `dotProduct` the sum of
`Weights[i] * features[i]` over the indices of `Weights`; it never panics on such
a model. For every model with more than six weights `Predict` panics (index out
of range in `dotProduct`). `Predict` of the concurrent and of the sequential
package behave the same for the same `Weights`, `Bias` and record, for every
model. The models of both trainers have six weights. Both only read the model:
the embedding of `Predict` has no model output because the source has no
write. -/
theorem Predict_by_weights_length (svm : Model) (record : Record) :
    (svm.Weights.length ≤ 6 →
      dotProduct svm.Weights (extractFeatures record)
        = some ((List.zipWith (fun w x => w * x) svm.Weights
            [(record.Age : ℚ), (record.Fnlwgt : ℚ), (record.EducationNum : ℚ),
             (record.CapitalGain : ℚ), (record.CapitalLoss : ℚ), (record.HoursPerWeek : ℚ)]).sum) ∧
      Sequential.Predict svm record
        = some (if 0 ≤ (List.zipWith (fun w x => w * x) svm.Weights
            [(record.Age : ℚ), (record.Fnlwgt : ℚ), (record.EducationNum : ℚ),
             (record.CapitalGain : ℚ), (record.CapitalLoss : ℚ), (record.HoursPerWeek : ℚ)]).sum
          + svm.Bias then ">50K" else "<=50K") ∧
      Concurrent.Predict svm record
        = some (if 0 ≤ (List.zipWith (fun w x => w * x) svm.Weights
            [(record.Age : ℚ), (record.Fnlwgt : ℚ), (record.EducationNum : ℚ),
             (record.CapitalGain : ℚ), (record.CapitalLoss : ℚ), (record.HoursPerWeek : ℚ)]).sum
          + svm.Bias then ">50K" else "<=50K")) ∧
    (6 < svm.Weights.length →
      Sequential.Predict svm record = none ∧ Concurrent.Predict svm record = none) ∧
    Sequential.Predict svm record = Concurrent.Predict svm record ∧
    (∀ records epochs lambda lr, ∃ m,
      Sequential.TrainSVM records epochs lambda lr = some m ∧ m.Weights.length = 6) ∧
    (∀ (cfg : Concurrent.Cfg) (sched : List Concurrent.Action) (st : Concurrent.State),
      Concurrent.run cfg (Concurrent.init cfg) sched = some st → st.svm.Weights.length = 6) := by
  refine ⟨?_, ?_, rfl,
    fun records epochs lambda lr => Sequential_TrainSVM_some records epochs lambda lr,
    fun cfg sched st hrun => (Concurrent.svm_reachable cfg sched st hrun).1.weights_len⟩
  · intro h
    have hf : (extractFeatures record).length = 6 := rfl
    have hd : dotProduct svm.Weights (extractFeatures record)
        = some ((List.zipWith (fun a b => a * b) svm.Weights (extractFeatures record)).sum) := by
      unfold dotProduct
      rw [dotLoop_eq svm.Weights (extractFeatures record) 0 (by omega), zero_add]
    have hseq : Sequential.Predict svm record
        = some (if 0 ≤ (List.zipWith (fun w x => w * x) svm.Weights
            (extractFeatures record)).sum + svm.Bias then ">50K" else "<=50K") := by
      unfold Sequential.Predict
      rw [hd]
      simp only [ge_iff_le]
      split_ifs <;> rfl
    exact ⟨hd, hseq, hseq⟩
  · intro h
    have hf : (extractFeatures record).length = 6 := rfl
    have hd : dotProduct svm.Weights (extractFeatures record) = none := by
      unfold dotProduct
      exact dotLoop_none _ _ _ (by omega)
    have hseq : Sequential.Predict svm record = none := by
      unfold Sequential.Predict
      rw [hd]
    exact ⟨hseq, hseq⟩

/-- C14, witness: a model with three weights labels a record "<=50K", from the
first three features only. -/
theorem Predict_by_weights_length_witness :
    Sequential.Predict { Weights := [1, 0, -1], Bias := 0, Lambda := 0, LR := 0 }
        { Age := 1, EducationNum := 2, HoursPerWeek := 40, Income := ">50K" } = some "<=50K" ∧
    Concurrent.Predict { Weights := [1, 0, -1], Bias := 0, Lambda := 0, LR := 0 }
        { Age := 1, EducationNum := 2, HoursPerWeek := 40, Income := ">50K" } = some "<=50K" := by
  have h := ((Predict_by_weights_length
    { Weights := [1, 0, -1], Bias := 0, Lambda := 0, LR := 0 }
    { Age := 1, EducationNum := 2, HoursPerWeek := 40, Income := ">50K" }).1 (by decide)).2
  have hs : ¬ (0 : ℚ) ≤ (List.zipWith (fun w x => w * x) [(1 : ℚ), 0, -1]
      [(((1 : Int) : ℚ)), (((0 : Int) : ℚ)), (((2 : Int) : ℚ)), (((0 : Int) : ℚ)),
        (((0 : Int) : ℚ)), (((40 : Int) : ℚ))]).sum + 0 := by
    norm_num
  rw [if_neg hs] at h
  exact h

end SVM

theorem foldl_add_eq_sum {α : Type} (g : α → ℚ) : ∀ (l : List α) (a : ℚ),
    l.foldl (fun acc x => acc + g x) a = a + (l.map g).sum
  | [], a => by simp
  | x :: t, a => by
    simp only [List.foldl_cons, List.map_cons, List.sum_cons]
    rw [foldl_add_eq_sum g t (a + g x), add_assoc]

namespace CF

/-- The loop of `PredictRating` computes the dot product over the 10 factors. -/
theorem PredictRating_eq_sum (f : Factors) (user movie : Int) :
    PredictRating f user movie
      = ((List.range 10).map (fun k => f.P user k * f.Q movie k)).sum := by
  unfold PredictRating K
  rw [foldl_add_eq_sum (fun k => f.P user k * f.Q movie k) (List.range 10) 0, zero_add]

/-- On ratings whose rows exist the evaluation loop never panics and adds up the
squared errors. -/
theorem evaluateLoop_ok (f : Factors) (numUsers numMovies : Int) :
    ∀ (testSet : List Rating) (mse : ℚ),
      (∀ r ∈ testSet, 0 ≤ r.UserID ∧ r.UserID ≤ numUsers ∧ 0 ≤ r.MovieID ∧ r.MovieID ≤ numMovies) →
      evaluateLoop f numUsers numMovies mse testSet = .ok (mse + (testSet.map (fun r =>
        (r.Rating - ((List.range 10).map (fun k => f.P r.UserID k * f.Q r.MovieID k)).sum) ^ 2)).sum)
  | [], mse, _ => by simp [evaluateLoop]
  | r :: rest, mse, h => by
    have hr := h r (List.mem_cons_self _ _)
    have ih := evaluateLoop_ok f numUsers numMovies rest
      (mse + (r.Rating - PredictRating f r.UserID r.MovieID) ^ 2)
      (fun x hx => h x (List.mem_cons_of_mem _ hx))
    simp only [evaluateLoop, if_pos hr, ih, List.map_cons, List.sum_cons]
    rw [PredictRating_eq_sum, add_assoc]

theorem sum_sq_nonneg (f : Factors) (testSet : List Rating) :
    0 ≤ (testSet.map (fun r =>
      (r.Rating - ((List.range 10).map (fun k => f.P r.UserID k * f.Q r.MovieID k)).sum) ^ 2)).sum
        / (testSet.length : ℚ) := by
  apply div_nonneg
  · apply List.sum_nonneg
    intro x hx
    simp only [List.mem_map] at hx
    obtain ⟨r, _, rfl⟩ := hx
    exact sq_nonneg _
  · exact Nat.cast_nonneg _

/-- C15. For every non-empty test set whose user and movie ids index existing
rows of `P` and `Q` (the rows `0 .. numUsers` and `0 .. numMovies` that
`InitializeMatrices` allocates), `EvaluateSequential` and `EvaluateConcurrent`
return, without panic, the mean squared error: the sum over the test ratings of
`(Rating - PredictRating(UserID, MovieID))^2` divided by the number of test
ratings, where `PredictRating` is the dot product of `P[user]` and `Q[movie]`
over the `K = 10` factors. The result is not negative. Both functions only read
`P` and `Q`: their embedding has no matrix output because the source has no
write. -/
theorem Evaluate_mean_squared_error (f : Factors) (numUsers numMovies : Int)
    (testSet : List Rating) (hne : testSet ≠ [])
    (hrows : ∀ r ∈ testSet,
      0 ≤ r.UserID ∧ r.UserID ≤ numUsers ∧ 0 ≤ r.MovieID ∧ r.MovieID ≤ numMovies) :
    Sequential.EvaluateSequential f numUsers numMovies testSet
      = .ok ((testSet.map (fun r => (r.Rating - PredictRating f r.UserID r.MovieID) ^ 2)).sum
          / (testSet.length : ℚ)) ∧
    Concurrent.EvaluateConcurrent f numUsers numMovies testSet
      = .ok ((testSet.map (fun r => (r.Rating - PredictRating f r.UserID r.MovieID) ^ 2)).sum
          / (testSet.length : ℚ)) ∧
    0 ≤ (testSet.map (fun r => (r.Rating - PredictRating f r.UserID r.MovieID) ^ 2)).sum
          / (testSet.length : ℚ) ∧
    (∀ user movie, PredictRating f user movie
      = ((List.range 10).map (fun k => f.P user k * f.Q movie k)).sum) := by
  have hloop := evaluateLoop_ok f numUsers numMovies testSet 0 hrows
  have hlen : ¬ testSet.length = 0 := fun h => hne (List.length_eq_zero.mp h)
  have hfun : (fun r : Rating => (r.Rating - PredictRating f r.UserID r.MovieID) ^ 2)
      = (fun r : Rating => (r.Rating
          - ((List.range 10).map (fun k => f.P r.UserID k * f.Q r.MovieID k)).sum) ^ 2) := by
    funext r
    rw [PredictRating_eq_sum]
  rw [hfun]
  refine ⟨?_, ?_, sum_sq_nonneg f testSet, PredictRating_eq_sum f⟩
  · unfold Sequential.EvaluateSequential
    rw [hloop]
    simp only [if_neg hlen, zero_add]
  · unfold Concurrent.EvaluateConcurrent
    rw [hloop]
    simp only [if_neg hlen, zero_add]

/-- C15, witness: one test rating on the matrices of `raceCfg`. -/
theorem Evaluate_mean_squared_error_witness :
    Sequential.EvaluateSequential Concurrent.raceCfg.f0 1 1 [⟨1, 1, 5, 0⟩]
      = .ok (((([⟨1, 1, 5, 0⟩] : List Rating).map (fun r =>
          (r.Rating - PredictRating Concurrent.raceCfg.f0 r.UserID r.MovieID) ^ 2)).sum)
          / ((([⟨1, 1, 5, 0⟩] : List Rating).length : ℚ))) :=
  (Evaluate_mean_squared_error Concurrent.raceCfg.f0 1 1 [⟨1, 1, 5, 0⟩] (List.cons_ne_nil _ _)
      (by intro r hr; rw [List.mem_singleton.mp hr]; decide)).1

end CF

namespace RF

/-! ## Splits, samples and the shape of built trees -/

theorem Chance.Intn_lt (n : Nat) (hn : 0 < n) (c : Chance) : (c.Intn n).1 < n := by
  unfold Chance.Intn
  exact Nat.mod_lt _ hn

/-- C16, as stated, fails: both `chooseBestSplit` draw the feature with
`rand.Intn(6)`, so the feature is one of 0..5. When the draw is 1 they return
feature 1, which no `switch` of `splitRecords` and `predict` recognises (its
value reads as 0 for every record); the same holds for 3 and 5, and the
recognised features 10, 11 and 12 are never returned. -/
theorem chooseBestSplit_feature_not_recognised :
    (∀ records : List Record,
      (Sequential.chooseBestSplit records { draws := fun _ => 1 }).1.1 = 1 ∧
      (Concurrent.chooseBestSplit records { draws := fun _ => 1 }).1.1 = 1) ∧
    (1 : Int) ∉ recognisedFeatures ∧
    (∀ record : Record, featureValue 1 record = 0) ∧
    (∀ (records : List Record) (c : Chance),
      0 ≤ (Sequential.chooseBestSplit records c).1.1 ∧
      (Sequential.chooseBestSplit records c).1.1 < 6 ∧
      0 ≤ (Concurrent.chooseBestSplit records c).1.1 ∧
      (Concurrent.chooseBestSplit records c).1.1 < 6) := by
  refine ⟨fun records => ⟨rfl, rfl⟩, by decide, fun record => by simp [featureValue], ?_⟩
  intro records c
  have h := Chance.Intn_lt 6 (by decide) c
  simp only [Sequential.chooseBestSplit, Concurrent.chooseBestSplit]
  omega

/-! ### `buildTree` -/

theorem buildTreeWith_shaped (choose : List Record → Chance → (Int × ℚ) × Chance) :
    ∀ (fuel : Nat) (records : List Record) (depth : Int) (c : Chance) (t : DecisionTree)
      (c1 : Chance), 0 ≤ depth → buildTreeWith choose fuel records depth c = some (t, c1) →
      t ≠ .nil ∧ (t.splits : Int) ≤ depth ∧ t.shaped records depth = true ∧
        (t.isLeaf = true ↔ (depth = 0 ∨ records.length = 0)) := by
  intro fuel
  induction fuel with
  | zero => intro records depth c t c1 _ h; simp [buildTreeWith] at h
  | succ fuel ih =>
    intro records depth c t c1 h0 h
    unfold buildTreeWith at h
    by_cases hc : depth = 0 ∨ records.length = 0
    · rw [if_pos hc] at h
      simp only [Option.some.injEq, Prod.mk.injEq] at h
      rw [← h.1]
      refine ⟨by simp, ?_, ?_, ?_⟩
      · simp [DecisionTree.splits]
        exact h0
      · rw [DecisionTree.shaped, if_pos hc]
        simp
      · exact ⟨fun _ => hc, fun _ => by simp [DecisionTree.isLeaf]⟩
    · rw [if_neg hc] at h
      have hd : depth ≠ 0 := fun h => hc (Or.inl h)
      have h1 : 0 ≤ depth - 1 := by omega
      cases hl : buildTreeWith choose fuel
          (splitRecords records (choose records c).1.1 (choose records c).1.2).1
          (depth - 1) (choose records c).2 with
      | none => rw [hl] at h; cases h
      | some p =>
        obtain ⟨l, c2⟩ := p
        rw [hl] at h
        simp only [] at h
        cases hr : buildTreeWith choose fuel
            (splitRecords records (choose records c).1.1 (choose records c).1.2).2
            (depth - 1) c2 with
        | none => rw [hr] at h; cases h
        | some q =>
          obtain ⟨r, c3⟩ := q
          rw [hr] at h
          simp only [Option.some.injEq, Prod.mk.injEq] at h
          obtain ⟨hl1, hl2, hl3, _⟩ := ih _ _ _ l c2 h1 hl
          obtain ⟨hr1, hr2, hr3, _⟩ := ih _ _ _ r c3 h1 hr
          rw [← h.1]
          have hnl : ¬ (l = DecisionTree.nil ∧ r = DecisionTree.nil) := fun hh => hl1 hh.1
          refine ⟨by simp, ?_, ?_, ?_⟩
          · simp only [DecisionTree.splits, if_neg hnl]
            have : ((1 + max l.splits r.splits : Nat) : Int) = 1 + max (l.splits : Int) r.splits := by
              push_cast
              rfl
            rw [this]
            have := max_le hl2 hr2
            omega
          · simp only [DecisionTree.shaped, if_neg hc, hl3, hr3, Bool.and_true, Bool.and_eq_true,
              decide_eq_true_eq]
            exact ⟨hl1, hr1⟩
          · simp only [DecisionTree.isLeaf, decide_eq_true_eq]
            exact ⟨fun hh => absurd hh hnl, fun hh => absurd hh hc⟩

/-- C17. For every `depth >= 0`, every record list and every outcome of the
draws, `buildTree` (both variants) terminates: with recursion bound above
`depth` the model returns a tree. The tree is not nil; every path from the root
to a leaf passes through at most `depth` split nodes; the tree has the shape of
the recursion: a node is a leaf (no children) exactly when its remaining depth is
0 or its record subset is empty, and every other node has two non-nil
children. -/
theorem buildTree_shape (records : List Record) (depth : Int) (fuel : Nat) (c : Chance)
    (h0 : 0 ≤ depth) (hf : depth.toNat < fuel) :
    (∃ t c1, Sequential.buildTree fuel records depth c = some (t, c1) ∧
      t ≠ .nil ∧ (t.splits : Int) ≤ depth ∧ t.shaped records depth = true ∧
      (t.isLeaf = true ↔ (depth = 0 ∨ records.length = 0))) ∧
    (∃ t c1, Concurrent.buildTree fuel records depth c = some (t, c1) ∧
      t ≠ .nil ∧ (t.splits : Int) ≤ depth ∧ t.shaped records depth = true ∧
      (t.isLeaf = true ↔ (depth = 0 ∨ records.length = 0))) := by
  constructor
  · obtain ⟨t, c1, ht, _⟩ := buildTreeWith_total Sequential.chooseBestSplit fuel records depth c
      h0 hf
    exact ⟨t, c1, ht, buildTreeWith_shaped _ fuel records depth c t c1 h0 ht⟩
  · obtain ⟨t, c1, ht, _⟩ := buildTreeWith_total Concurrent.chooseBestSplit fuel records depth c
      h0 hf
    exact ⟨t, c1, ht, buildTreeWith_shaped _ fuel records depth c t c1 h0 ht⟩

/-- C17, witness: the call of the test drivers, depth 5, on one record. -/
theorem buildTree_shape_witness :
    ∃ t c1, Concurrent.buildTree 6 [{ Age := 30, Income := ">50K" }] 5 { draws := fun k => k }
        = some (t, c1) ∧
      t ≠ .nil ∧ (t.splits : Int) ≤ 5 ∧
      t.shaped [{ Age := 30, Income := ">50K" }] 5 = true ∧
      (t.isLeaf = true ↔ ((5 : Int) = 0 ∨ [({ Age := 30, Income := ">50K" } : Record)].length = 0)) :=
  (buildTree_shape [{ Age := 30, Income := ">50K" }] 5 6 { draws := fun k => k }
    (by decide) (by decide)).2

/-! ### `splitRecords` -/

theorem splitRecords_fold (feature : Int) (threshold : ℚ) :
    ∀ (records : List Record) (acc : List Record × List Record),
      records.foldl (fun (acc : List Record × List Record) record =>
        if featureValue feature record < threshold then (acc.1 ++ [record], acc.2)
        else (acc.1, acc.2 ++ [record])) acc
      = (acc.1 ++ records.filter (fun r => featureValue feature r < threshold),
         acc.2 ++ records.filter (fun r => threshold ≤ featureValue feature r))
  | [], acc => by simp
  | r :: rest, acc => by
    simp only [List.foldl_cons]
    rw [splitRecords_fold feature threshold rest]
    by_cases h : featureValue feature r < threshold
    · have h2 : ¬ threshold ≤ featureValue feature r := not_le.mpr h
      simp [h, h2]
    · have h2 : threshold ≤ featureValue feature r := not_lt.mp h
      simp [h, h2]

theorem filter_lengths (feature : Int) (threshold : ℚ) : ∀ records : List Record,
    (records.filter (fun r => featureValue feature r < threshold)).length
      + (records.filter (fun r => threshold ≤ featureValue feature r)).length = records.length
  | [] => rfl
  | r :: rest => by
    have ih := filter_lengths feature threshold rest
    by_cases h : featureValue feature r < threshold
    · have h2 : ¬ threshold ≤ featureValue feature r := not_le.mpr h
      simp only [List.filter_cons, h, h2, decide_True, decide_False, if_true, List.length_cons,
        Bool.false_eq_true, if_false]
      omega
    · have h2 : threshold ≤ featureValue feature r := not_lt.mp h
      simp only [List.filter_cons, h, h2, decide_True, decide_False, if_true, List.length_cons,
        Bool.false_eq_true, if_false]
      omega

/-- C18. For every record list, feature index and threshold, `splitRecords`
returns `(left, right)` where `left` is the list of the records whose selected
feature value is `< threshold` and `right` the list of those whose value is
`>= threshold`, each in input order. Every record of the input is in one of the
two and no record is in both, and `len(left) + len(right) = len(records)`. A
feature index without a `case` reads as the feature value 0. -/
theorem splitRecords_partition (records : List Record) (feature : Int) (threshold : ℚ) :
    splitRecords records feature threshold
      = (records.filter (fun r => featureValue feature r < threshold),
         records.filter (fun r => threshold ≤ featureValue feature r)) ∧
    (splitRecords records feature threshold).1.length
      + (splitRecords records feature threshold).2.length = records.length ∧
    (∀ r, r ∈ records ↔ (r ∈ (splitRecords records feature threshold).1 ∨
      r ∈ (splitRecords records feature threshold).2)) ∧
    (∀ r, ¬ (r ∈ (splitRecords records feature threshold).1 ∧
      r ∈ (splitRecords records feature threshold).2)) ∧
    (feature ∉ recognisedFeatures → ∀ r, featureValue feature r = 0) := by
  have heq : splitRecords records feature threshold
      = (records.filter (fun r => featureValue feature r < threshold),
         records.filter (fun r => threshold ≤ featureValue feature r)) := by
    unfold splitRecords
    rw [splitRecords_fold feature threshold records ([], [])]
    simp
  refine ⟨heq, ?_, ?_, ?_, ?_⟩
  · rw [heq]
    exact filter_lengths feature threshold records
  · intro r
    rw [heq]
    simp only [List.mem_filter, decide_eq_true_eq]
    constructor
    · intro hr
      rcases lt_or_le (featureValue feature r) threshold with h | h
      · exact Or.inl ⟨hr, h⟩
      · exact Or.inr ⟨hr, h⟩
    · rintro (h | h) <;> exact h.1
  · intro r
    rw [heq]
    simp only [List.mem_filter, decide_eq_true_eq]
    rintro ⟨⟨_, h1⟩, ⟨_, h2⟩⟩
    exact absurd h1 (not_lt.mpr h2)
  · intro hf r
    simp only [recognisedFeatures, List.mem_cons, List.mem_singleton, List.not_mem_nil,
      or_false, not_or] at hf
    obtain ⟨h0, h2, h4, h10, h11, h12⟩ := hf
    simp [featureValue, h0, h2, h4, h10, h11, h12]

/-- C18, witness: feature 1 has no `case`, so it reads as 0. -/
theorem splitRecords_partition_witness :
    ∀ r : Record, featureValue 1 r = 0 :=
  (splitRecords_partition [] 1 0).2.2.2.2 (by decide)

/-! ### `bootstrapSample` -/

theorem bootstrapLoop_spec (records : List Record) (hne : records ≠ []) :
    ∀ (n : Nat) (sample : List Record) (c : Chance),
      (bootstrapLoop records n sample c).1.length = sample.length + n ∧
      (∀ r ∈ (bootstrapLoop records n sample c).1, r ∈ sample ∨ r ∈ records) ∧
      (bootstrapLoop records n sample c).2.pos = c.pos + n ∧
      (bootstrapLoop records n sample c).2.draws = c.draws
  | 0, sample, c => ⟨rfl, fun r hr => Or.inl hr, rfl, rfl⟩
  | n + 1, sample, c => by
    have hlen : 0 < records.length := List.length_pos.mpr hne
    have hlt := Chance.Intn_lt records.length hlen c
    have hget : records[(c.Intn records.length).1]? = some (records[(c.Intn records.length).1]) :=
      List.getElem?_eq_getElem hlt
    obtain ⟨h1, h2, h3, h4⟩ := bootstrapLoop_spec records hne n
      (sample ++ [records[(c.Intn records.length).1]]) (c.Intn records.length).2
    simp only [bootstrapLoop, hget]
    refine ⟨?_, ?_, ?_, ?_⟩
    · rw [h1]
      simp only [List.length_append, List.length_singleton]
      omega
    · intro r hr
      rcases h2 r hr with h | h
      · rcases List.mem_append.mp h with h | h
        · exact Or.inl h
        · rw [List.mem_singleton.mp h]
          exact Or.inr (List.getElem_mem _)
      · exact Or.inr h
    · rw [h3]
      simp only [Chance.Intn, Chance.next]
      omega
    · rw [h4]
      rfl

theorem filterMap_range_succ {α : Type} (f : Nat → Option α) (n : Nat) :
    (List.range (n + 1)).filterMap f
      = (match f 0 with | some a => [a] | none => [])
        ++ (List.range n).filterMap (fun i => f (i + 1)) := by
  rw [List.range_succ_eq_map, List.filterMap_cons, List.filterMap_map]
  cases f 0 <;> rfl

/-- The loop of `bootstrapSample` appends, for each iteration, the record at the
index drawn: the draw modulo the number of records. -/
theorem bootstrapLoop_eq (records : List Record) :
    ∀ (n : Nat) (sample : List Record) (c : Chance),
      (bootstrapLoop records n sample c).1
        = sample ++ (List.range n).filterMap
            (fun i => records[c.draws (c.pos + i) % records.length]?)
  | 0, sample, c => by simp [bootstrapLoop]
  | n + 1, sample, c => by
    rw [filterMap_range_succ]
    simp only [bootstrapLoop, Chance.Intn, Chance.next, Nat.add_zero]
    cases h : records[c.draws c.pos % records.length]? with
    | none =>
      simp only []
      rw [bootstrapLoop_eq records n sample]
      simp only [List.nil_append]
      congr 2
      funext i
      congr 3
      omega
    | some r =>
      simp only []
      rw [bootstrapLoop_eq records n (sample ++ [r])]
      simp only [List.append_assoc]
      congr 3
      funext i
      congr 3
      omega

theorem filterMap_range_length {α : Type} (f : Nat → Option α) :
    ∀ n : Nat, (∀ i, i < n → (f i).isSome = true) → ((List.range n).filterMap f).length = n
  | 0, _ => rfl
  | n + 1, h => by
    rw [List.range_succ, List.filterMap_append, List.length_append,
      filterMap_range_length f n (fun i hi => h i (by omega))]
    have hn := h n (by omega)
    cases hf : f n with
    | none => rw [hf] at hn; cases hn
    | some a => simp [List.filterMap_cons, hf]

theorem filterMap_range_getElem? {α : Type} (f : Nat → Option α) :
    ∀ n : Nat, (∀ i, i < n → (f i).isSome = true) →
      ∀ i, i < n → ((List.range n).filterMap f)[i]? = f i
  | 0, _, i, hi => by omega
  | n + 1, h, i, hi => by
    have hlen := filterMap_range_length f n (fun i hi => h i (by omega))
    rw [List.range_succ, List.filterMap_append]
    by_cases hin : i < n
    · rw [List.getElem?_append_left (by omega)]
      exact filterMap_range_getElem? f n (fun i hi => h i (by omega)) i hin
    · have hi2 : i = n := by omega
      subst hi2
      rw [List.getElem?_append_right (by omega), hlen]
      have hn := h i (by omega)
      cases hf : f i with
      | none => rw [hf] at hn; cases hn
      | some a => simp [List.filterMap_cons, hf]

theorem filterMap_range_getElem?_self {α : Type} : ∀ l : List α,
    (List.range l.length).filterMap (fun i => l[i]?) = l
  | [] => rfl
  | a :: t => by
    rw [List.length_cons, filterMap_range_succ]
    simp only [List.getElem?_cons_zero, List.getElem?_cons_succ]
    rw [filterMap_range_getElem?_self t]
    rfl

/-- C19. For every record list and every outcome of the random draws,
`bootstrapSample` returns a list of the same length as the input, every element
of which is an element of the input: its `i`-th element is the input record at
the index of the `i`-th draw (the draw modulo the number of records), so it
makes one draw per element and the same record appears as often as its index is
drawn. Every list of that length made of records of the input, with any
repetitions, is the sample for some outcome of the draws. For an empty input it
returns an empty sample without drawing. The function only reads the input
list: the embedding has no output for it because the source has no write to
it. -/
theorem bootstrapSample_spec (records : List Record) (c : Chance) :
    (bootstrapSample records c).1.length = records.length ∧
    (∀ r ∈ (bootstrapSample records c).1, r ∈ records) ∧
    (bootstrapSample records c).1 = (List.range records.length).filterMap
      (fun i => records[c.draws (c.pos + i) % records.length]?) ∧
    (∀ i, i < records.length →
      (bootstrapSample records c).1[i]? = records[c.draws (c.pos + i) % records.length]? ∧
      c.draws (c.pos + i) % records.length < records.length) ∧
    (bootstrapSample records c).2.pos = c.pos + records.length ∧
    (bootstrapSample records c).2.draws = c.draws ∧
    (records = [] → bootstrapSample records c = ([], c)) ∧
    (∀ target : List Record, target.length = records.length → (∀ r ∈ target, r ∈ records) →
      ∃ c2 : Chance, (bootstrapSample records c2).1 = target) := by
  have hclosed : ∀ c2 : Chance, (bootstrapSample records c2).1
      = (List.range records.length).filterMap
        (fun i => records[c2.draws (c2.pos + i) % records.length]?) := by
    intro c2
    unfold bootstrapSample
    rw [bootstrapLoop_eq records records.length [] c2, List.nil_append]
  have hsurj : ∀ target : List Record, target.length = records.length →
      (∀ r ∈ target, r ∈ records) → ∃ c2 : Chance, (bootstrapSample records c2).1 = target := by
    intro target hlen hmem
    refine ⟨{ draws := fun i => match target[i]? with
                | some r => records.indexOf r
                | none => 0 }, ?_⟩
    rw [hclosed]
    simp only [Nat.zero_add]
    have hfun : ∀ i, i < records.length →
        records[(match target[i]? with
          | some r => records.indexOf r
          | none => 0) % records.length]? = target[i]? := by
      intro i hi
      have hti : i < target.length := by omega
      rw [List.getElem?_eq_getElem hti]
      simp only []
      have hin : target[i] ∈ records := hmem _ (List.getElem_mem _)
      have hlt : records.indexOf target[i] < records.length := List.indexOf_lt_length.mpr hin
      rw [Nat.mod_eq_of_lt hlt, List.getElem?_eq_getElem hlt, List.getElem_indexOf]
    have hcongr : (List.range records.length).filterMap (fun i =>
          records[(match target[i]? with
            | some r => records.indexOf r
            | none => 0) % records.length]?)
        = (List.range records.length).filterMap (fun i => target[i]?) := by
      apply List.filterMap_congr
      intro i hi
      exact hfun i (List.mem_range.mp hi)
    rw [hcongr, ← hlen]
    exact filterMap_range_getElem?_self target
  by_cases hne : records = []
  · subst hne
    refine ⟨rfl, ?_, hclosed c, ?_, rfl, rfl, fun _ => rfl, hsurj⟩
    · intro r hr
      simp [bootstrapSample, bootstrapLoop] at hr
    · intro i hi
      simp at hi
  · obtain ⟨h1, h2, h3, h4⟩ := bootstrapLoop_spec records hne records.length [] c
    have hpos : 0 < records.length := List.length_pos.mpr hne
    refine ⟨?_, ?_, hclosed c, ?_, h3, h4, fun h => absurd h hne, hsurj⟩
    · unfold bootstrapSample
      rw [h1]
      simp
    · intro r hr
      rcases h2 r hr with h | h
      · simp at h
      · exact h
    · intro i hi
      refine ⟨?_, Nat.mod_lt _ hpos⟩
      rw [hclosed c]
      apply filterMap_range_getElem? _ records.length _ i hi
      intro k _
      rw [List.getElem?_eq_getElem (Nat.mod_lt _ hpos)]
      rfl

/-- C19, witness: from two records, with every draw 0, the sample is the first
record twice; the second record is not in it. -/
theorem bootstrapSample_spec_witness :
    (bootstrapSample [{ Age := 30, Income := ">50K" }, { Age := 40, Income := "<=50K" }]
        { draws := fun _ => 0 }).1
      = [{ Age := 30, Income := ">50K" }, { Age := 30, Income := ">50K" }] :=
  (bootstrapSample_spec [{ Age := 30, Income := ">50K" }, { Age := 40, Income := "<=50K" }]
    { draws := fun _ => 0 }).2.2.1.trans (by decide)

end RF

namespace ANN

/-- The function `sigmoidDerivative` of the embedding is `x * (1 - x)` read in the
rationals, and agrees with its reading in the reals. -/
theorem sigmoidDerivative_cast (q : ℚ) :
    sigmoidDerivative q = sigmoidDerivativeIn ℚ q ∧
    ((sigmoidDerivative q : ℚ) : ℝ) = sigmoidDerivativeIn ℝ (q : ℝ) := by
  refine ⟨rfl, ?_⟩
  unfold sigmoidDerivative sigmoidDerivativeIn
  push_cast
  rfl

theorem hasDerivAt_sigmoid (z : ℝ) :
    HasDerivAt (fun t : ℝ => 1 / (1 + Real.exp (-t)))
      (sigmoidDerivativeIn ℝ (1 / (1 + Real.exp (-z)))) z := by
  have hpos : 0 < 1 + Real.exp (-z) := by positivity
  have hne : 1 + Real.exp (-z) ≠ 0 := ne_of_gt hpos
  have h1 : HasDerivAt (fun t : ℝ => Real.exp (-t)) (Real.exp (-z) * (-1)) z :=
    (Real.hasDerivAt_exp (-z)).comp z (hasDerivAt_neg z)
  have h2 : HasDerivAt (fun t : ℝ => 1 + Real.exp (-t)) (Real.exp (-z) * (-1)) z :=
    h1.const_add 1
  have h3 := h2.inv hne
  have h4 : (fun t : ℝ => 1 / (1 + Real.exp (-t))) = (fun t : ℝ => 1 + Real.exp (-t))⁻¹ := by
    funext t
    simp [one_div]
  rw [h4]
  have h5 : sigmoidDerivativeIn ℝ (1 / (1 + Real.exp (-z)))
      = -(Real.exp (-z) * (-1)) / (1 + Real.exp (-z)) ^ 2 := by
    unfold sigmoidDerivativeIn
    field_simp
    ring
  rw [h5]
  exact h3

/-- C20. `sigmoidDerivative` is the derivative of the sigmoid expressed in terms
of the sigmoid's output, over the reals: for every real `z`, the function
`sigmoid(t) = 1/(1+exp(-t))` is differentiable at `z` and its derivative there is
`sigmoidDerivative(sigmoid(z))`, where `sigmoidDerivative(x) = x * (1 - x)` is
the expression of the source read in the reals; on rational arguments it is the
function `sigmoidDerivative` of the embedding. -/
theorem sigmoidDerivative_is_derivative :
    (∀ z : ℝ, HasDerivAt (fun t : ℝ => 1 / (1 + Real.exp (-t)))
      (sigmoidDerivativeIn ℝ (1 / (1 + Real.exp (-z)))) z) ∧
    (∀ z : ℝ, deriv (fun t : ℝ => 1 / (1 + Real.exp (-t))) z
      = sigmoidDerivativeIn ℝ (1 / (1 + Real.exp (-z)))) ∧
    (∀ q : ℚ, ((sigmoidDerivative q : ℚ) : ℝ) = sigmoidDerivativeIn ℝ (q : ℝ)) :=
  ⟨hasDerivAt_sigmoid, fun z => (hasDerivAt_sigmoid z).deriv,
    fun q => (sigmoidDerivative_cast q).2⟩

end ANN

namespace CF

/-! ## `SplitData` and the rounding of its `float64` product -/

theorem roundHalfEven_le (x : ℚ) (N : Int) (h : x ≤ (N : ℚ)) : roundHalfEven x ≤ N := by
  have hfl : (Int.floor x : ℚ) ≤ x := Int.floor_le x
  have hfN : Int.floor x ≤ N := by
    have : ((Int.floor x : Int) : ℚ) ≤ (N : ℚ) := le_trans hfl h
    exact_mod_cast this
  have hstep : ¬ x - (Int.floor x : ℚ) < 1 / 2 → Int.floor x + 1 ≤ N := by
    intro hc
    by_contra hlt
    have heq : Int.floor x = N := by omega
    rw [heq] at hc
    apply hc
    linarith
  unfold roundHalfEven
  split_ifs with h1 h2 h3
  · exact hfN
  · exact hstep h1
  · exact hfN
  · exact hstep h1

theorem le_roundHalfEven (x : ℚ) (N : Int) (h : (N : ℚ) ≤ x) : N ≤ roundHalfEven x := by
  have hfN : N ≤ Int.floor x := Int.le_floor.mpr h
  unfold roundHalfEven
  split_ifs <;> omega

theorem float64Ulp_nonpos (x : ℚ) (h0 : 0 ≤ x) (h : x < 2 ^ 53) : float64Ulp x ≤ 0 := by
  unfold float64Ulp
  rw [abs_of_nonneg h0]
  apply max_le _ (by norm_num)
  rcases eq_or_lt_of_le h0 with h1 | h1
  · rw [← h1, Int.log_of_right_le_zero 2 (le_refl _)]
    norm_num
  · have hlog : Int.log 2 x < 53 := by
      rw [← Int.lt_zpow_iff_log_lt (by norm_num) h1]
      norm_num
      exact h
    omega

theorem zpow_le_of_ulp_pos (x : ℚ) (h0 : 0 ≤ x) (h : 0 < float64Ulp x) :
    (2 : ℚ) ^ (float64Ulp x + 52) ≤ x := by
  unfold float64Ulp at h ⊢
  rw [abs_of_nonneg h0] at h ⊢
  have hpos : 0 < x := by
    rcases eq_or_lt_of_le h0 with h1 | h1
    · rw [← h1, Int.log_of_right_le_zero 2 (le_refl _)] at h
      norm_num at h
    · exact h1
  have hm : max (Int.log 2 x - 52) (-1074) = Int.log 2 x - 52 := by
    apply max_eq_left
    omega
  rw [hm] at h ⊢
  have := Int.zpow_log_le_self (R := ℚ) (b := 2) (by norm_num) hpos
  simpa using this

theorem zpow_ulp_eq (e : Int) (he : e ≤ 0) : (2 : ℚ) ^ e = ((2 : ℚ) ^ (-e).toNat)⁻¹ := by
  have h : e = -((-e).toNat : Int) := by omega
  conv_lhs => rw [h]
  rw [zpow_neg, zpow_natCast]

theorem roundFloat64_le (x : ℚ) (N : Nat) (h0 : 0 ≤ x) (h : x ≤ (N : ℚ)) (hN : N < 2 ^ 53) :
    roundFloat64 x ≤ (N : ℚ) := by
  have hx : x < 2 ^ 53 := lt_of_le_of_lt h (by exact_mod_cast hN)
  have he := float64Ulp_nonpos x h0 hx
  have hp : (0 : ℚ) < (2 : ℚ) ^ (-float64Ulp x).toNat := by positivity
  unfold roundFloat64
  rw [zpow_ulp_eq _ he, div_inv_eq_mul]
  have h1 : x * (2 : ℚ) ^ (-float64Ulp x).toNat
      ≤ (((N : Int) * 2 ^ (-float64Ulp x).toNat : Int) : ℚ) := by
    push_cast
    exact mul_le_mul_of_nonneg_right h (le_of_lt hp)
  have h2 := roundHalfEven_le _ _ h1
  have h3 : (roundHalfEven (x * (2 : ℚ) ^ (-float64Ulp x).toNat) : ℚ)
      ≤ (N : ℚ) * (2 : ℚ) ^ (-float64Ulp x).toNat := by
    have : ((roundHalfEven (x * (2 : ℚ) ^ (-float64Ulp x).toNat) : Int) : ℚ)
        ≤ (((N : Int) * 2 ^ (-float64Ulp x).toNat : Int) : ℚ) := by exact_mod_cast h2
    simpa using this
  rw [← div_eq_mul_inv, div_le_iff₀ hp]
  exact h3

theorem le_roundFloat64 (x : ℚ) (N : Nat) (h0 : 0 ≤ x) (h : (N : ℚ) ≤ x) (hN : N ≤ 2 ^ 53) :
    (N : ℚ) ≤ roundFloat64 x := by
  rcases le_or_lt (float64Ulp x) 0 with he | he
  · have hp : (0 : ℚ) < (2 : ℚ) ^ (-float64Ulp x).toNat := by positivity
    unfold roundFloat64
    rw [zpow_ulp_eq _ he, div_inv_eq_mul]
    have h1 : (((N : Int) * 2 ^ (-float64Ulp x).toNat : Int) : ℚ)
        ≤ x * (2 : ℚ) ^ (-float64Ulp x).toNat := by
      push_cast
      exact mul_le_mul_of_nonneg_right h (le_of_lt hp)
    have h2 := le_roundHalfEven _ _ h1
    have h3 : (N : ℚ) * (2 : ℚ) ^ (-float64Ulp x).toNat
        ≤ (roundHalfEven (x * (2 : ℚ) ^ (-float64Ulp x).toNat) : ℚ) := by
      have : (((N : Int) * 2 ^ (-float64Ulp x).toNat : Int) : ℚ)
          ≤ ((roundHalfEven (x * (2 : ℚ) ^ (-float64Ulp x).toNat) : Int) : ℚ) := by
        exact_mod_cast h2
      simpa using this
    rw [← div_eq_mul_inv, le_div_iff₀ hp]
    exact h3
  · have hz := zpow_le_of_ulp_pos x h0 he
    have hp : (0 : ℚ) < (2 : ℚ) ^ float64Ulp x := by positivity
    have h1 : (((2 : Int) ^ 52 : Int) : ℚ) ≤ x / (2 : ℚ) ^ float64Ulp x := by
      rw [le_div_iff₀ hp]
      rw [zpow_add₀ (by norm_num)] at hz
      push_cast
      have h52 : (2 : ℚ) ^ (52 : Int) = (2 : ℚ) ^ 52 := by norm_cast
      rw [h52] at hz
      linarith
    have h2 := le_roundHalfEven _ _ h1
    have h3 : ((2 : ℚ) ^ 52) ≤ (roundHalfEven (x / (2 : ℚ) ^ float64Ulp x) : ℚ) := by
      have : (((2 : Int) ^ 52 : Int) : ℚ)
          ≤ ((roundHalfEven (x / (2 : ℚ) ^ float64Ulp x) : Int) : ℚ) := by exact_mod_cast h2
      simpa using this
    have h4 : (2 : ℚ) ≤ (2 : ℚ) ^ float64Ulp x := by
      have : (2 : ℚ) ^ (1 : Int) ≤ (2 : ℚ) ^ float64Ulp x :=
        zpow_le_zpow_right₀ (by norm_num) (by omega)
      simpa using this
    have h5 : (N : ℚ) ≤ 2 ^ 53 := by exact_mod_cast hN
    unfold roundFloat64
    calc (N : ℚ) ≤ 2 ^ 53 := h5
      _ = 2 ^ 52 * 2 := by norm_num
      _ ≤ (roundHalfEven (x / (2 : ℚ) ^ float64Ulp x) : ℚ) * (2 : ℚ) ^ float64Ulp x :=
        mul_le_mul h3 h4 (by norm_num) (le_trans (by positivity) h3)

/-- A natural number below `2^53` is a `float64`: its conversion is exact. -/
theorem roundFloat64_natCast (N : Nat) (hN : N < 2 ^ 53) : roundFloat64 (N : ℚ) = (N : ℚ) :=
  le_antisymm (roundFloat64_le _ N (Nat.cast_nonneg N) (le_refl _) hN)
    (le_roundFloat64 _ N (Nat.cast_nonneg N) (le_refl _) (le_of_lt hN))

theorem float64Ulp_eq (x : ℚ) (k : Int) (hx : 0 < x) (h1 : (2 : ℚ) ^ k ≤ x)
    (h2 : x < (2 : ℚ) ^ (k + 1)) (hk : -1022 ≤ k) : float64Ulp x = k - 52 := by
  have hl1 : k ≤ Int.log 2 x := by
    rw [← Int.zpow_le_iff_le_log (by norm_num) hx]
    simpa using h1
  have hl2 : Int.log 2 x < k + 1 := by
    rw [← Int.lt_zpow_iff_log_lt (by norm_num) hx]
    simpa using h2
  unfold float64Ulp
  rw [abs_of_pos hx]
  omega

theorem roundHalfEven_down (x : ℚ) (m : Int) (h1 : (m : ℚ) ≤ x) (h2 : x < (m : ℚ) + 1 / 2) :
    roundHalfEven x = m := by
  have hf : Int.floor x = m := by
    rw [Int.floor_eq_iff]
    exact ⟨h1, by linarith⟩
  unfold roundHalfEven
  rw [hf, if_pos (by linarith)]

theorem roundHalfEven_tie_odd (x : ℚ) (m : Int) (h : x = (m : ℚ) + 1 / 2) (hodd : m % 2 = 1) :
    roundHalfEven x = m + 1 := by
  have hf : Int.floor x = m := by
    rw [Int.floor_eq_iff]
    exact ⟨by linarith, by linarith⟩
  unfold roundHalfEven
  rw [hf, if_neg (by linarith), if_neg (by linarith), if_neg (by omega)]

theorem roundFloat64_float07 : roundFloat64 (float07 * 10) = 7 := by
  have hu : float64Ulp (float07 * 10) = 2 - 52 :=
    float64Ulp_eq _ 2 (by norm_num [float07]) (by norm_num [float07]) (by norm_num [float07])
      (by norm_num)
  have hr : roundHalfEven (float07 * 10 / (2 : ℚ) ^ ((2 : Int) - 52)) = 7881299347898367 + 1 :=
    roundHalfEven_tie_odd _ 7881299347898367 (by norm_num [float07]) (by decide)
  unfold roundFloat64
  rw [hu, hr]
  norm_num

theorem roundFloat64_float08 : roundFloat64 (float08 * 1000) = 800 := by
  have hu : float64Ulp (float08 * 1000) = 9 - 52 :=
    float64Ulp_eq _ 9 (by norm_num [float08]) (by norm_num [float08]) (by norm_num [float08])
      (by norm_num)
  have hr : roundHalfEven (float08 * 1000 / (2 : ℚ) ^ ((9 : Int) - 52)) = 7036874417766400 :=
    roundHalfEven_down _ 7036874417766400 (by norm_num [float08]) (by norm_num [float08])
  unfold roundFloat64
  rw [hu, hr]
  norm_num

/-- For a ratio in `[0, 1]` and fewer than `2^53` ratings, the train size is the
integer part of the rounded product; it lies within the list, and it is the
integer part of the exact product or one more. -/
theorem trainSize_bounds (ratings : List Rating) (trainRatio : ℚ)
    (hn : ratings.length < 2 ^ 53) (h0 : 0 ≤ trainRatio) (h1 : trainRatio ≤ 1) :
    trainSize ratings trainRatio
      = Int.floor (roundFloat64 (trainRatio * (ratings.length : ℚ))) ∧
    0 ≤ trainSize ratings trainRatio ∧ trainSize ratings trainRatio ≤ (ratings.length : Int) ∧
    Int.floor (trainRatio * (ratings.length : ℚ)) ≤ trainSize ratings trainRatio ∧
    trainSize ratings trainRatio ≤ Int.floor (trainRatio * (ratings.length : ℚ)) + 1 := by
  have hn0 : (0 : ℚ) ≤ (ratings.length : ℚ) := Nat.cast_nonneg _
  have hprod : 0 ≤ trainRatio * (ratings.length : ℚ) := mul_nonneg h0 hn0
  have hle : trainRatio * (ratings.length : ℚ) ≤ (ratings.length : ℚ) := by
    calc trainRatio * (ratings.length : ℚ) ≤ 1 * (ratings.length : ℚ) :=
          mul_le_mul_of_nonneg_right h1 hn0
      _ = (ratings.length : ℚ) := one_mul _
  have hup := roundFloat64_le _ ratings.length hprod hle hn
  have hfl0 : 0 ≤ Int.floor (trainRatio * (ratings.length : ℚ)) := Int.floor_nonneg.mpr hprod
  have hfln : Int.floor (trainRatio * (ratings.length : ℚ)) ≤ (ratings.length : Int) := by
    have h2 : Int.floor (trainRatio * (ratings.length : ℚ)) ≤ Int.floor ((ratings.length : ℚ)) :=
      Int.floor_mono hle
    have h3 : Int.floor ((ratings.length : ℚ)) = (ratings.length : Int) := Int.floor_natCast _
    omega
  have hcast : (((Int.floor (trainRatio * (ratings.length : ℚ))).toNat : Nat) : ℚ)
      = ((Int.floor (trainRatio * (ratings.length : ℚ)) : Int) : ℚ) := by
    have : (((Int.floor (trainRatio * (ratings.length : ℚ))).toNat : Nat) : Int)
        = Int.floor (trainRatio * (ratings.length : ℚ)) := Int.toNat_of_nonneg hfl0
    exact_mod_cast this
  have hlo := le_roundFloat64 (trainRatio * (ratings.length : ℚ))
    (Int.floor (trainRatio * (ratings.length : ℚ))).toNat hprod
    (by rw [hcast]; exact Int.floor_le _) (by omega)
  rw [hcast] at hlo
  have hr0 : 0 ≤ roundFloat64 (trainRatio * (ratings.length : ℚ)) :=
    le_trans (by exact_mod_cast hfl0) hlo
  have hts : trainSize ratings trainRatio
      = Int.floor (roundFloat64 (trainRatio * (ratings.length : ℚ))) := by
    unfold trainSize
    rw [roundFloat64_natCast _ hn]
    simp [floatToInt, hr0]
  rw [hts]
  refine ⟨rfl, Int.floor_nonneg.mpr hr0, ?_, Int.le_floor.mpr hlo, ?_⟩
  · have h2 := Int.floor_mono hup
    have h3 : Int.floor ((ratings.length : ℚ)) = (ratings.length : Int) := Int.floor_natCast _
    omega
  · by_cases hlt : Int.floor (trainRatio * (ratings.length : ℚ)) + 1 ≤ (ratings.length : Int)
    · have hc2 : (((Int.floor (trainRatio * (ratings.length : ℚ)) + 1).toNat : Nat) : ℚ)
          = ((Int.floor (trainRatio * (ratings.length : ℚ)) : Int) : ℚ) + 1 := by
        have : (((Int.floor (trainRatio * (ratings.length : ℚ)) + 1).toNat : Nat) : Int)
            = Int.floor (trainRatio * (ratings.length : ℚ)) + 1 :=
          Int.toNat_of_nonneg (by omega)
        exact_mod_cast this
      have hup2 := roundFloat64_le (trainRatio * (ratings.length : ℚ))
        (Int.floor (trainRatio * (ratings.length : ℚ)) + 1).toNat hprod
        (by rw [hc2]; exact le_of_lt (Int.lt_floor_add_one _)) (by omega)
      rw [hc2] at hup2
      have h4 := Int.floor_mono hup2
      have h5 : Int.floor (((Int.floor (trainRatio * (ratings.length : ℚ)) : Int) : ℚ) + 1)
          = Int.floor (trainRatio * (ratings.length : ℚ)) + 1 := by
        have := Int.floor_intCast (α := ℚ) (Int.floor (trainRatio * (ratings.length : ℚ)) + 1)
        push_cast at this
        exact this
      omega
    · have h2 := Int.floor_mono hup
      have h3 : Int.floor ((ratings.length : ℚ)) = (ratings.length : Int) := Int.floor_natCast _
      omega

/-- C21, as stated, fails: the train size is the integer part of the `float64`
product, not of the exact one. With the `float64` nearest to 0.7 (which is below
0.7) and 10 ratings, the exact product is below 7, so its integer part is 6, but
the product rounds to the `float64` 7 and `SplitData` returns 7 and 3 ratings. -/
theorem SplitData_float07_on_ten :
    0 ≤ float07 ∧ float07 ≤ 1 ∧
    Int.floor (float07 * ((List.replicate 10 (⟨1, 1, 5, 0⟩ : Rating)).length : ℚ)) = 6 ∧
    SplitData (List.replicate 10 ⟨1, 1, 5, 0⟩) float07
      = some (List.replicate 7 ⟨1, 1, 5, 0⟩, List.replicate 3 ⟨1, 1, 5, 0⟩) := by
  have hts : trainSize (List.replicate 10 (⟨1, 1, 5, 0⟩ : Rating)) float07 = 7 := by
    have h10 : roundFloat64 ((10 : Nat) : ℚ) = ((10 : Nat) : ℚ) :=
      roundFloat64_natCast 10 (by norm_num)
    unfold trainSize
    rw [List.length_replicate, h10]
    push_cast
    rw [roundFloat64_float07]
    simp [floatToInt]
  refine ⟨by norm_num [float07], by norm_num [float07], ?_, ?_⟩
  · rw [List.length_replicate, Int.floor_eq_iff]
    norm_num [float07]
  · unfold SplitData
    rw [hts]
    rfl

/-- C21, amended. For every rating list of length `n < 2^53` and every
`trainRatio` with `0 <= trainRatio <= 1`, `SplitData` returns, without panic,
`(trainSet, testSet)` such that `trainSet` followed by `testSet` is the input
list in order, and `trainSet` has exactly the integer part of the `float64`
product `trainRatio * float64(n)`, the exact product rounded to the nearest
`float64`. That is the integer part of the exact product or one more, and it is
the exact product when that is an integer. The ratio 0.8 of `main` (the
`float64` nearest to 0.8) on 1,000 ratings gives 800 and 200. -/
theorem SplitData_float_product (ratings : List Rating) (trainRatio : ℚ)
    (hn : ratings.length < 2 ^ 53) (h0 : 0 ≤ trainRatio) (h1 : trainRatio ≤ 1) :
    ∃ trainSet testSet, SplitData ratings trainRatio = some (trainSet, testSet) ∧
      trainSet ++ testSet = ratings ∧
      (trainSet.length : Int) = Int.floor (roundFloat64 (trainRatio * (ratings.length : ℚ))) ∧
      ((trainSet.length : Int) = Int.floor (trainRatio * (ratings.length : ℚ)) ∨
        (trainSet.length : Int) = Int.floor (trainRatio * (ratings.length : ℚ)) + 1) ∧
      (∀ k : Nat, trainRatio * (ratings.length : ℚ) = (k : ℚ) → trainSet.length = k) ∧
      trainSet.length + testSet.length = ratings.length ∧
      (trainRatio = float08 → ratings.length = 1000 →
        trainSet.length = 800 ∧ testSet.length = 200) := by
  obtain ⟨hts, hnn, hle, hlo, hup⟩ := trainSize_bounds ratings trainRatio hn h0 h1
  have hlen : (ratings.take (trainSize ratings trainRatio).toNat).length
      = (trainSize ratings trainRatio).toNat := by
    rw [List.length_take]
    omega
  refine ⟨ratings.take (trainSize ratings trainRatio).toNat,
    ratings.drop (trainSize ratings trainRatio).toNat, ?_,
    List.take_append_drop _ _, ?_, ?_, ?_, ?_, ?_⟩
  · unfold SplitData
    rw [if_pos ⟨hnn, hle⟩]
  · rw [hlen, ← hts]
    omega
  · rw [hlen]
    omega
  · intro k hk
    have hn0 : (0 : ℚ) ≤ (ratings.length : ℚ) := Nat.cast_nonneg _
    have hkn : (k : ℚ) ≤ (ratings.length : ℚ) := by
      rw [← hk]
      calc trainRatio * (ratings.length : ℚ) ≤ 1 * (ratings.length : ℚ) :=
            mul_le_mul_of_nonneg_right h1 hn0
        _ = (ratings.length : ℚ) := one_mul _
    have hkn2 : k ≤ ratings.length := by exact_mod_cast hkn
    have hr : roundFloat64 (trainRatio * (ratings.length : ℚ)) = (k : ℚ) := by
      rw [hk]
      exact roundFloat64_natCast k (by omega)
    rw [hr, Int.floor_natCast] at hts
    rw [hlen, hts]
    rfl
  · rw [hlen, List.length_drop]
    omega
  · intro hr hl
    have hfl : trainSize ratings trainRatio = 800 := by
      rw [hts, hr, hl]
      push_cast
      rw [roundFloat64_float08]
      norm_num
    rw [hlen, List.length_drop, hfl, hl]
    exact ⟨rfl, rfl⟩

/-- C21, witness: the ratio 0.8 of `main` on 1,000 ratings. -/
theorem SplitData_float_product_witness :
    ∃ trainSet testSet,
      SplitData (List.replicate 1000 ⟨1, 1, 5, 0⟩) float08 = some (trainSet, testSet) ∧
      trainSet ++ testSet = List.replicate 1000 ⟨1, 1, 5, 0⟩ ∧
      trainSet.length = 800 ∧ testSet.length = 200 := by
  obtain ⟨trainSet, testSet, h1, h2, _, _, _, _, h5⟩ :=
    SplitData_float_product (List.replicate 1000 ⟨1, 1, 5, 0⟩) float08
      (by rw [List.length_replicate]; norm_num) (by norm_num [float08]) (by norm_num [float08])
  exact ⟨trainSet, testSet, h1, h2, h5 rfl (List.length_replicate _ _)⟩

end CF

namespace RF

/-- The leaf that `buildTree` makes for an empty record subset has the empty
`Prediction`, whatever the iteration order. -/
theorem majorityLabel_nil (c : Chance) : (majorityLabel [] c).1 = "" := by
  have hp := Chance.rangeOrder_perm (tallyInto [] (([] : List Record).map (·.Income))) c
  have hnil : (c.rangeOrder (tallyInto [] (([] : List Record).map (·.Income)))).1 = [] :=
    hp.eq_nil
  simp only [majorityLabel, hnil]
  rfl

/-- The leaf that `buildTree` makes for a non-empty record subset carries the
`Income` of one of its records. -/
theorem majorityLabel_mem (records : List Record) (hne : records ≠ []) (c : Chance) :
    (majorityLabel records c).1 ∈ records.map (·.Income) := by
  have h := scan_traversal_majority (records.map (·.Income))
    (c.rangeOrder (tallyInto [] (records.map (·.Income)))).1 (Chance.rangeOrder_perm _ _)
  exact h.2.1 (by simpa using hne)

/-- A leaf with the empty `Prediction` makes `predict` dereference a nil child. -/
theorem predict_empty_leaf (record : Record) :
    (DecisionTree.node 0 0 .nil .nil "").predict record = none := by
  simp only [DecisionTree.predict]
  by_cases h : featureValue 0 record < 0 <;> simp [h]

/-- The tree that `buildTree` returns for depth 1 on a non-empty record list: one
split node over two leaves. -/
theorem buildTreeWith_depth_one (choose : List Record → Chance → (Int × ℚ) × Chance)
    (records : List Record) (c : Chance) (hne : records ≠ []) :
    buildTreeWith choose 2 records 1 c = some
      (.node (choose records c).1.1 (choose records c).1.2
        (.node 0 0 .nil .nil (majorityLabel
          (splitRecords records (choose records c).1.1 (choose records c).1.2).1
          (choose records c).2).1)
        (.node 0 0 .nil .nil (majorityLabel
          (splitRecords records (choose records c).1.1 (choose records c).1.2).2
          (majorityLabel
            (splitRecords records (choose records c).1.1 (choose records c).1.2).1
            (choose records c).2).2).1) "",
       (majorityLabel
          (splitRecords records (choose records c).1.1 (choose records c).1.2).2
          (majorityLabel
            (splitRecords records (choose records c).1.1 (choose records c).1.2).1
            (choose records c).2).2).2) := by
  have hlen : ¬ ((1 : Int) = 0 ∨ records.length = 0) := by
    rintro (h | h)
    · omega
    · exact hne (List.length_eq_zero.mp h)
  simp only [buildTreeWith, if_neg hlen]
  simp

theorem halfChance_split (records : List Record) :
    (Sequential.chooseBestSplit records halfChance).1 = (0, 50) := by
  simp only [Sequential.chooseBestSplit, Chance.Intn, Chance.Float64, Chance.next, halfChance]
  norm_num

theorem zeroChance_split (r : Record) :
    (Concurrent.chooseBestSplit [r] { draws := fun _ => 0 }).1 = (0, (r.Age : ℚ)) := by
  simp [Concurrent.chooseBestSplit, Chance.Intn, Chance.next, featureValue]

/-- C22, as stated, fails. The training list is one record of age 30 with the
non-empty label ">50K", the depth is 1. The split leaves one side empty, and
`buildTree` makes for it a leaf with the empty `Prediction` (as for every empty
record subset, whatever the iteration order of the tally). Sequential variant,
threshold 50: the leaf is the right child, and `predict` on a record of age 60
reaches it, takes it for a split node and follows its nil child. Concurrent
variant, threshold the mean 30: the leaf is the left child, and `predict` on a
record of age 20 does the same. `none` is the nil-pointer panic. -/
theorem predict_follows_nil_child_of_built_tree :
    ({ Age := 30, Income := ">50K" } : Record).Income ≠ "" ∧
    (∀ c : Chance, (majorityLabel [] c).1 = "") ∧
    (∃ left c1, Sequential.buildTree 2 [{ Age := 30, Income := ">50K" }] 1 halfChance
        = some (.node 0 50 left (.node 0 0 .nil .nil "") "", c1) ∧
      (DecisionTree.node 0 50 left (.node 0 0 .nil .nil "") "").predict { Age := 60 } = none) ∧
    (∃ right c1, Concurrent.buildTree 2 [{ Age := 30, Income := ">50K" }] 1
          { draws := fun _ => 0 }
        = some (.node 0 30 (.node 0 0 .nil .nil "") right "", c1) ∧
      (DecisionTree.node 0 30 (.node 0 0 .nil .nil "") right "").predict { Age := 20 } = none) := by
  refine ⟨by decide, majorityLabel_nil, ?_, ?_⟩
  · have hb := buildTreeWith_depth_one Sequential.chooseBestSplit
      [{ Age := 30, Income := ">50K" }] halfChance (List.cons_ne_nil _ _)
    have hs : splitRecords [{ Age := 30, Income := ">50K" }] 0 50
        = ([{ Age := 30, Income := ">50K" }], []) := by
      simp [splitRecords, featureValue]
      norm_num
    rw [halfChance_split] at hb
    simp only [hs, majorityLabel_nil] at hb
    refine ⟨_, _, hb, ?_⟩
    have h60 : ¬ featureValue 0 { Age := 60 } < 50 := by
      simp [featureValue]
      norm_num
    simp only [DecisionTree.predict, h60]
    simp [predict_empty_leaf]
  · have hb := buildTreeWith_depth_one Concurrent.chooseBestSplit
      [{ Age := 30, Income := ">50K" }] { draws := fun _ => 0 } (List.cons_ne_nil _ _)
    have hs : splitRecords [{ Age := 30, Income := ">50K" }] 0 30
        = ([], [{ Age := 30, Income := ">50K" }]) := by
      simp [splitRecords, featureValue]
    rw [zeroChance_split] at hb
    have h30 : (((({ Age := 30, Income := ">50K" } : Record).Age : Int) : ℚ)) = 30 := by
      norm_num
    rw [h30] at hb
    simp only [hs, majorityLabel_nil] at hb
    refine ⟨_, _, hb, ?_⟩
    have h20 : featureValue 0 { Age := 20 } < 30 := by
      simp [featureValue]
      norm_num
    simp only [DecisionTree.predict, h20]
    simp [predict_empty_leaf]

end RF
